import Mathlib

/-!
Verification development for the `packing2D` two-dimensional irregular
bin-packing engine.

The development shallowly embeds the C++ sources (`src/primitives/MArea.cpp`,
`src/primitives/Rectangle.h`, `src/core/Bin.cpp`, `src/core/BinPacking.cpp`,
`src/core/NFPManager.cpp`, `src/utils/Utils.cpp`) into Lean.  Coordinates are
modelled as exact rationals (the idealised reading of the C++ `double`
arithmetic); every operation of the engine is an executable Lean function.

Modelling notes for the external Boost.Geometry kernel, which the repository
calls but does not contain:
* `bg::intersects` on two polygonal regions decides whether the two closed
  point sets share at least one point (touching boundaries intersect).  It is
  modelled by the standard exact decision procedure: two closed polygonal
  regions intersect exactly when some boundary segments intersect or a vertex
  of one region lies in the other region.
* `bg::within(box, box)` is closed containment componentwise.
* `bg::envelope` is the coordinate-wise min/max over all ring points.
* `bg::area` is the shoelace area, outer rings minus hole rings.
* trigonometric evaluation for `MArea::rotate` is abstracted by an explicit
  parameter giving the (cosine, sine) pair of the rotation angle; quarter-turn
  instances use the exact values of the real functions.
-/

/-- Model of `MPointDouble` (`src/primitives/MPointDouble.h`): a planar point
with exact rational coordinates. -/
abbrev Pt : Type := ℚ × ℚ

namespace Pt

/-- The x coordinate accessor of a point. -/
def x (p : Pt) : ℚ := p.1

/-- The y coordinate accessor of a point. -/
def y (p : Pt) : ℚ := p.2

/-- Lexicographic comparison of `MPointDoubleCompare`: first by x, then by y. -/
def ltLex (a b : Pt) : Bool := decide (a.1 < b.1) || (decide (a.1 == b.1) && decide (a.2 < b.2))

end Pt

/-- Model of `Rectangle2D = bg::model::box<MPointDouble>`: a box given by its
min corner and max corner. -/
structure Rectangle2D where
  minC : Pt
  maxC : Pt
deriving DecidableEq, Repr

namespace RectangleUtils

/-- Minimum x of a box (`RectangleUtils::getX`). -/
def getX (r : Rectangle2D) : ℚ := r.minC.1

/-- Minimum y of a box (`RectangleUtils::getY`). -/
def getY (r : Rectangle2D) : ℚ := r.minC.2

/-- Maximum x of a box (`RectangleUtils::getMaxX`). -/
def getMaxX (r : Rectangle2D) : ℚ := r.maxC.1

/-- Maximum y of a box (`RectangleUtils::getMaxY`). -/
def getMaxY (r : Rectangle2D) : ℚ := r.maxC.2

/-- Width of a box (`RectangleUtils::getWidth`). -/
def getWidth (r : Rectangle2D) : ℚ := r.maxC.1 - r.minC.1

/-- Height of a box (`RectangleUtils::getHeight`). -/
def getHeight (r : Rectangle2D) : ℚ := r.maxC.2 - r.minC.2

/-- Model of `bg::intersects` on two boxes: closed boxes are not disjoint
(touching boxes intersect). -/
def intersects (r1 r2 : Rectangle2D) : Bool :=
  decide (r1.minC.1 ≤ r2.maxC.1) && decide (r2.minC.1 ≤ r1.maxC.1) &&
  decide (r1.minC.2 ≤ r2.maxC.2) && decide (r2.minC.2 ≤ r1.maxC.2)

/-- Model of `bg::within(contained, container)` for boxes: closed
componentwise containment (shared borders are allowed, as exercised by the
repository's own compression tests). -/
def contains (container contained : Rectangle2D) : Bool :=
  decide (container.minC.1 ≤ contained.minC.1) && decide (contained.maxC.1 ≤ container.maxC.1) &&
  decide (container.minC.2 ≤ contained.minC.2) && decide (contained.maxC.2 ≤ container.maxC.2)

/-- Model of `RectangleUtils::createIntersection` via `bg::intersection` on
boxes: componentwise max of min corners and min of max corners.  The source
only uses it on boxes that do intersect. -/
def createIntersection (r1 r2 : Rectangle2D) : Rectangle2D :=
  ⟨(max r1.minC.1 r2.minC.1, max r1.minC.2 r2.minC.2),
   (min r1.maxC.1 r2.maxC.1, min r1.maxC.2 r2.maxC.2)⟩

/-- Test whether the first box fits into the second (`RectangleUtils::fits`). -/
def fits (o1 o2 : Rectangle2D) : Bool :=
  decide (getHeight o1 ≤ getHeight o2) && decide (getWidth o1 ≤ getWidth o2)

/-- Test whether the first box rotated by 90 degrees fits into the second
(`RectangleUtils::fitsRotated`). -/
def fitsRotated (o1 o2 : Rectangle2D) : Bool :=
  decide (getHeight o1 ≤ getWidth o2) && decide (getWidth o1 ≤ getHeight o2)

end RectangleUtils

/-- A ring of a polygon: its vertices in order.  Boost stores rings closed
(first vertex repeated at the end); the model stores each vertex once and
treats edges cyclically, which describes the same polyline. -/
abbrev MRing : Type := List Pt

/-- Twice the signed shoelace area of a ring (positive for counter-clockwise
rings).  This models the summation underlying `bg::area`. -/
def shoelace2 : MRing → ℚ
  | [] => 0
  | v :: vs => (((v :: vs).zip (vs ++ [v])).map
      (fun e => e.1.1 * e.2.2 - e.2.1 * e.1.2)).sum

/-- Cyclic edge list of a ring: each vertex paired with its successor. -/
def ringEdges : MRing → List (Pt × Pt)
  | [] => []
  | v :: vs => (v :: vs).zip (vs ++ [v])

/-- Twice the signed area of the triangle `a b c`; the orientation test used
throughout exact segment intersection. -/
def orient (a b c : Pt) : ℚ :=
  (b.1 - a.1) * (c.2 - a.2) - (b.2 - a.2) * (c.1 - a.1)

/-- Test whether `p` lies on the closed segment from `a` to `b`. -/
def onSeg (a b p : Pt) : Bool :=
  decide (orient a b p = 0) &&
  decide (min a.1 b.1 ≤ p.1) && decide (p.1 ≤ max a.1 b.1) &&
  decide (min a.2 b.2 ≤ p.2) && decide (p.2 ≤ max a.2 b.2)

/-- Exact closed-segment intersection test (the classical orientation-based
procedure): the segments `p1 p2` and `q1 q2` share a point exactly when the
endpoint orientations strictly straddle both lines, or some endpoint lies on
the other closed segment. -/
def segIntersect (p1 p2 q1 q2 : Pt) : Bool :=
  let d1 := orient q1 q2 p1
  let d2 := orient q1 q2 p2
  let d3 := orient p1 p2 q1
  let d4 := orient p1 p2 q2
  ((decide (d1 < 0) && decide (0 < d2) || decide (0 < d1) && decide (d2 < 0)) &&
   (decide (d3 < 0) && decide (0 < d4) || decide (0 < d3) && decide (d4 < 0))) ||
  onSeg q1 q2 p1 || onSeg q1 q2 p2 || onSeg p1 p2 q1 || onSeg p1 p2 q2

/-- Test whether the horizontal ray from `p` to the right crosses the edge
`(a, b)`: the edge straddles the horizontal line through `p` (half-open rule)
and the crossing point lies strictly to the right of `p`. -/
def rayCrosses (p : Pt) (a b : Pt) : Bool :=
  (decide (a.2 > p.2) != decide (b.2 > p.2)) &&
  decide (p.1 < a.1 + (p.2 - a.2) * (b.1 - a.1) / (b.2 - a.2))

/-- Number of ring edges crossed by the horizontal ray from `p`. -/
def crossNum (p : Pt) (r : MRing) : ℕ :=
  (ringEdges r).countP (fun e => rayCrosses p e.1 e.2)

/-- Test whether `p` lies on the boundary polyline of the ring. -/
def onRing (p : Pt) (r : MRing) : Bool :=
  (ringEdges r).any (fun e => onSeg e.1 e.2 p)

/-- Test whether `p` lies strictly inside the region bounded by the ring
(odd crossing number and not on the boundary). -/
def strictlyInRing (p : Pt) (r : MRing) : Bool :=
  !(onRing p r) && decide (crossNum p r % 2 = 1)

/-- Closed membership in the region bounded by a ring: on the boundary or
strictly inside. -/
def inRingClosed (p : Pt) (r : MRing) : Bool :=
  onRing p r || decide (crossNum p r % 2 = 1)

/-- Model of one `bg::model::polygon`: an outer ring together with hole
rings. -/
structure MPolygon where
  outer : MRing
  holes : List MRing
deriving DecidableEq, Repr

/-- Model of `MultiPolygon = bg::model::multi_polygon<Polygon>`. -/
abbrev MultiPolygon : Type := List MPolygon

/-- Closed membership of a point in one polygon with holes: inside or on the
outer ring, and not strictly inside any hole. -/
def inPolygon (p : Pt) (poly : MPolygon) : Bool :=
  inRingClosed p poly.outer && !(poly.holes.any (fun h => strictlyInRing p h))

/-- Closed membership of a point in a multi-polygon. -/
def inMulti (p : Pt) (mp : MultiPolygon) : Bool :=
  mp.any (fun poly => inPolygon p poly)

/-- Every ring of a polygon, outer ring first. -/
def polyRings (poly : MPolygon) : List MRing := poly.outer :: poly.holes

/-- Every vertex of every ring of a multi-polygon. -/
def allPoints (mp : MultiPolygon) : List Pt :=
  (mp.flatMap polyRings).flatten

/-- Every boundary edge of a multi-polygon (outer rings and hole rings). -/
def allEdges (mp : MultiPolygon) : List (Pt × Pt) :=
  (mp.flatMap polyRings).flatMap ringEdges

/-- Model of `bg::intersects` on two multi-polygons: two closed polygonal
regions share a point exactly when some pair of boundary edges intersects, or
a vertex of one region lies in the other region.  Touching boundaries count
as intersection, matching Boost's OGC semantics. -/
def multiIntersects (a b : MultiPolygon) : Bool :=
  (allEdges a).any (fun e => (allEdges b).any (fun f => segIntersect e.1 e.2 f.1 f.2)) ||
  (allPoints a).any (fun p => inMulti p b) ||
  (allPoints b).any (fun p => inMulti p a)

/-- Model of `bg::is_empty` for a multi-polygon: no ring has a point. -/
def multiIsEmpty (mp : MultiPolygon) : Bool :=
  (allPoints mp).isEmpty

/-- Model of `bg::envelope` of a multi-polygon: the coordinate-wise min/max
over all ring points.  The source leaves the box default-constructed for an
empty shape; the model returns the zero box in that unused case. -/
def envelope (mp : MultiPolygon) : Rectangle2D :=
  match allPoints mp with
  | [] => ⟨(0, 0), (0, 0)⟩
  | p :: ps =>
    ⟨(ps.foldl (fun m q => min m q.1) p.1, ps.foldl (fun m q => min m q.2) p.2),
     (ps.foldl (fun m q => max m q.1) p.1, ps.foldl (fun m q => max m q.2) p.2)⟩

/-- Model of `bg::area` for one polygon after `bg::correct` normalisation:
the repository's polygons are corrected so that `bg::area` returns the
absolute outer area minus the absolute hole areas. -/
def polyArea (poly : MPolygon) : ℚ :=
  |shoelace2 poly.outer| / 2 - (poly.holes.map (fun h => |shoelace2 h| / 2)).sum

/-- Model of `bg::area` for a multi-polygon. -/
def multiArea (mp : MultiPolygon) : ℚ :=
  (mp.map polyArea).sum

/-- Translation of a multi-polygon by a vector (`bg::transform` with a
translate transformer). -/
def multiTranslate (v : Pt) (mp : MultiPolygon) : MultiPolygon :=
  mp.map (fun poly =>
    ⟨poly.outer.map (fun p => (p.1 + v.1, p.2 + v.2)),
     poly.holes.map (fun h => h.map (fun p => (p.1 + v.1, p.2 + v.2)))⟩)

/-- Rotation of a point about a centre, with the rotation matrix given by the
(cosine, sine) pair `t` of the rotation angle. -/
def rotPt (c : Pt) (t : ℚ × ℚ) (p : Pt) : Pt :=
  (c.1 + t.1 * (p.1 - c.1) - t.2 * (p.2 - c.2),
   c.2 + t.2 * (p.1 - c.1) + t.1 * (p.2 - c.2))

/-- Rotation of a multi-polygon about a centre by the (cosine, sine) pair
`t`, modelling the translate-rotate-translate sequence of `MArea::rotate`. -/
def multiRotate (c : Pt) (t : ℚ × ℚ) (mp : MultiPolygon) : MultiPolygon :=
  mp.map (fun poly =>
    ⟨poly.outer.map (rotPt c t), poly.holes.map (fun h => h.map (rotPt c t))⟩)

/-- The tolerance of the specification, `1e-9`, used verbatim by `Bin::dive`
and `Bin::sweep` and named ε throughout the spec. -/
def epsTol : ℚ := 1 / 1000000000

/-- The slab tolerance `1e-6` of `Bin::computeFreeRectangles`. -/
def epsFreeRect : ℚ := 1 / 1000000

namespace Constants

/-- Division factor for the horizontal displacement in `Bin::dive`
(`Constants::DIVE_HORIZONTAL_DISPLACEMENT_FACTOR`). -/
def DIVE_HORIZONTAL_DISPLACEMENT_FACTOR : ℚ := 3

/-- Horizontal sweep division factor (`Constants::DX_SWEEP_FACTOR`). -/
def DX_SWEEP_FACTOR : ℚ := 10

/-- Vertical sweep division factor (`Constants::DY_SWEEP_FACTOR`). -/
def DY_SWEEP_FACTOR : ℚ := 2

/-- Stage-1 rotation angles (`Constants::STAGE1_ROTATION_ANGLES`). -/
def STAGE1_ROTATION_ANGLES : List ℤ := [0, 90, 180, 270]

/-- Stage-2/3 rotation angles, 5-degree increments
(`Constants::STAGE23_ROTATION_ANGLES`). -/
def STAGE23_ROTATION_ANGLES : List ℤ :=
  (List.range 72).map (fun k => 5 * (k : ℤ))

end Constants

/-- Normalisation of the cumulative rotation into `[0, 360)` performed by the
two while loops of `MArea::rotate`. -/
def modDeg (x : ℚ) : ℚ := x - 360 * (⌊x / 360⌋ : ℤ)

/-- Model of `bg::correct` for an outer ring: Boost's default polygon stores
outer rings clockwise, so a counter-clockwise ring (positive shoelace) is
reversed. -/
def correctOuter (r : MRing) : MRing :=
  if 0 < shoelace2 r then r.reverse else r

/-- Model of `bg::difference(outer, inner)` in the only regime the repository
uses it for (the loader's hole lines, where each subtrahend lies strictly
inside the minuend's outer ring): the subtrahend's outer rings become hole
rings of the minuend. -/
def multiDifferenceModel (a b : MultiPolygon) : MultiPolygon :=
  a.map (fun poly => ⟨poly.outer, poly.holes ++ b.map MPolygon.outer⟩)

/-- Model of `MArea` (`src/primitives/MArea.h`): a piece with a polygonal
shape, a stable identifier, a cumulative rotation, and the cached area. -/
structure MArea where
  shape : MultiPolygon
  id : ℤ
  rotation : ℚ
  area : ℚ
deriving DecidableEq, Repr

namespace MArea

/-- Default constructor `MArea()`: empty shape, id 0, rotation 0, area 0. -/
def default0 : MArea := ⟨[], 0, 0, 0⟩

/-- Constructor `MArea(points, id)`: an empty point list yields the empty
shape with area 0; otherwise the (corrected) single polygon is stored and the
area cache updated. -/
def ofPoints (points : List Pt) (id : ℤ) : MArea :=
  if points.isEmpty then ⟨[], id, 0, 0⟩
  else
    let sh : MultiPolygon := [⟨correctOuter points, []⟩]
    ⟨sh, id, 0, multiArea sh⟩

/-- Constructor `MArea(outer, inner)` used by the loader to cut a hole:
`bg::difference` of the two shapes, id taken from the outer piece. -/
def ofOuterInner (outer inner : MArea) : MArea :=
  let sh := multiDifferenceModel outer.shape inner.shape
  ⟨sh, outer.id, 0, multiArea sh⟩

/-- Accessor `MArea::getID`. -/
def getID (m : MArea) : ℤ := m.id

/-- Accessor `MArea::getArea` (the cached area). -/
def getArea (m : MArea) : ℚ := m.area

/-- Accessor `MArea::getRotation`. -/
def getRotation (m : MArea) : ℚ := m.rotation

/-- Model of `MArea::isEmpty` (`bg::is_empty`). -/
def isEmpty (m : MArea) : Bool := multiIsEmpty m.shape

/-- Model of `MArea::getBoundingBox2D` (`bg::envelope`); the zero box models
the default-constructed box of the empty case. -/
def getBoundingBox2D (m : MArea) : Rectangle2D := envelope m.shape

/-- Model of `MArea::getFreeArea`: bounding-box area minus the piece area. -/
def getFreeArea (m : MArea) : ℚ :=
  if m.isEmpty then 0
  else
    RectangleUtils.getWidth m.getBoundingBox2D * RectangleUtils.getHeight m.getBoundingBox2D
      - m.area

/-- Model of `MArea::getVertexCount` via `bg::num_points`, which counts the
closure point of each stored closed ring once more than the model's open
rings. -/
def getVertexCount (m : MArea) : ℕ :=
  ((m.shape.flatMap polyRings).map (fun r => r.length + 1)).sum

/-- Model of the Boolean `MArea::intersection` (`bg::intersects`): empty
shapes never intersect; otherwise the precise closed-region test. -/
def intersection (m other : MArea) : Bool :=
  if m.isEmpty || other.isEmpty then false
  else multiIntersects m.shape other.shape

/-- Model of `MArea::isInside`: an empty piece is inside anything; otherwise
closed containment of the bounding box in the rectangle. -/
def isInside (m : MArea) (rect : Rectangle2D) : Bool :=
  if m.isEmpty then true
  else RectangleUtils.contains rect m.getBoundingBox2D

/-- Model of `MArea::move`: translate the shape; the cached area and the
rotation are not updated by the source. -/
def move (m : MArea) (v : Pt) : MArea :=
  if m.isEmpty then m
  else { m with shape := multiTranslate v m.shape }

/-- Model of `MArea::rotate`: normalise the cumulative rotation, then rotate
the shape about its bounding-box centre.  The pair `t` supplies the exact
(cosine, sine) of `degrees` — the idealised value of the `cos`/`sin` calls of
the source. -/
def rotate (m : MArea) (degrees : ℚ) (t : ℚ × ℚ) : MArea :=
  if m.isEmpty then m
  else
    let bbox := m.getBoundingBox2D
    let c : Pt := (RectangleUtils.getX bbox + RectangleUtils.getWidth bbox / 2,
                   RectangleUtils.getY bbox + RectangleUtils.getHeight bbox / 2)
    { m with rotation := modDeg (m.rotation + degrees), shape := multiRotate c t m.shape }

/-- Model of `MArea::placeInPosition`: translate so that the bounding box's
min corner becomes `(x, y)`. -/
def placeInPosition (m : MArea) (x y : ℚ) : MArea :=
  if m.isEmpty then m
  else
    let bbox := m.getBoundingBox2D
    m.move (x - RectangleUtils.getX bbox, y - RectangleUtils.getY bbox)

end MArea

/-- The evaluation parameter for rotations: `trig d` models the exact values
of `(cos, sin)` at `d` degrees computed by `MArea::rotate`.  Quarter turns
pin the exact values; other angles stay abstract because their sines and
cosines are irrational. -/
def QuarterTrig (trig : ℤ → ℚ × ℚ) : Prop :=
  trig 0 = (1, 0) ∧ trig 90 = (0, 1) ∧ trig 180 = (-1, 0) ∧ trig 270 = (0, -1)

/-- One concrete trig table that is exact at the quarter turns (arbitrary
elsewhere); used to instantiate witnesses. -/
def trigQ : ℤ → ℚ × ℚ := fun d =>
  if d % 360 = 0 then (1, 0)
  else if d % 360 = 90 then (0, 1)
  else if d % 360 = 180 then (-1, 0)
  else if d % 360 = 270 then (0, -1)
  else (1, 0)

/-- Insertion sort by a strict Boolean comparator, keeping earlier elements
first on ties.  It models the repository's `std::sort` calls; those use an
unspecified unstable order on ties, and none of the verified claims depends
on the tie order, so the model fixes the stable one. -/
def insertBy (before : α → α → Bool) (x : α) : List α → List α
  | [] => [x]
  | y :: ys => if before x y then x :: y :: ys else y :: insertBy before x ys

/-- Sort of a list by a strict Boolean comparator via `insertBy`. -/
def sortBy (before : α → α → Bool) : List α → List α
  | [] => []
  | x :: xs => insertBy before x (sortBy before xs)

/-- First hit of an option-valued function along a list, modelling loops that
return on the first success. -/
def firstSome (f : α → Option β) : List α → Option β
  | [] => none
  | a :: as =>
    match f a with
    | some b => some b
    | none => firstSome f as

/-- Comparator sorting pieces by strictly descending area, as used by
`Bin::boundingBoxPacking`, `Bin::placeInFreeZones` and `BinPacking::pack`. -/
def areaDescending (a b : MArea) : Bool := decide (b.getArea < a.getArea)

/-- Area of a rectangle, the quantity the free-rectangle comparators sort
by. -/
def rectAreaOf (r : Rectangle2D) : ℚ :=
  RectangleUtils.getWidth r * RectangleUtils.getHeight r

/-- Comparator sorting rectangles by strictly descending area. -/
def rectAreaDescending (a b : Rectangle2D) : Bool := decide (rectAreaOf b < rectAreaOf a)

/-- Removal of the first occurrence of an exact (box, index) value, the model
of `rtree.remove` on the spatial index; removing an absent value is a no-op
exactly as in Boost. -/
def eraseEntry : List (Rectangle2D × ℕ) → (Rectangle2D × ℕ) → List (Rectangle2D × ℕ)
  | [], _ => []
  | e :: es, v => if e = v then es else e :: eraseEntry es v

/-- Model of `Bin` (`src/core/Bin.h`): the fixed dimension, the placed
pieces in placement order, the maximal free rectangles, and the spatial
index holding (bounding box, piece index) pairs.  The R-tree is modelled by
its value list; queries filter it, insertion conses, removal erases the
first exact match. -/
structure Bin where
  dimension : Rectangle2D
  placedPieces : List MArea
  freeRectangles : List Rectangle2D
  rtree : List (Rectangle2D × ℕ)
deriving DecidableEq, Repr

namespace Bin

/-- Constructor `Bin::Bin(dimension)`: no pieces, the whole dimension free. -/
def mk0 (dimension : Rectangle2D) : Bin := ⟨dimension, [], [dimension], []⟩

/-- Accessor `Bin::getNPlaced`. -/
def getNPlaced (b : Bin) : ℕ := b.placedPieces.length

/-- Model of `Bin::getOccupiedArea`: `std::accumulate` of the piece areas. -/
def getOccupiedArea (b : Bin) : ℚ := (b.placedPieces.map MArea.getArea).sum

/-- Model of `Bin::getEmptyArea`. -/
def getEmptyArea (b : Bin) : ℚ :=
  RectangleUtils.getWidth b.dimension * RectangleUtils.getHeight b.dimension - b.getOccupiedArea

/-- Broad phase of the collision oracle: all index entries whose stored box
intersects the query box. -/
def rtreeQuery (b : Bin) (q : Rectangle2D) : List (Rectangle2D × ℕ) :=
  b.rtree.filter (fun e => RectangleUtils.intersects e.1 q)

/-- Model of `Bin::isCollision`: query the index with the candidate's
bounding box, then run the precise geometric test against each candidate
piece, skipping the optional ignored index; true on the first hit. -/
def isCollision (b : Bin) (piece : MArea) (ignoredPieceIndex : Option ℕ) : Bool :=
  if (b.rtreeQuery piece.getBoundingBox2D).isEmpty then false
  else
    (b.rtreeQuery piece.getBoundingBox2D).any (fun c =>
      if ignoredPieceIndex = some c.2 then false
      else
        match b.placedPieces[c.2]? with
        | some q => piece.intersection q
        | none => false)

/-- One candidate evaluation of `Bin::findWhereToPlace`: try each stage-1
angle in the free rectangle with index `i`, updating the running best
placement when the wastage strictly improves. -/
def fwtpStep (b : Bin) (piece : MArea) (trig : ℤ → ℚ × ℚ)
    (acc : Option (ℕ × ℤ) × Option ℚ) (i : ℕ) : Option (ℕ × ℤ) × Option ℚ :=
  Constants.STAGE1_ROTATION_ANGLES.foldl (fun acc (angle : ℤ) =>
    match b.freeRectangles[i]? with
    | none => acc
    | some freeRect =>
      let rotatedPiece := if 0 < angle then piece.rotate (angle : ℚ) (trig angle) else piece
      let pieceBB := rotatedPiece.getBoundingBox2D
      if RectangleUtils.fits pieceBB freeRect then
        let wastage := min (RectangleUtils.getWidth freeRect - RectangleUtils.getWidth pieceBB)
          (RectangleUtils.getHeight freeRect - RectangleUtils.getHeight pieceBB)
        match acc.2 with
        | none => (some (i, angle), some wastage)
        | some minWastage =>
          if wastage < minWastage then (some (i, angle), some wastage) else acc
      else acc) acc

/-- Model of `Bin::findWhereToPlace` (sequential branch; the parallel branch
of the source scans the same candidates and differs only in the unspecified
tie order): scan the free rectangles from the newest to the oldest, tracking
the minimum-wastage (rectangle, angle) pair. -/
def findWhereToPlace (b : Bin) (piece : MArea) (trig : ℤ → ℚ × ℚ) : Option (ℕ × ℤ) :=
  ((List.range b.freeRectangles.length).reverse.foldl (b.fwtpStep piece trig) (none, none)).1

/-- Split of one free rectangle against a just-placed bounding box, emitting
the four slabs beyond the intersection whenever their thickness exceeds the
`1e-6` tolerance (`Bin::computeFreeRectangles`, inner loop). -/
def splitFreeRect (freeR bb : Rectangle2D) : List Rectangle2D :=
  if !(RectangleUtils.intersects freeR bb) then [freeR]
  else
    let rIntersection := RectangleUtils.createIntersection freeR bb
    let topHeight := RectangleUtils.getMaxY freeR - RectangleUtils.getMaxY rIntersection
    let top : List Rectangle2D :=
      if epsFreeRect < topHeight then
        [⟨(RectangleUtils.getX freeR, RectangleUtils.getMaxY rIntersection),
          (RectangleUtils.getMaxX freeR, RectangleUtils.getMaxY freeR)⟩]
      else []
    let bottomHeight := RectangleUtils.getY rIntersection - RectangleUtils.getY freeR
    let bottom : List Rectangle2D :=
      if epsFreeRect < bottomHeight then
        [⟨(RectangleUtils.getX freeR, RectangleUtils.getY freeR),
          (RectangleUtils.getMaxX freeR, RectangleUtils.getY rIntersection)⟩]
      else []
    let leftWidth := RectangleUtils.getX rIntersection - RectangleUtils.getX freeR
    let left : List Rectangle2D :=
      if epsFreeRect < leftWidth then
        [⟨(RectangleUtils.getX freeR, RectangleUtils.getY freeR),
          (RectangleUtils.getX rIntersection, RectangleUtils.getMaxY freeR)⟩]
      else []
    let rightWidth := RectangleUtils.getMaxX freeR - RectangleUtils.getMaxX rIntersection
    let right : List Rectangle2D :=
      if epsFreeRect < rightWidth then
        [⟨(RectangleUtils.getMaxX rIntersection, RectangleUtils.getY freeR),
          (RectangleUtils.getMaxX freeR, RectangleUtils.getMaxY freeR)⟩]
      else []
    top ++ bottom ++ left ++ right

/-- Model of `Bin::computeFreeRectangles` as a function of the free-rectangle
list: every rectangle is kept or split against the just-placed bounding
box. -/
def computeFreeRectanglesL (freeRects : List Rectangle2D) (bb : Rectangle2D) :
    List Rectangle2D :=
  freeRects.flatMap (fun freeR => splitFreeRect freeR bb)

/-- Model of `Bin::eliminateNonMaximal`: sort by descending area, then drop
every rectangle contained (closed containment) in a rectangle at another
position. -/
def eliminateNonMaximalL (rects : List Rectangle2D) : List Rectangle2D :=
  let sorted := sortBy rectAreaDescending rects
  if sorted.length < 2 then sorted
  else
    (sorted.enum.filter (fun ke =>
      !(sorted.enum.any (fun je =>
        decide (je.1 ≠ ke.1) && RectangleUtils.contains je.2 ke.2)))).map (fun ke => ke.2)

/-- Model of `Bin::boundingBoxPacking` (stage 1): sort by descending area;
for each piece find the minimum-wastage slot, rotate, translate to the
rectangle's min corner, and keep the placement only when the collision
oracle is silent; failures accumulate in the leftover list. -/
def boundingBoxPacking (b : Bin) (piecesToPlace : List MArea) (trig : ℤ → ℚ × ℚ) :
    Bin × List MArea :=
  (sortBy areaDescending piecesToPlace).foldl (fun acc piece =>
    match acc.1.findWhereToPlace piece trig with
    | some placement =>
      match acc.1.freeRectangles[placement.1]? with
      | some freeRect =>
        let rotated := if 0 < placement.2 then piece.rotate placement.2 (trig placement.2) else piece
        let placedPiece := rotated.placeInPosition (RectangleUtils.getX freeRect)
          (RectangleUtils.getY freeRect)
        if !(acc.1.isCollision placedPiece none) then
          let pieceBB := placedPiece.getBoundingBox2D
          ({ acc.1 with
              freeRectangles := eliminateNonMaximalL (computeFreeRectanglesL acc.1.freeRectangles pieceBB),
              placedPieces := acc.1.placedPieces ++ [placedPiece],
              rtree := (pieceBB, acc.1.placedPieces.length) :: acc.1.rtree }, acc.2)
        else (acc.1, acc.2 ++ [piece])
      | none => (acc.1, acc.2 ++ [piece])
    | none => (acc.1, acc.2 ++ [piece])) (b, [])

/-- One attempted unit translation of `Bin::compressPiece`: remove the index
entry, move the piece, keep the move when the piece stays inside the bin and
the oracle (ignoring the piece itself) is silent, otherwise restore the
piece exactly; the index entry of the current position is re-inserted in
both branches. -/
def tryMove (b : Bin) (i : ℕ) (v : Pt) : Bin × Bool :=
  match b.placedPieces[i]? with
  | none => (b, false)
  | some originalPiece =>
    let t1 := eraseEntry b.rtree (originalPiece.getBoundingBox2D, i)
    let moved := originalPiece.move v
    let bMoved : Bin := { b with placedPieces := b.placedPieces.set i moved, rtree := t1 }
    if moved.isInside b.dimension && !(bMoved.isCollision moved (some i)) then
      ({ bMoved with rtree := (moved.getBoundingBox2D, i) :: t1 }, true)
    else
      ({ b with rtree := (originalPiece.getBoundingBox2D, i) :: t1 }, false)

/-- The while loop of `Bin::compressPiece`, with explicit fuel: per
iteration a vertical then a horizontal unit step is attempted; the loop
continues while some step succeeded.  Every claim proved about compression
holds for every fuel value; the wrapper passes a bound that dominates the
possible number of unit moves. -/
def compressPieceLoop (fuel : ℕ) (b : Bin) (i : ℕ) (v : Pt) (movedAny : Bool) : Bin × Bool :=
  match fuel with
  | 0 => (b, movedAny)
  | fuel + 1 =>
    let s1 := if v.2 ≠ 0 then tryMove b i (0, v.2) else (b, false)
    let s2 := if v.1 ≠ 0 then tryMove s1.1 i (v.1, 0) else (s1.1, false)
    if s1.2 || s2.2 then compressPieceLoop fuel s2.1 i v true
    else (s2.1, movedAny)

/-- Fuel bound for `compressPieceLoop`: every successful unit step moves the
piece one unit toward the bin's min corner while staying inside, so the
taxicab distance from the bounding box's min corner to the bin's min corner
bounds the number of iterations. -/
def compressPieceFuel (b : Bin) (i : ℕ) : ℕ :=
  match b.placedPieces[i]? with
  | none => 1
  | some p =>
    (⌈RectangleUtils.getX p.getBoundingBox2D - RectangleUtils.getX b.dimension
      + RectangleUtils.getY p.getBoundingBox2D - RectangleUtils.getY b.dimension⌉).toNat + 2

/-- Model of `Bin::compressPiece`. -/
def compressPiece (b : Bin) (i : ℕ) (v : Pt) : Bin × Bool :=
  if v.1 = 0 ∧ v.2 = 0 then (b, false)
  else compressPieceLoop (b.compressPieceFuel i) b i v false

/-- One pass of `Bin::compress`: compress every placed piece, in order,
toward the lower-left. -/
def compressPass (b : Bin) : Bin × Bool :=
  (List.range b.placedPieces.length).foldl (fun acc i =>
    let s := compressPiece acc.1 i (-1, -1)
    (s.1, acc.2 || s.2)) (b, false)

/-- The pass loop of `Bin::compress` with explicit fuel; it stops at the
first pass that moved nothing. -/
def compressLoop (fuel : ℕ) (b : Bin) : Bin :=
  match fuel with
  | 0 => b
  | fuel + 1 =>
    let s := compressPass b
    if s.2 then compressLoop fuel s.1 else s.1

/-- Fuel bound for the pass loop of `Bin::compress`: the total taxicab
distance of all pieces to the bin's min corner. -/
def compressFuel (b : Bin) : ℕ :=
  (b.placedPieces.map (fun p =>
    (⌈RectangleUtils.getX p.getBoundingBox2D - RectangleUtils.getX b.dimension
      + RectangleUtils.getY p.getBoundingBox2D - RectangleUtils.getY b.dimension⌉).toNat)).sum + 2

/-- Model of `Bin::compress`. -/
def compress (b : Bin) : Bin :=
  if b.placedPieces.isEmpty then b else compressLoop b.compressFuel b

end Bin

namespace Bin

/-- Commit block shared by both placement branches of `Bin::dive`: push the
trial piece, index it, compress it straight down, read the compressed piece
back, then remove its index entry and pop it; the compressed piece and the
resulting bin state are returned. -/
def diveCommit (b : Bin) (tempPiece : MArea) : MArea × Bin :=
  let tempIndex := b.placedPieces.length
  let b1 : Bin := { b with placedPieces := b.placedPieces ++ [tempPiece],
                           rtree := (tempPiece.getBoundingBox2D, tempIndex) :: b.rtree }
  let b2 := (compressPiece b1 tempIndex (0, -1)).1
  let finalPiece := (b2.placedPieces.getLast?).getD tempPiece
  (finalPiece,
   { b2 with rtree := eraseEntry b2.rtree (finalPiece.getBoundingBox2D, tempIndex),
             placedPieces := b2.placedPieces.dropLast })

/-- The horizontal scan of `Bin::dive` with explicit fuel: place the piece at
`(x, binHeight - pieceHeight)` for `x = 0, dx, 2·dx, …` while
`x + pieceWidth ≤ binWidth + 1e-9`, committing at the first collision-free
position. -/
def diveLoop (fuel : ℕ) (b : Bin) (toDive : MArea) (x dx pieceWidth pieceHeight
    binWidth binHeight : ℚ) : Option (MArea × Bin) :=
  match fuel with
  | 0 => none
  | fuel + 1 =>
    if x + pieceWidth ≤ binWidth + epsTol then
      let tempPiece := toDive.placeInPosition x (binHeight - pieceHeight)
      if !(b.isCollision tempPiece none) then some (b.diveCommit tempPiece)
      else diveLoop fuel b toDive (x + dx) dx pieceWidth pieceHeight binWidth binHeight
    else none

/-- Fuel bound for `diveLoop`, dominating the number of admissible steps. -/
def diveLoopFuel (binWidth pieceWidth dx : ℚ) : ℕ :=
  (⌈(binWidth + epsTol - pieceWidth) / dx⌉).toNat + 2

/-- Model of `Bin::dive`: reject pieces larger than the bin, scan drop
positions left to right, then try the top-right corner as a fallback.  The
returned bin is the state after the call (which claim C10 proves equal to
the input state). -/
def dive (b : Bin) (toDive : MArea) : Option MArea × Bin :=
  let pieceBB := toDive.getBoundingBox2D
  let pieceWidth := RectangleUtils.getWidth pieceBB
  let pieceHeight := RectangleUtils.getHeight pieceBB
  let binWidth := RectangleUtils.getWidth b.dimension
  let binHeight := RectangleUtils.getHeight b.dimension
  if binWidth < pieceWidth ∨ binHeight < pieceHeight then (none, b)
  else
    let dx0 := pieceWidth / Constants.DIVE_HORIZONTAL_DISPLACEMENT_FACTOR
    let dx := if dx0 < epsTol then 1 else dx0
    match diveLoop (diveLoopFuel binWidth pieceWidth dx) b toDive 0 dx pieceWidth pieceHeight
        binWidth binHeight with
    | some rb => (some rb.1, rb.2)
    | none =>
      let tempPiece := toDive.placeInPosition (binWidth - pieceWidth) (binHeight - pieceHeight)
      if !(b.isCollision tempPiece none) then
        let rb := b.diveCommit tempPiece
        (some rb.1, rb.2)
      else (none, b)

/-- Model of `Bin::dropPieces`: for each piece, try every stage-2/3 angle
until `dive` succeeds; a successful dive's piece is pushed and indexed, and a
piece with no successful angle joins the unplaced list. -/
def dropPieces (b : Bin) (piecesToDrop : List MArea) (trig : ℤ → ℚ × ℚ) :
    Bin × List MArea :=
  piecesToDrop.foldl (fun acc pieceToTry =>
    match firstSome (fun (angle : ℤ) =>
        let candidate := if 0 < angle then pieceToTry.rotate (angle : ℚ) (trig angle) else pieceToTry
        match acc.1.dive candidate with
        | (some placedPiece, bin') => some (placedPiece, bin')
        | (none, _) => none) Constants.STAGE23_ROTATION_ANGLES with
    | some rb =>
      ({ rb.2 with placedPieces := rb.2.placedPieces ++ [rb.1],
                   rtree := (rb.1.getBoundingBox2D, rb.2.placedPieces.length) :: rb.2.rtree },
       acc.2)
    | none => (acc.1, acc.2 ++ [pieceToTry])) (b, [])

/-- Model of `Bin::placeInFreeZones`: sort pieces and a snapshot of the free
rectangles by descending area; for each piece scan the snapshot and every
stage-2/3 angle, placing at the first fitting, collision-free min corner and
re-splitting the live free rectangles. -/
def placeInFreeZones (b : Bin) (piecesToPlace : List MArea) (trig : ℤ → ℚ × ℚ) :
    Bin × List MArea :=
  let sortedFreeRects := sortBy rectAreaDescending b.freeRectangles
  (sortBy areaDescending piecesToPlace).foldl (fun acc piece =>
    match firstSome (fun freeRect =>
        firstSome (fun (angle : ℤ) =>
          let candidate := if 0 < angle then piece.rotate (angle : ℚ) (trig angle) else piece
          let candidateBB := candidate.getBoundingBox2D
          if RectangleUtils.fits candidateBB freeRect then
            let placed := candidate.placeInPosition (RectangleUtils.getX freeRect)
              (RectangleUtils.getY freeRect)
            if !(acc.1.isCollision placed none) then some placed else none
          else none) Constants.STAGE23_ROTATION_ANGLES) sortedFreeRects with
    | some placed =>
      let actualBB := placed.getBoundingBox2D
      ({ acc.1 with
          placedPieces := acc.1.placedPieces ++ [placed],
          rtree := (actualBB, acc.1.placedPieces.length) :: acc.1.rtree,
          freeRectangles := eliminateNonMaximalL (computeFreeRectanglesL acc.1.freeRectangles actualBB) },
       acc.2)
    | none => (acc.1, acc.2 ++ [piece])) (b, [])

/-- The inner (x) scan of `Bin::sweep` with explicit fuel. -/
def sweepXLoop (fuel : ℕ) (b : Bin) (container inside : MArea) (ignoredPieceIndex : ℕ)
    (x dx w y endX : ℚ) : Option MArea :=
  match fuel with
  | 0 => none
  | fuel + 1 =>
    if x + w ≤ endX + epsTol then
      let candidate := inside.placeInPosition x y
      if candidate.isInside b.dimension && !(candidate.intersection container) &&
          !(b.isCollision candidate (some ignoredPieceIndex)) then some candidate
      else sweepXLoop fuel b container inside ignoredPieceIndex (x + dx) dx w y endX
    else none

/-- Fuel bound for one sweep scan direction. -/
def sweepFuel (start finish step extent : ℚ) : ℕ :=
  (⌈(finish + epsTol - start - extent) / step⌉).toNat + 2

/-- The outer (y) scan of `Bin::sweep` with explicit fuel, invoking the full
x scan at each admissible height. -/
def sweepYGo (fuel : ℕ) (b : Bin) (container inside : MArea) (ignoredPieceIndex : ℕ)
    (y dy h endY startX dx w endX : ℚ) : Option MArea :=
  match fuel with
  | 0 => none
  | fuel + 1 =>
    if y + h ≤ endY + epsTol then
      match sweepXLoop (sweepFuel startX endX dx w) b container inside ignoredPieceIndex
          startX dx w y endX with
      | some r => some r
      | none => sweepYGo fuel b container inside ignoredPieceIndex (y + dy) dy h endY
          startX dx w endX
    else none

/-- Model of `Bin::sweep`: accept the candidate position immediately when it
misses the container and the oracle is silent (this early branch has no
bin-containment test); otherwise grid-scan the container's bounding box. -/
def sweep (b : Bin) (container inside : MArea) (ignoredPieceIndex : ℕ) : Option MArea :=
  if !(inside.intersection container) && !(b.isCollision inside (some ignoredPieceIndex)) then
    some inside
  else
    let containerBB := container.getBoundingBox2D
    let insideBB := inside.getBoundingBox2D
    let dxFactor := if 100 < inside.getVertexCount then 2 else Constants.DX_SWEEP_FACTOR
    let dyFactor := if 100 < inside.getVertexCount then 1 else Constants.DY_SWEEP_FACTOR
    let dx0 := RectangleUtils.getWidth insideBB / dxFactor
    let dy0 := RectangleUtils.getHeight insideBB / dyFactor
    let dx := if dx0 < epsTol then 1 else dx0
    let dy := if dy0 < epsTol then 1 else dy0
    let startX := RectangleUtils.getX containerBB
    let startY := RectangleUtils.getY containerBB
    let endX := RectangleUtils.getMaxX containerBB
    let endY := RectangleUtils.getMaxY containerBB
    sweepYGo (sweepFuel startY endY dy (RectangleUtils.getHeight insideBB)) b container inside
      ignoredPieceIndex startY dy (RectangleUtils.getHeight insideBB) endY startX dx
      (RectangleUtils.getWidth insideBB) endX

/-- One piece move attempt of `Bin::moveAndReplace` for the piece at index
`i`: scan earlier pieces with enough free bounding-box area, try every
stage-2/3 angle at the container's min corner, and on a successful sweep
push the old bounding box into the free rectangles, overwrite the piece,
compress it, and re-split the free rectangles with the swept bounding
box. -/
def marTryPiece (b : Bin) (i : ℕ) (trig : ℤ → ℚ × ℚ) : Option Bin :=
  match b.placedPieces[i]? with
  | none => none
  | some currentArea =>
    firstSome (fun j =>
      match b.placedPieces[j]? with
      | none => none
      | some container =>
        if currentArea.getArea < container.getFreeArea then
          let contBB := container.getBoundingBox2D
          firstSome (fun (angle : ℤ) =>
            let rotated := if 0 < angle then currentArea.rotate (angle : ℚ) (trig angle)
              else currentArea
            let candidate := rotated.placeInPosition (RectangleUtils.getX contBB)
              (RectangleUtils.getY contBB)
            match b.sweep container candidate i with
            | some swept =>
              let b1 : Bin := { b with
                freeRectangles := b.freeRectangles ++ [currentArea.getBoundingBox2D],
                placedPieces := b.placedPieces.set i swept }
              let b2 := (compressPiece b1 i (-1, -1)).1
              let frs := eliminateNonMaximalL
                (computeFreeRectanglesL b2.freeRectangles swept.getBoundingBox2D)
              some { b2 with freeRectangles := frs }
            | none => none) Constants.STAGE23_ROTATION_ANGLES
        else none) (List.range i)

/-- Model of `Bin::moveAndReplace`: iterate the placed pieces from the newest
down to `indexLimit`, re-homing each piece that fits inside an earlier
piece's free bounding-box area. -/
def moveAndReplace (b : Bin) (indexLimit : ℕ) (trig : ℤ → ℚ × ℚ) : Bin × Bool :=
  ((List.range' indexLimit (b.placedPieces.length - indexLimit)).reverse).foldl
    (fun acc i =>
      match marTryPiece acc.1 i trig with
      | some b' => (b', true)
      | none => acc) (b, false)

/-- Model of `Bin::verifyNoCollisions`: the precise pairwise intersection
test over all placed pieces. -/
def verifyNoCollisions (b : Bin) : Bool :=
  (List.range b.placedPieces.length).all (fun i =>
    (List.range b.placedPieces.length).all (fun j =>
      if i < j then
        match b.placedPieces[i]?, b.placedPieces[j]? with
        | some p, some q => !(p.intersection q)
        | _, _ => true
      else true))

/-- Model of `Bin::recomputeAllFreeRectangles`: rebuild the free rectangles
from the whole dimension by splitting against every placed bounding box. -/
def recomputeAllFreeRectangles (b : Bin) : Bin :=
  let frs := b.placedPieces.foldl (fun frs piece =>
    computeFreeRectanglesL frs piece.getBoundingBox2D) [b.dimension]
  { b with freeRectangles := eliminateNonMaximalL frs }

end Bin

/-- Model of Clipper2's `PathD` as used by `NFPManager`: a vertex list. -/
abbrev PathD : Type := List Pt

namespace NFPManager

/-- Model of `NFPManager::rectangleToPath`: the four corners counter-
clockwise from the min corner. -/
def rectangleToPath (rect : Rectangle2D) : PathD :=
  [(RectangleUtils.getX rect, RectangleUtils.getY rect),
   (RectangleUtils.getMaxX rect, RectangleUtils.getY rect),
   (RectangleUtils.getMaxX rect, RectangleUtils.getMaxY rect),
   (RectangleUtils.getX rect, RectangleUtils.getMaxY rect)]

/-- Model of `NFPManager::computeIFP`: the container shrunk on the max-corner
side by the piece's bounding-box width and height; the empty path is
returned when the shrunk rectangle's width or height is not positive. -/
def computeIFP (piece : MArea) (containerBounds : Rectangle2D) : PathD :=
  let pieceBounds := piece.getBoundingBox2D
  let pieceWidth := RectangleUtils.getWidth pieceBounds
  let pieceHeight := RectangleUtils.getHeight pieceBounds
  let ifpRect : Rectangle2D :=
    ⟨(RectangleUtils.getX containerBounds, RectangleUtils.getY containerBounds),
     (RectangleUtils.getMaxX containerBounds - pieceWidth,
      RectangleUtils.getMaxY containerBounds - pieceHeight)⟩
  if RectangleUtils.getWidth ifpRect ≤ 0 ∨ RectangleUtils.getHeight ifpRect ≤ 0 then []
  else rectangleToPath ifpRect

end NFPManager

/-- One content line of the loader's input after tokenisation: either a piece
line with its `x,y` points, or an `@` hole line with its points.  Blank lines
are dropped by the source before this stage, and the numeric parsing of
tokens is the I/O boundary the model abstracts. -/
inductive LoadLine where
  | pieceLine (points : List Pt) : LoadLine
  | holeLine (points : List Pt) : LoadLine
deriving DecidableEq, Repr

/-- Result record of `Utils::loadPieces`. -/
structure LoadResult where
  binDimension : Rectangle2D
  pieces : List MArea
deriving DecidableEq, Repr

namespace Utils

/-- Duplicate-point removal of the loader: keep the first occurrence of each
point, in order, using the loader's exact point equality. -/
def dedupPoints (points : List Pt) : List Pt :=
  (points.foldl (fun (acc : List Pt × List Pt) p =>
    if acc.2.contains p then acc else (acc.1 ++ [p], acc.2 ++ [p])) ([], [])).1

/-- The line loop of `Utils::loadPieces`: pieces are read until `numPieces`
are parsed; a hole line replaces the last piece by the difference with the
hole and re-normalises it to the origin; a hole line before any piece is a
parse error. -/
def loadLoop (numPieces : ℕ) : List LoadLine → ℕ → List MArea → Option (List MArea)
  | [], _, acc => some acc
  | line :: rest, pieceCount, acc =>
    if numPieces ≤ pieceCount then some acc
    else
      match line with
      | LoadLine.holeLine holePoints =>
        match acc.getLast? with
        | none => none
        | some outerPiece =>
          let innerHole := MArea.ofPoints holePoints (-1)
          let pieceWithHole := (MArea.ofOuterInner outerPiece innerHole).placeInPosition 0 0
          loadLoop numPieces rest pieceCount (acc.dropLast ++ [pieceWithHole])
      | LoadLine.pieceLine rawPoints =>
        let points := dedupPoints rawPoints
        if points.isEmpty then loadLoop numPieces rest pieceCount acc
        else loadLoop numPieces rest (pieceCount + 1)
          (acc ++ [MArea.ofPoints points ((pieceCount : ℤ) + 1)])

/-- Model of `Utils::loadPieces` past the I/O boundary: the bin dimensions,
the declared piece count and the tokenised content lines are given; the
result is the bin rectangle and the normalised pieces, or none on the
hole-before-piece parse error. -/
def loadPieces (binWidth binHeight : ℚ) (numPieces : ℕ) (contents : List LoadLine) :
    Option LoadResult :=
  match loadLoop numPieces contents 0 [] with
  | none => none
  | some pieces => some ⟨⟨(0, 0), (binWidth, binHeight)⟩, pieces⟩

end Utils

/-- Largest index `i` with `before l[i] l[i+1]`, the pivot search of
`std::next_permutation`; the scan uses a default element for out-of-range
reads that never occur. -/
def nextPermPivot (before : α → α → Bool) (d : α) (l : List α) : Option ℕ :=
  (List.range (l.length - 1)).foldl (fun acc i =>
    if before (l.getD i d) (l.getD (i + 1) d) then some i else acc) none

/-- Model of `std::next_permutation` with a strict comparator: the next
lexicographically greater arrangement, or none when the range is the last
permutation (the source then exits its permutation loop). -/
def nextPermutation (before : α → α → Bool) (d : α) (l : List α) : Option (List α) :=
  match nextPermPivot before d l with
  | none => none
  | some i =>
    let j := ((List.range l.length).filter (fun j =>
      decide (i < j) && before (l.getD i d) (l.getD j d))).foldl (fun acc j => max acc j) (i + 1)
    let vi := l.getD i d
    let vj := l.getD j d
    some (l.take i ++ [vj] ++ (((l.drop (i + 1)).set (j - i - 1) vi).reverse))

instance : Inhabited MArea := ⟨MArea.default0⟩

namespace Bin

/-- Model of `Bin::evaluateBinUtilization`: occupied area over bin area. -/
def evaluateBinUtilization (b : Bin) : ℚ :=
  b.getOccupiedArea / (RectangleUtils.getWidth b.dimension * RectangleUtils.getHeight b.dimension)

/-- Model of `Bin::tryPlacePiece`: attempt the stage-1 placement of one
piece; on success return the placed piece and the state with it applied (the
source restores the original state and hands the new state back for the
look-ahead search). -/
def tryPlacePiece (b : Bin) (piece : MArea) (trig : ℤ → ℚ × ℚ) : Bool × MArea × Bin :=
  match b.findWhereToPlace piece trig with
  | some placement =>
    match b.freeRectangles[placement.1]? with
    | some freeRect =>
      let rotated := if 0 < placement.2 then piece.rotate (placement.2 : ℚ) (trig placement.2)
        else piece
      let placedPiece := rotated.placeInPosition (RectangleUtils.getX freeRect)
        (RectangleUtils.getY freeRect)
      if !(b.isCollision placedPiece none) then
        let pieceBB := placedPiece.getBoundingBox2D
        (true, placedPiece,
         { b with
            freeRectangles := eliminateNonMaximalL (computeFreeRectanglesL b.freeRectangles pieceBB),
            placedPieces := b.placedPieces ++ [placedPiece],
            rtree := (pieceBB, b.placedPieces.length) :: b.rtree })
      else (false, MArea.default0, b)
    | none => (false, MArea.default0, b)
  | none => (false, MArea.default0, b)

/-- The sequential placement attempt of one look-ahead order: place the
pieces one after another with `tryPlacePiece`, returning the pieces placed
and the final state when the whole order fits. -/
def lookAheadTryOrder (b : Bin) (order : List MArea) (trig : ℤ → ℚ × ℚ) :
    Option (List MArea × Bin) :=
  order.foldl (fun acc piece =>
    match acc with
    | none => none
    | some st =>
      let r := tryPlacePiece st.2 piece trig
      if r.1 then some (st.1 ++ [r.2.1], r.2.2) else none) (some ([], b))

/-- The permutation search of `Bin::boundingBoxPackingWithLookAhead`: run
`lookAheadTryOrder` on successive permutations, tracking the strictly best
utilisation above the current one; the fuel dominates the number of
permutations. -/
def lookAheadPermSearch (fuel : ℕ) (b : Bin) (order : List MArea) (trig : ℤ → ℚ × ℚ)
    (bestUtilization : ℚ) (best : Option (List MArea × Bin)) : Option (List MArea × Bin) :=
  match fuel with
  | 0 => best
  | fuel + 1 =>
    let attempt := lookAheadTryOrder b order trig
    let newBest :=
      match attempt with
      | some st =>
        if bestUtilization < st.2.evaluateBinUtilization then some st else best
      | none => best
    let newBestUtil :=
      match attempt with
      | some st =>
        if bestUtilization < st.2.evaluateBinUtilization then st.2.evaluateBinUtilization
        else bestUtilization
      | none => bestUtilization
    match nextPermutation areaDescending MArea.default0 order with
    | some order' => lookAheadPermSearch fuel b order' trig newBestUtil newBest
    | none => newBest

/-- Removal of the first piece whose area is within `1e-9` of the given
area, the `find_if`/`erase` pair of the look-ahead appliers. -/
def eraseByArea (pieces : List MArea) (a : ℚ) : List MArea :=
  match pieces with
  | [] => []
  | p :: ps => if |p.getArea - a| < epsTol then ps else p :: eraseByArea ps a

/-- The while loop of `Bin::boundingBoxPackingWithLookAhead` with explicit
fuel: search permutations of the next (up to) `lookAheadDepth` pieces for
the best utilisation; apply the best state and erase its pieces by area, or
fall back to the greedy stage-1 placement of the front piece. -/
def bbpLookAheadLoop (fuel : ℕ) (b : Bin) (piecesToPlace notPlaced : List MArea)
    (lookAheadDepth : ℕ) (trig : ℤ → ℚ × ℚ) : Bin × List MArea :=
  match fuel with
  | 0 => (b, notPlaced ++ piecesToPlace)
  | fuel + 1 =>
    match piecesToPlace with
    | [] => (b, notPlaced)
    | front :: restPieces =>
      let lookAheadPieces := sortBy areaDescending
        (piecesToPlace.take (min lookAheadDepth piecesToPlace.length))
      let result := lookAheadPermSearch (Nat.factorial lookAheadPieces.length + 1) b
        lookAheadPieces trig b.evaluateBinUtilization none
      match result with
      | some st =>
        let remaining := st.1.foldl (fun rem placed => eraseByArea rem placed.getArea)
          piecesToPlace
        bbpLookAheadLoop fuel st.2 remaining notPlaced lookAheadDepth trig
      | none =>
        let r := tryPlacePiece b front trig
        if r.1 then bbpLookAheadLoop fuel r.2.2 restPieces notPlaced lookAheadDepth trig
        else bbpLookAheadLoop fuel b restPieces (notPlaced ++ [front]) lookAheadDepth trig

/-- Model of `Bin::boundingBoxPackingWithLookAhead`. -/
def boundingBoxPackingWithLookAhead (b : Bin) (piecesToPlace : List MArea)
    (lookAheadDepth : ℕ) (trig : ℤ → ℚ × ℚ) : Bin × List MArea :=
  bbpLookAheadLoop (piecesToPlace.length + 1) b (sortBy areaDescending piecesToPlace) []
    lookAheadDepth trig

/-- The per-order attempt of `Bin::placeInFreeZonesWithLookAhead`: place the
pieces one after another through `placeInFreeZones` on singleton lists. -/
def pfzTryOrder (b : Bin) (order : List MArea) (trig : ℤ → ℚ × ℚ) :
    Option (List MArea × Bin) :=
  order.foldl (fun acc piece =>
    match acc with
    | none => none
    | some st =>
      let r := placeInFreeZones st.2 [piece] trig
      if r.2.isEmpty then some (st.1 ++ [piece], r.1) else none) (some ([], b))

/-- The permutation search of `Bin::placeInFreeZonesWithLookAhead`. -/
def pfzPermSearch (fuel : ℕ) (b : Bin) (order : List MArea) (trig : ℤ → ℚ × ℚ)
    (bestUtilization : ℚ) (best : Option (List MArea × Bin)) : Option (List MArea × Bin) :=
  match fuel with
  | 0 => best
  | fuel + 1 =>
    let attempt := pfzTryOrder b order trig
    let newBest :=
      match attempt with
      | some st =>
        if bestUtilization < st.2.evaluateBinUtilization then some st else best
      | none => best
    let newBestUtil :=
      match attempt with
      | some st =>
        if bestUtilization < st.2.evaluateBinUtilization then st.2.evaluateBinUtilization
        else bestUtilization
      | none => bestUtilization
    match nextPermutation areaDescending MArea.default0 order with
    | some order' => pfzPermSearch fuel b order' trig newBestUtil newBest
    | none => newBest

/-- The while loop of `Bin::placeInFreeZonesWithLookAhead` with explicit
fuel. -/
def pfzLookAheadLoop (fuel : ℕ) (b : Bin) (piecesToPlace notPlaced : List MArea)
    (lookAheadDepth : ℕ) (trig : ℤ → ℚ × ℚ) : Bin × List MArea :=
  match fuel with
  | 0 => (b, notPlaced ++ piecesToPlace)
  | fuel + 1 =>
    match piecesToPlace with
    | [] => (b, notPlaced)
    | front :: restPieces =>
      let lookAheadPieces := sortBy areaDescending
        (piecesToPlace.take (min lookAheadDepth piecesToPlace.length))
      let result := pfzPermSearch (Nat.factorial lookAheadPieces.length + 1) b
        lookAheadPieces trig b.evaluateBinUtilization none
      match result with
      | some st =>
        let remaining := st.1.foldl (fun rem placed => eraseByArea rem placed.getArea)
          piecesToPlace
        pfzLookAheadLoop fuel st.2 remaining notPlaced lookAheadDepth trig
      | none =>
        let r := placeInFreeZones b [front] trig
        if r.2.isEmpty then pfzLookAheadLoop fuel r.1 restPieces notPlaced lookAheadDepth trig
        else pfzLookAheadLoop fuel b restPieces (notPlaced ++ [front]) lookAheadDepth trig

/-- Model of `Bin::placeInFreeZonesWithLookAhead`. -/
def placeInFreeZonesWithLookAhead (b : Bin) (piecesToPlace : List MArea)
    (lookAheadDepth : ℕ) (trig : ℤ → ℚ × ℚ) : Bin × List MArea :=
  pfzLookAheadLoop (piecesToPlace.length + 1) b (sortBy areaDescending piecesToPlace) []
    lookAheadDepth trig

end Bin

namespace BinPacking

/-- The stage-2 loop of `BinPacking::pack` with explicit fuel: alternate
`moveAndReplace` and `placeInFreeZonesWithLookAhead` while the bin's placed
count keeps changing. -/
def stage2Loop (fuel : ℕ) (bin : Bin) (stillNotPlaced : List MArea) (nPiecesBefore : ℕ)
    (trig : ℤ → ℚ × ℚ) : Bin × List MArea :=
  match fuel with
  | 0 => (bin, stillNotPlaced)
  | fuel + 1 =>
    let piecesInBinBeforeRepack := bin.getNPlaced
    let bin1 := (bin.moveAndReplace nPiecesBefore trig).1
    let s :=
      if !stillNotPlaced.isEmpty then bin1.placeInFreeZonesWithLookAhead stillNotPlaced 5 trig
      else (bin1, stillNotPlaced)
    if s.1.getNPlaced = piecesInBinBeforeRepack then s
    else stage2Loop fuel s.1 s.2 nPiecesBefore trig

/-- The per-piece bin scan of the global optimisation stages of
`BinPacking::pack`: walk the bins in order, optionally rebuilding each bin's
free rectangles first (that rebuild persists even when the subsequent
placement fails, as in the source); the first successful `placeInFreeZones`
is followed by a compress of that bin. -/
def tryBinsFor (recompute : Bool) (bins : List Bin) (piece : MArea) (trig : ℤ → ℚ × ℚ) :
    List Bin × Bool :=
  (List.range bins.length).foldl (fun acc k =>
    if acc.2 then acc
    else
      match acc.1[k]? with
      | none => acc
      | some bin =>
        let binR := if recompute then bin.recomputeAllFreeRectangles else bin
        let pr := binR.placeInFreeZones [piece] trig
        if pr.2.isEmpty then (acc.1.set k pr.1.compress, true)
        else (acc.1.set k binR, false)) (bins, false)

/-- A global optimisation stage of `BinPacking::pack`: sort the remaining
pieces by descending area and try each of them in every existing bin. -/
def globalOptimize (recompute : Bool) (bins : List Bin) (toPlace : List MArea)
    (trig : ℤ → ℚ × ℚ) : List Bin × List MArea :=
  (sortBy areaDescending toPlace).foldl (fun acc piece =>
    let r := tryBinsFor recompute acc.1 piece trig
    if r.2 then (r.1, acc.2) else (r.1, acc.2 ++ [piece])) (bins, [])

/-- One body of the outer loop of `BinPacking::pack`: open a bin, run the
three stages, run the in-loop global optimisation; `none` signals the abort
taken when the fresh bin received no piece. -/
def packStep (bins : List Bin) (toPlace : List MArea) (binDimension : Rectangle2D)
    (trig : ℤ → ℚ × ℚ) : Option (List Bin × List MArea) :=
  let currentBin := Bin.mk0 binDimension
  let nPiecesBefore := currentBin.getNPlaced
  let s1 := currentBin.boundingBoxPackingWithLookAhead toPlace 5 trig
  let s2 :=
    if nPiecesBefore < s1.1.getNPlaced then
      stage2Loop (s1.2.length + 2) s1.1 s1.2 nPiecesBefore trig
    else s1
  let bin3 := s2.1.compress
  let s3 := if !s2.2.isEmpty then bin3.dropPieces s2.2 trig else (bin3, s2.2)
  let bin5 := s3.1.compress
  if bin5.getNPlaced = nPiecesBefore then none
  else
    let binsNew := bins ++ [bin5]
    if !s3.2.isEmpty ∧ 1 < binsNew.length then some (globalOptimize true binsNew s3.2 trig)
    else some (binsNew, s3.2)

/-- The outer loop of `BinPacking::pack` with explicit fuel: guard against a
non-decreasing unplaced count, then run `packStep`, stopping when it
aborts. -/
def packLoop (fuel : ℕ) (bins : List Bin) (toPlace : List MArea)
    (lastLoopUnplacedCount : ℕ) (binDimension : Rectangle2D) (trig : ℤ → ℚ × ℚ) :
    List Bin × List MArea :=
  match fuel with
  | 0 => (bins, toPlace)
  | fuel + 1 =>
    if toPlace.isEmpty then (bins, toPlace)
    else if 0 < lastLoopUnplacedCount ∧ toPlace.length = lastLoopUnplacedCount then
      (bins, toPlace)
    else
      match packStep bins toPlace binDimension trig with
      | none => (bins, toPlace)
      | some s4 => packLoop fuel s4.1 s4.2 toPlace.length binDimension trig

/-- Model of `BinPacking::pack`: sort the input by descending area, run the
guarded outer loop, then run the trailing global optimisation stage on
whatever remains.  The loop fuel dominates the iteration count because every
continuing iteration strictly shrinks the unplaced list. -/
def pack (pieces : List MArea) (binDimension : Rectangle2D) (trig : ℤ → ℚ × ℚ) : List Bin :=
  let sorted := sortBy areaDescending pieces
  let st := packLoop (sorted.length + 2) [] sorted 0 binDimension trig
  if !st.2.isEmpty ∧ !st.1.isEmpty then (globalOptimize false st.1 st.2 trig).1
  else st.1

end BinPacking

/-- Closed membership of a point in a box, the Prop form of the coordinate
inequalities. -/
def inRectP (p : Pt) (r : Rectangle2D) : Prop :=
  r.minC.1 ≤ p.1 ∧ p.1 ≤ r.maxC.1 ∧ r.minC.2 ≤ p.2 ∧ p.2 ≤ r.maxC.2

theorem foldl_min_le_init (f : Pt → ℚ) (ps : List Pt) (a : ℚ) :
    ps.foldl (fun m q => min m (f q)) a ≤ a := by
  induction ps generalizing a with
  | nil => simp
  | cons p ps ih => exact le_trans (ih (min a (f p))) (min_le_left _ _)

theorem foldl_min_le_mem (f : Pt → ℚ) (ps : List Pt) (a : ℚ) (q : Pt) (hq : q ∈ ps) :
    ps.foldl (fun m q => min m (f q)) a ≤ f q := by
  induction ps generalizing a with
  | nil => cases hq
  | cons p ps ih =>
    rcases List.mem_cons.1 hq with h | h
    · subst h
      exact le_trans (foldl_min_le_init f ps (min a (f q))) (min_le_right _ _)
    · exact ih (min a (f p)) h

theorem init_le_foldl_max (f : Pt → ℚ) (ps : List Pt) (a : ℚ) :
    a ≤ ps.foldl (fun m q => max m (f q)) a := by
  induction ps generalizing a with
  | nil => simp
  | cons p ps ih => exact le_trans (le_max_left _ _) (ih (max a (f p)))

theorem mem_le_foldl_max (f : Pt → ℚ) (ps : List Pt) (a : ℚ) (q : Pt) (hq : q ∈ ps) :
    f q ≤ ps.foldl (fun m q => max m (f q)) a := by
  induction ps generalizing a with
  | nil => cases hq
  | cons p ps ih =>
    rcases List.mem_cons.1 hq with h | h
    · subst h
      exact le_trans (le_max_right _ _) (init_le_foldl_max f ps (max a (f q)))
    · exact ih (max a (f p)) h

/-- Every ring point of a multi-polygon lies in its envelope. -/
theorem mem_envelope (mp : MultiPolygon) (p : Pt) (hp : p ∈ allPoints mp) :
    inRectP p (envelope mp) := by
  unfold envelope
  rcases hl : allPoints mp with _ | ⟨v, vs⟩
  · rw [hl] at hp; cases hp
  · rw [hl] at hp
    rcases List.mem_cons.1 hp with h | h
    · subst h
      exact ⟨foldl_min_le_init Prod.fst vs p.1, init_le_foldl_max Prod.fst vs p.1,
        foldl_min_le_init Prod.snd vs p.2, init_le_foldl_max Prod.snd vs p.2⟩
    · exact ⟨foldl_min_le_mem Prod.fst vs v.1 p h, mem_le_foldl_max Prod.fst vs v.1 p h,
        foldl_min_le_mem Prod.snd vs v.2 p h, mem_le_foldl_max Prod.snd vs v.2 p h⟩

/-- The envelope's min x bounds the x of any ring point suffices for box
intersection: two boxes sharing a point intersect. -/
theorem intersects_of_common (r1 r2 : Rectangle2D) (z : Pt) (h1 : inRectP z r1)
    (h2 : inRectP z r2) : RectangleUtils.intersects r1 r2 = true := by
  obtain ⟨a1, b1, c1, d1⟩ := h1
  obtain ⟨a2, b2, c2, d2⟩ := h2
  simp only [RectangleUtils.intersects, Bool.and_eq_true, decide_eq_true_eq]
  exact ⟨⟨⟨le_trans a1 b2, le_trans a2 b1⟩, le_trans c1 d2⟩, le_trans c2 d1⟩

theorem lerp_between (a b t : ℚ) (h0 : 0 ≤ t) (h1 : t ≤ 1) :
    min a b ≤ a + t * (b - a) ∧ a + t * (b - a) ≤ max a b := by
  rcases le_total a b with h | h
  · rw [min_eq_left h, max_eq_right h]
    constructor <;> nlinarith
  · rw [min_eq_right h, max_eq_left h]
    constructor <;> nlinarith

theorem straddle_t (d1 d2 : ℚ) (h : d1 < 0 ∧ 0 < d2 ∨ 0 < d1 ∧ d2 < 0) :
    ∃ t : ℚ, 0 ≤ t ∧ t ≤ 1 ∧ (1 - t) * d1 + t * d2 = 0 := by
  have hne : d1 - d2 ≠ 0 := by rcases h with ⟨h1, h2⟩ | ⟨h1, h2⟩ <;> nlinarith
  refine ⟨d1 / (d1 - d2), ?_, ?_, ?_⟩
  · rcases h with ⟨h1, h2⟩ | ⟨h1, h2⟩
    · exact div_nonneg_of_nonpos (le_of_lt h1) (by nlinarith)
    · exact div_nonneg (le_of_lt h1) (by nlinarith)
  · rcases h with ⟨h1, h2⟩ | ⟨h1, h2⟩
    · rw [div_le_one_of_neg (by nlinarith)]; nlinarith
    · rw [div_le_one (by nlinarith)]; nlinarith
  · field_simp
    ring

theorem straddle_u (d3 d4 u : ℚ) (h : d3 < 0 ∧ 0 < d4 ∨ 0 < d3 ∧ d4 < 0)
    (he : (1 - u) * d3 + u * d4 = 0) : 0 ≤ u ∧ u ≤ 1 := by
  constructor
  · by_contra hu
    push_neg at hu
    rcases h with ⟨h1, h2⟩ | ⟨h1, h2⟩ <;> nlinarith
  · by_contra hu
    push_neg at hu
    rcases h with ⟨h1, h2⟩ | ⟨h1, h2⟩ <;> nlinarith

theorem orient_lerp (a b c d : Pt) (t : ℚ) :
    orient a b (c.1 + t * (d.1 - c.1), c.2 + t * (d.2 - c.2))
      = (1 - t) * orient a b c + t * orient a b d := by
  unfold orient
  ring

theorem collinear_lerp (q1 q2 z : Pt) (hne : q1 ≠ q2) (h : orient q1 q2 z = 0) :
    ∃ u : ℚ, z.1 = q1.1 + u * (q2.1 - q1.1) ∧ z.2 = q1.2 + u * (q2.2 - q1.2) := by
  by_cases hx : q2.1 = q1.1
  · have hy : q2.2 ≠ q1.2 := by
      intro hy
      exact hne (Prod.ext hx.symm hy.symm)
    have hz1 : z.1 = q1.1 := by
      unfold orient at h
      rw [hx] at h
      have : (q2.2 - q1.2) * (z.1 - q1.1) = 0 := by linarith [h]
      rcases mul_eq_zero.1 this with h' | h'
      · exact absurd (by linarith : q2.2 = q1.2) hy
      · linarith
    have hyne : q2.2 - q1.2 ≠ 0 := fun h' => hy (by linarith)
    refine ⟨(z.2 - q1.2) / (q2.2 - q1.2), ?_, ?_⟩
    · rw [hz1, hx]; ring
    · field_simp
  · have hxne : q2.1 - q1.1 ≠ 0 := fun h' => hx (by linarith)
    refine ⟨(z.1 - q1.1) / (q2.1 - q1.1), ?_, ?_⟩
    · field_simp
    · unfold orient at h
      field_simp
      nlinarith [h]

/-- Componentwise betweenness of a point relative to a segment's
endpoints. -/
def betweenSeg (a b z : Pt) : Prop :=
  min a.1 b.1 ≤ z.1 ∧ z.1 ≤ max a.1 b.1 ∧ min a.2 b.2 ≤ z.2 ∧ z.2 ≤ max a.2 b.2

theorem betweenSeg_left (a b : Pt) : betweenSeg a b a :=
  ⟨min_le_left _ _, le_max_left _ _, min_le_left _ _, le_max_left _ _⟩

theorem betweenSeg_right (a b : Pt) : betweenSeg a b b :=
  ⟨min_le_right _ _, le_max_right _ _, min_le_right _ _, le_max_right _ _⟩

theorem onSeg_between (a b p : Pt) (h : onSeg a b p = true) : betweenSeg a b p := by
  simp only [onSeg, Bool.and_eq_true, decide_eq_true_eq] at h
  exact ⟨h.1.1.1.2, h.1.1.2, h.1.2, h.2⟩

theorem orient_degenerate_left (a b : Pt) : orient a b a = 0 := by unfold orient; ring

theorem orient_degenerate_right (a b : Pt) : orient a b b = 0 := by unfold orient; ring

/-- Soundness core of the segment intersection test: intersecting closed
segments admit a point lying componentwise between both endpoint pairs. -/
theorem segIntersect_common (p1 p2 q1 q2 : Pt) (h : segIntersect p1 p2 q1 q2 = true) :
    ∃ z : Pt, betweenSeg p1 p2 z ∧ betweenSeg q1 q2 z := by
  unfold segIntersect at h
  simp only [Bool.or_eq_true, Bool.and_eq_true, decide_eq_true_eq, or_assoc] at h
  rcases h with ⟨hd1, hd3⟩ | h1 | h2 | h3 | h4
  · set d1 := orient q1 q2 p1 with hd1def
    set d2 := orient q1 q2 p2 with hd2def
    set d3 := orient p1 p2 q1 with hd3def
    set d4 := orient p1 p2 q2 with hd4def
    have hstraddle1 : d1 < 0 ∧ 0 < d2 ∨ 0 < d1 ∧ d2 < 0 := hd1
    have hstraddle3 : d3 < 0 ∧ 0 < d4 ∨ 0 < d3 ∧ d4 < 0 := hd3
    obtain ⟨t, ht0, ht1, hte⟩ := straddle_t d1 d2 hstraddle1
    set z : Pt := (p1.1 + t * (p2.1 - p1.1), p1.2 + t * (p2.2 - p1.2)) with hz
    have hzp : betweenSeg p1 p2 z := by
      obtain ⟨hx1, hx2⟩ := lerp_between p1.1 p2.1 t ht0 ht1
      obtain ⟨hy1, hy2⟩ := lerp_between p1.2 p2.2 t ht0 ht1
      exact ⟨hx1, hx2, hy1, hy2⟩
    have hzq_line : orient q1 q2 z = 0 := by
      rw [hz, orient_lerp, ← hd1def, ← hd2def, hte]
    have hq_ne : q1 ≠ q2 := by
      intro he
      rw [hd3def, hd4def, he] at hstraddle3
      rcases hstraddle3 with ⟨ha, hb⟩ | ⟨ha, hb⟩ <;> exact absurd (lt_trans ha hb) (lt_irrefl _)
    obtain ⟨u, hu1, hu2⟩ := collinear_lerp q1 q2 z hq_ne hzq_line
    have hzp_line : orient p1 p2 z = 0 := by
      rw [hz, orient_lerp, orient_degenerate_left, orient_degenerate_right]
      ring
    have huq : (1 - u) * d3 + u * d4 = 0 := by
      rw [hd3def, hd4def, ← orient_lerp p1 p2 q1 q2 u, ← hu1, ← hu2]
      exact hzp_line
    obtain ⟨hu0, hu1le⟩ := straddle_u d3 d4 u hstraddle3 huq
    have hzq : betweenSeg q1 q2 z := by
      obtain ⟨hx1, hx2⟩ := lerp_between q1.1 q2.1 u hu0 hu1le
      obtain ⟨hy1, hy2⟩ := lerp_between q1.2 q2.2 u hu0 hu1le
      rw [← hu1] at hx1 hx2
      rw [← hu2] at hy1 hy2
      exact ⟨hx1, hx2, hy1, hy2⟩
    exact ⟨z, hzp, hzq⟩
  · exact ⟨p1, betweenSeg_left p1 p2, onSeg_between q1 q2 p1 h1⟩
  · exact ⟨p2, betweenSeg_right p1 p2, onSeg_between q1 q2 p2 h2⟩
  · exact ⟨q1, onSeg_between p1 p2 q1 h3, betweenSeg_left q1 q2⟩
  · exact ⟨q2, onSeg_between p1 p2 q2 h4, betweenSeg_right q1 q2⟩

theorem ringEdges_mem (r : MRing) (e : Pt × Pt) (he : e ∈ ringEdges r) :
    e.1 ∈ r ∧ e.2 ∈ r := by
  rcases r with _ | ⟨v, vs⟩
  · cases he
  · simp only [ringEdges] at he
    obtain ⟨h1, h2⟩ := List.of_mem_zip he
    refine ⟨h1, ?_⟩
    rcases List.mem_append.1 h2 with h | h
    · exact List.mem_cons_of_mem v h
    · simp only [List.mem_singleton] at h
      subst h
      exact List.mem_cons_self _ _

theorem straddle_xIntersect (p a b : Pt)
    (hs : (decide (a.2 > p.2) != decide (b.2 > p.2)) = true) :
    min a.1 b.1 ≤ a.1 + (p.2 - a.2) * (b.1 - a.1) / (b.2 - a.2) ∧
    a.1 + (p.2 - a.2) * (b.1 - a.1) / (b.2 - a.2) ≤ max a.1 b.1 ∧
    min a.2 b.2 ≤ p.2 ∧ p.2 ≤ max a.2 b.2 := by
  have key : ∀ t : ℚ, 0 ≤ t → t ≤ 1 →
      min a.1 b.1 ≤ a.1 + t * (b.1 - a.1) ∧ a.1 + t * (b.1 - a.1) ≤ max a.1 b.1 :=
    fun t h0 h1 => lerp_between a.1 b.1 t h0 h1
  have hrw : (p.2 - a.2) * (b.1 - a.1) / (b.2 - a.2)
      = ((p.2 - a.2) / (b.2 - a.2)) * (b.1 - a.1) := mul_div_right_comm _ _ _
  rcases h1 : decide (a.2 > p.2) <;> rcases h2 : decide (b.2 > p.2) <;>
    rw [h1, h2] at hs
  · exact absurd hs (by simp)
  · -- a.2 ≤ p.2 < b.2
    have ha : ¬(a.2 > p.2) := of_decide_eq_false h1
    have hb : b.2 > p.2 := of_decide_eq_true h2
    push_neg at ha
    have hden : 0 < b.2 - a.2 := by linarith
    have ht0 : 0 ≤ (p.2 - a.2) / (b.2 - a.2) := div_nonneg (by linarith) (le_of_lt hden)
    have ht1 : (p.2 - a.2) / (b.2 - a.2) ≤ 1 := by
      rw [div_le_one hden]; linarith
    obtain ⟨hx1, hx2⟩ := key _ ht0 ht1
    rw [hrw]
    exact ⟨hx1, hx2, le_trans (min_le_left _ _) ha, le_trans (le_of_lt hb) (le_max_right _ _)⟩
  · -- b.2 ≤ p.2 < a.2
    have ha : a.2 > p.2 := of_decide_eq_true h1
    have hb : ¬(b.2 > p.2) := of_decide_eq_false h2
    push_neg at hb
    have hden : b.2 - a.2 < 0 := by linarith
    have ht0 : 0 ≤ (p.2 - a.2) / (b.2 - a.2) := div_nonneg_of_nonpos (by linarith) (le_of_lt hden)
    have ht1 : (p.2 - a.2) / (b.2 - a.2) ≤ 1 := by
      rw [div_le_one_of_neg hden]; linarith
    obtain ⟨hx1, hx2⟩ := key _ ht0 ht1
    rw [hrw]
    exact ⟨hx1, hx2, le_trans (min_le_right _ _) hb, le_trans (le_of_lt ha) (le_max_left _ _)⟩
  · exact absurd hs (by simp)

theorem rayCrosses_bounds (p a b : Pt) (h : rayCrosses p a b = true) :
    p.1 ≤ max a.1 b.1 ∧ min a.2 b.2 ≤ p.2 ∧ p.2 ≤ max a.2 b.2 := by
  unfold rayCrosses at h
  rw [Bool.and_eq_true] at h
  obtain ⟨hb1, hb2, hb3, hb4⟩ := straddle_xIntersect p a b h.1
  have hx : p.1 < a.1 + (p.2 - a.2) * (b.1 - a.1) / (b.2 - a.2) := of_decide_eq_true h.2
  exact ⟨le_trans (le_of_lt hx) hb2, hb3, hb4⟩

theorem rayCrosses_of_straddle_left (p a b : Pt)
    (hs : (decide (a.2 > p.2) != decide (b.2 > p.2)) = true)
    (ha : p.1 < a.1) (hb : p.1 < b.1) : rayCrosses p a b = true := by
  unfold rayCrosses
  rw [Bool.and_eq_true]
  refine ⟨hs, decide_eq_true ?_⟩
  obtain ⟨h1, _, _⟩ := straddle_xIntersect p a b hs
  calc p.1 < min a.1 b.1 := lt_min ha hb
  _ ≤ _ := h1

theorem countP_congr_list {α : Type} (l : List α) (p q : α → Bool)
    (h : ∀ a ∈ l, p a = q a) : l.countP p = l.countP q := by
  induction l with
  | nil => rfl
  | cons x xs ih =>
    rw [List.countP_cons, List.countP_cons, h x (List.mem_cons_self _ _),
      ih (fun a ha => h a (List.mem_cons_of_mem _ ha))]

/-- Consecutive-pair edges of an open walk. -/
def walkEdges (l : List Pt) : List (Pt × Pt) := l.zip l.tail

theorem zip_extend (l1 l2 t : List Pt) (h : l2.length ≤ l1.length) :
    (l1 ++ t).zip l2 = l1.zip l2 := by
  induction l1 generalizing l2 with
  | nil =>
    have h2 : l2 = [] := List.length_eq_zero.1 (Nat.le_zero.1 h)
    subst h2
    simp
  | cons a l1 ih =>
    rcases l2 with _ | ⟨b, l2⟩
    · simp
    · simp only [List.cons_append, List.zip_cons_cons, List.cons.injEq, true_and]
      exact ih l2 (by simpa using h)

theorem ringEdges_eq_walk (v : Pt) (vs : List Pt) :
    ringEdges (v :: vs) = walkEdges (v :: (vs ++ [v])) := by
  show (v :: vs).zip (vs ++ [v]) = (v :: (vs ++ [v])).zip ((v :: (vs ++ [v])).tail)
  simp only [List.tail_cons]
  have : v :: (vs ++ [v]) = (v :: vs) ++ [v] := by simp
  rw [this, zip_extend (v :: vs) (vs ++ [v]) [v] (by simp)]

theorem walk_flips_parity (f : Pt → Bool) (l : List Pt) (a : Pt) :
    ((walkEdges (a :: l)).countP (fun e => f e.1 != f e.2)) % 2
      = (if f a = f (l.getLastD a) then 0 else 1) := by
  induction l generalizing a with
  | nil => simp [walkEdges]
  | cons b l ih =>
    have hstep : walkEdges (a :: b :: l) = (a, b) :: walkEdges (b :: l) := rfl
    rw [hstep, List.countP_cons]
    have ihb := ih b
    simp only [List.getLastD_cons]
    by_cases h1 : f a = f b
    · have hfa : (f a != f b) = false := by simp [h1]
      simp only [hfa, Bool.false_eq_true, if_false, Nat.add_zero]
      rw [h1]
      exact ihb
    · have hne : (f a != f b) = true := bne_iff_ne.2 h1
      simp only [hne, if_true]
      by_cases h2 : f b = f (l.getLastD b)
      · have hne2 : ¬(f a = f (l.getLastD b)) := by rw [← h2]; exact h1
        simp only [if_neg hne2]
        simp only [if_pos h2] at ihb
        omega
      · have h3 : f a = f (l.getLastD b) := by
          rcases Bool.eq_false_or_eq_true (f a) with ha | ha <;>
          rcases Bool.eq_false_or_eq_true (f b) with hb | hb <;>
          rcases Bool.eq_false_or_eq_true (f (l.getLastD b)) with hc | hc <;>
            simp_all
        simp only [if_pos h3]
        simp only [if_neg h2] at ihb
        omega

theorem closed_flips_even (f : Pt → Bool) (v : Pt) (vs : List Pt) :
    ((walkEdges (v :: (vs ++ [v]))).countP (fun e => f e.1 != f e.2)) % 2 = 0 := by
  rw [walk_flips_parity f (vs ++ [v]) v]
  have : (vs ++ [v]).getLastD v = v := by
    rw [List.getLastD_eq_getLast?]
    simp
  rw [this]
  simp

/-- A point strictly to the left of every vertex of a ring has an even
crossing number: every straddling edge is counted, and the straddle count
around a closed ring is even. -/
theorem crossNum_even_left (p : Pt) (r : MRing) (h : ∀ q ∈ r, p.1 < q.1) :
    crossNum p r % 2 = 0 := by
  rcases r with _ | ⟨v, vs⟩
  · simp [crossNum, ringEdges]
  · unfold crossNum
    have hcong : (ringEdges (v :: vs)).countP (fun e => rayCrosses p e.1 e.2)
        = (ringEdges (v :: vs)).countP
            (fun e => decide (e.1.2 > p.2) != decide (e.2.2 > p.2)) := by
      apply countP_congr_list
      intro e he
      obtain ⟨h1, h2⟩ := ringEdges_mem (v :: vs) e he
      rcases hstr : (decide (e.1.2 > p.2) != decide (e.2.2 > p.2)) with _ | _
      · unfold rayCrosses
        rw [hstr, Bool.false_and]
      · exact rayCrosses_of_straddle_left p e.1 e.2 hstr (h e.1 h1) (h e.2 h2)
    rw [hcong, ringEdges_eq_walk]
    exact closed_flips_even (fun q => decide (q.2 > p.2)) v vs

theorem mem_allPoints (mp : MultiPolygon) (poly : MPolygon) (r : MRing) (a : Pt)
    (hpoly : poly ∈ mp) (hr : r ∈ polyRings poly) (ha : a ∈ r) : a ∈ allPoints mp := by
  unfold allPoints
  exact List.mem_flatten.2 ⟨r, List.mem_flatMap.2 ⟨poly, hpoly, hr⟩, ha⟩

theorem allEdges_endpoints (mp : MultiPolygon) (e : Pt × Pt) (he : e ∈ allEdges mp) :
    e.1 ∈ allPoints mp ∧ e.2 ∈ allPoints mp := by
  unfold allEdges at he
  obtain ⟨r, hr, he'⟩ := List.mem_flatMap.1 he
  obtain ⟨h1, h2⟩ := ringEdges_mem r e he'
  unfold allPoints
  exact ⟨List.mem_flatten.2 ⟨r, hr, h1⟩, List.mem_flatten.2 ⟨r, hr, h2⟩⟩

/-- Closed ring membership bounds the point by ring vertices in all four
directions. -/
theorem inRingClosed_bounds (p : Pt) (r : MRing) (h : inRingClosed p r = true) :
    (∃ a ∈ r, p.1 ≤ a.1) ∧ (∃ a ∈ r, a.1 ≤ p.1) ∧
    (∃ a ∈ r, p.2 ≤ a.2) ∧ (∃ a ∈ r, a.2 ≤ p.2) := by
  unfold inRingClosed at h
  rw [Bool.or_eq_true] at h
  rcases h with honr | hodd
  · obtain ⟨e, he, hseg⟩ := List.any_eq_true.1 honr
    obtain ⟨hm1, hm2⟩ := ringEdges_mem r e he
    obtain ⟨hx1, hx2, hy1, hy2⟩ := onSeg_between e.1 e.2 p hseg
    refine ⟨?_, ?_, ?_, ?_⟩
    · rcases le_max_iff.1 hx2 with h' | h'
      · exact ⟨e.1, hm1, h'⟩
      · exact ⟨e.2, hm2, h'⟩
    · rcases min_le_iff.1 hx1 with h' | h'
      · exact ⟨e.1, hm1, h'⟩
      · exact ⟨e.2, hm2, h'⟩
    · rcases le_max_iff.1 hy2 with h' | h'
      · exact ⟨e.1, hm1, h'⟩
      · exact ⟨e.2, hm2, h'⟩
    · rcases min_le_iff.1 hy1 with h' | h'
      · exact ⟨e.1, hm1, h'⟩
      · exact ⟨e.2, hm2, h'⟩
  · have hodd' : crossNum p r % 2 = 1 := of_decide_eq_true hodd
    have hpos : 0 < crossNum p r := by
      by_contra h'
      push_neg at h'
      interval_cases h'' : crossNum p r
      · simp at hodd'
    obtain ⟨e, he, hcr⟩ := List.countP_pos_iff.1 hpos
    obtain ⟨hm1, hm2⟩ := ringEdges_mem r e he
    obtain ⟨hx2, hy1, hy2⟩ := rayCrosses_bounds p e.1 e.2 hcr
    refine ⟨?_, ?_, ?_, ?_⟩
    · rcases le_max_iff.1 hx2 with h' | h'
      · exact ⟨e.1, hm1, h'⟩
      · exact ⟨e.2, hm2, h'⟩
    · by_contra hno
      push_neg at hno
      have := crossNum_even_left p r hno
      omega
    · rcases le_max_iff.1 hy2 with h' | h'
      · exact ⟨e.1, hm1, h'⟩
      · exact ⟨e.2, hm2, h'⟩
    · rcases min_le_iff.1 hy1 with h' | h'
      · exact ⟨e.1, hm1, h'⟩
      · exact ⟨e.2, hm2, h'⟩

/-- A point in the closed region of a multi-polygon lies in its envelope. -/
theorem inMulti_envelope (p : Pt) (mp : MultiPolygon) (h : inMulti p mp = true) :
    inRectP p (envelope mp) := by
  obtain ⟨poly, hpoly, hin⟩ := List.any_eq_true.1 h
  unfold inPolygon at hin
  rw [Bool.and_eq_true] at hin
  have houter : inRingClosed p poly.outer = true := hin.1
  obtain ⟨⟨a1, ha1, hb1⟩, ⟨a2, ha2, hb2⟩, ⟨a3, ha3, hb3⟩, ⟨a4, ha4, hb4⟩⟩ :=
    inRingClosed_bounds p poly.outer houter
  have hmem : ∀ a ∈ poly.outer, a ∈ allPoints mp := fun a ha =>
    mem_allPoints mp poly poly.outer a hpoly (List.mem_cons_self _ _) ha
  obtain ⟨_, e2, _, _⟩ := mem_envelope mp a1 (hmem a1 ha1)
  obtain ⟨e3, _, _, _⟩ := mem_envelope mp a2 (hmem a2 ha2)
  obtain ⟨_, _, _, e6⟩ := mem_envelope mp a3 (hmem a3 ha3)
  obtain ⟨_, _, e7, _⟩ := mem_envelope mp a4 (hmem a4 ha4)
  exact ⟨le_trans e3 hb2, le_trans hb1 e2, le_trans e7 hb4, le_trans hb3 e6⟩

/-- Soundness of the region intersection test with respect to bounding
boxes: intersecting multi-polygons have intersecting envelopes.  This is the
fact the collision oracle's broad phase relies on. -/
theorem multiIntersects_envelopes (a b : MultiPolygon) (h : multiIntersects a b = true) :
    RectangleUtils.intersects (envelope a) (envelope b) = true := by
  unfold multiIntersects at h
  simp only [Bool.or_eq_true, List.any_eq_true, or_assoc] at h
  rcases h with ⟨e, he, f, hf, hseg⟩ | ⟨p, hp, hin⟩ | ⟨p, hp, hin⟩
  · obtain ⟨z, hza, hzb⟩ := segIntersect_common e.1 e.2 f.1 f.2 hseg
    obtain ⟨he1, he2⟩ := allEdges_endpoints a e he
    obtain ⟨hf1, hf2⟩ := allEdges_endpoints b f hf
    obtain ⟨u1, u2, u3, u4⟩ := mem_envelope a e.1 he1
    obtain ⟨v1, v2, v3, v4⟩ := mem_envelope a e.2 he2
    obtain ⟨w1, w2, w3, w4⟩ := mem_envelope b f.1 hf1
    obtain ⟨x1, x2, x3, x4⟩ := mem_envelope b f.2 hf2
    obtain ⟨za1, za2, za3, za4⟩ := hza
    obtain ⟨zb1, zb2, zb3, zb4⟩ := hzb
    apply intersects_of_common _ _ z
    · exact ⟨le_trans (le_min u1 v1) za1, le_trans za2 (max_le u2 v2),
        le_trans (le_min u3 v3) za3, le_trans za4 (max_le u4 v4)⟩
    · exact ⟨le_trans (le_min w1 x1) zb1, le_trans zb2 (max_le w2 x2),
        le_trans (le_min w3 x3) zb3, le_trans zb4 (max_le w4 x4)⟩
  · exact intersects_of_common _ _ p (mem_envelope a p hp) (inMulti_envelope p b hin)
  · exact intersects_of_common _ _ p (inMulti_envelope p a hin) (mem_envelope b p hp)

/-- Intersecting pieces have intersecting bounding boxes: the lift of the
envelope soundness lemma through `MArea.intersection`. -/
theorem intersection_envelopes (p q : MArea) (h : p.intersection q = true) :
    RectangleUtils.intersects p.getBoundingBox2D q.getBoundingBox2D = true := by
  unfold MArea.intersection at h
  split at h
  · cases h
  · exact multiIntersects_envelopes p.shape q.shape h

theorem rect_intersects_comm (r1 r2 : Rectangle2D) :
    RectangleUtils.intersects r1 r2 = RectangleUtils.intersects r2 r1 := by
  apply Bool.eq_iff_iff.mpr
  unfold RectangleUtils.intersects
  simp only [Bool.and_eq_true, decide_eq_true_eq]
  tauto

theorem segIntersect_comm (p1 p2 q1 q2 : Pt) :
    segIntersect p1 p2 q1 q2 = segIntersect q1 q2 p1 p2 := by
  apply Bool.eq_iff_iff.mpr
  unfold segIntersect
  simp only [Bool.or_eq_true, Bool.and_eq_true, decide_eq_true_eq, or_assoc]
  tauto

theorem multiIntersects_comm (a b : MultiPolygon) :
    multiIntersects a b = multiIntersects b a := by
  apply Bool.eq_iff_iff.mpr
  unfold multiIntersects
  simp only [Bool.or_eq_true, List.any_eq_true, or_assoc]
  constructor
  · rintro (⟨e, he, f, hf, hseg⟩ | h | h)
    · exact Or.inl ⟨f, hf, e, he, by rw [segIntersect_comm]; exact hseg⟩
    · exact Or.inr (Or.inr h)
    · exact Or.inr (Or.inl h)
  · rintro (⟨e, he, f, hf, hseg⟩ | h | h)
    · exact Or.inl ⟨f, hf, e, he, by rw [segIntersect_comm]; exact hseg⟩
    · exact Or.inr (Or.inr h)
    · exact Or.inr (Or.inl h)

theorem intersection_comm (m o : MArea) : m.intersection o = o.intersection m := by
  unfold MArea.intersection
  rcases h1 : m.isEmpty <;> rcases h2 : o.isEmpty <;> simp [multiIntersects_comm]

namespace Bin

/-- Validity of the index entries: every stored index addresses a placed
piece. -/
def EntriesValid (b : Bin) : Prop := ∀ e ∈ b.rtree, e.2 < b.placedPieces.length

/-- Coverage of the index: every placed piece's current bounding box is
stored under its index (stale extra entries are allowed; the narrow phase
re-reads the current piece, so they never falsify the oracle). -/
def IndexCovers (b : Bin) : Prop :=
  ∀ i p, b.placedPieces[i]? = some p → (p.getBoundingBox2D, i) ∈ b.rtree

/-- The data-model invariant of §3 of the specification relating the spatial
index to the placed pieces. -/
def WF (b : Bin) : Prop := EntriesValid b ∧ IndexCovers b

/-- Index coverage away from one index, the transient state of
`moveAndReplace` between overwriting a piece and re-indexing it. -/
def IndexCoversExc (b : Bin) (k : ℕ) : Prop :=
  ∀ i p, b.placedPieces[i]? = some p → i ≠ k → (p.getBoundingBox2D, i) ∈ b.rtree

/-- Pairwise non-intersection of the placed pieces, the non-overlap
invariant in its index form. -/
def NoOverlap (b : Bin) : Prop :=
  ∀ (i j : ℕ) (pi pj : MArea),
    b.placedPieces[i]? = some pi → b.placedPieces[j]? = some pj → i ≠ j →
    pi.intersection pj = false

/-- Executable form of `WF` for concrete witnesses. -/
def wfB (b : Bin) : Bool :=
  b.rtree.all (fun e => decide (e.2 < b.placedPieces.length)) &&
  (List.range b.placedPieces.length).all (fun i =>
    match b.placedPieces[i]? with
    | some p => decide ((p.getBoundingBox2D, i) ∈ b.rtree)
    | none => true)

theorem wf_of_wfB (b : Bin) (h : b.wfB = true) : b.WF := by
  unfold wfB at h
  rw [Bool.and_eq_true] at h
  constructor
  · intro e he
    exact of_decide_eq_true (List.all_eq_true.1 h.1 e he)
  · intro i p hp
    have hi : i < b.placedPieces.length := by
      by_contra h'
      rw [List.getElem?_eq_none (by omega)] at hp
      cases hp
    have := List.all_eq_true.1 h.2 i (List.mem_range.2 hi)
    rw [hp] at this
    exact of_decide_eq_true this

/-- Soundness of a silent collision oracle: under index coverage away from
the ignored index, no placed piece other than the ignored one intersects the
candidate. -/
theorem isCollision_false_sound (b : Bin) (piece : MArea) (ign : Option ℕ)
    (hcov : ∀ i p, b.placedPieces[i]? = some p → ign ≠ some i →
      (p.getBoundingBox2D, i) ∈ b.rtree)
    (h : b.isCollision piece ign = false) :
    ∀ i p, b.placedPieces[i]? = some p → ign ≠ some i → piece.intersection p = false := by
  intro i p hp hign
  by_contra hcol
  rw [Bool.not_eq_false] at hcol
  have hbox := intersection_envelopes piece p hcol
  have hmem : (p.getBoundingBox2D, i) ∈ b.rtree := hcov i p hp hign
  have hq : (p.getBoundingBox2D, i) ∈ b.rtreeQuery piece.getBoundingBox2D := by
    unfold rtreeQuery
    refine List.mem_filter.2 ⟨hmem, ?_⟩
    rw [rect_intersects_comm]
    exact hbox
  unfold isCollision at h
  split at h
  · rename_i hempty
    rw [List.isEmpty_iff] at hempty
    rw [hempty] at hq
    cases hq
  · have hc := List.any_eq_false.1 h _ hq
    simp only [if_neg hign, hp, hcol] at hc
    exact hc trivial

/-- Completeness of a loud collision oracle: a reported collision exhibits an
actually intersecting placed piece other than the ignored index. -/
theorem isCollision_true_sound (b : Bin) (piece : MArea) (ign : Option ℕ)
    (h : b.isCollision piece ign = true) :
    ∃ i p, b.placedPieces[i]? = some p ∧ ign ≠ some i ∧ piece.intersection p = true := by
  unfold isCollision at h
  split at h
  · cases h
  · obtain ⟨c, hc, hpred⟩ := List.any_eq_true.1 h
    by_cases hig : ign = some c.2
    · rw [if_pos hig] at hpred
      cases hpred
    · rw [if_neg hig] at hpred
      rcases hq : b.placedPieces[c.2]? with _ | q
      · rw [hq] at hpred
        cases hpred
      · rw [hq] at hpred
        exact ⟨c.2, q, hq, hig, hpred⟩

end Bin

theorem allPoints_translate (v : Pt) (mp : MultiPolygon) :
    allPoints (multiTranslate v mp) = (allPoints mp).map (fun p => (p.1 + v.1, p.2 + v.2)) := by
  unfold allPoints multiTranslate polyRings
  induction mp with
  | nil => rfl
  | cons poly polys ih =>
    simp only [List.map_cons, List.flatMap_cons, List.flatten_append, List.map_append, ih]
    congr 1
    simp [List.map_flatten]

theorem foldl_min_map_add (f : Pt → ℚ) (c : ℚ) (ps : List Pt) (a : ℚ)
    (g : Pt → Pt) (hg : ∀ p, f (g p) = f p + c) :
    (ps.map g).foldl (fun m q => min m (f q)) (a + c)
      = ps.foldl (fun m q => min m (f q)) a + c := by
  induction ps generalizing a with
  | nil => simp
  | cons p ps ih =>
    simp only [List.map_cons, List.foldl_cons, hg]
    rw [min_add_add_right, ih]

theorem foldl_max_map_add (f : Pt → ℚ) (c : ℚ) (ps : List Pt) (a : ℚ)
    (g : Pt → Pt) (hg : ∀ p, f (g p) = f p + c) :
    (ps.map g).foldl (fun m q => max m (f q)) (a + c)
      = ps.foldl (fun m q => max m (f q)) a + c := by
  induction ps generalizing a with
  | nil => simp
  | cons p ps ih =>
    simp only [List.map_cons, List.foldl_cons, hg]
    rw [max_add_add_right, ih]

/-- Translation shifts the envelope exactly (on a shape with at least one
point). -/
theorem envelope_translate (v : Pt) (mp : MultiPolygon) (hne : allPoints mp ≠ []) :
    envelope (multiTranslate v mp) =
      ⟨((envelope mp).minC.1 + v.1, (envelope mp).minC.2 + v.2),
       ((envelope mp).maxC.1 + v.1, (envelope mp).maxC.2 + v.2)⟩ := by
  unfold envelope
  rw [allPoints_translate]
  rcases hl : allPoints mp with _ | ⟨p, ps⟩
  · exact absurd hl hne
  · simp only [List.map_cons]
    have hx := foldl_min_map_add Prod.fst v.1 ps p.1 (fun q => (q.1 + v.1, q.2 + v.2))
      (fun q => rfl)
    have hy := foldl_min_map_add Prod.snd v.2 ps p.2 (fun q => (q.1 + v.1, q.2 + v.2))
      (fun q => rfl)
    have hx' := foldl_max_map_add Prod.fst v.1 ps p.1 (fun q => (q.1 + v.1, q.2 + v.2))
      (fun q => rfl)
    have hy' := foldl_max_map_add Prod.snd v.2 ps p.2 (fun q => (q.1 + v.1, q.2 + v.2))
      (fun q => rfl)
    simp only at hx hy hx' hy'
    rw [Rectangle2D.mk.injEq]
    constructor
    · rw [Prod.mk.injEq]
      exact ⟨hx, hy⟩
    · rw [Prod.mk.injEq]
      exact ⟨hx', hy'⟩

theorem isEmpty_move (m : MArea) (v : Pt) : (m.move v).isEmpty = m.isEmpty := by
  unfold MArea.move
  split
  · rfl
  · unfold MArea.isEmpty multiIsEmpty
    rw [allPoints_translate]
    rcases allPoints m.shape with _ | ⟨p, ps⟩ <;> rfl

theorem area_move (m : MArea) (v : Pt) : (m.move v).area = m.area := by
  unfold MArea.move
  split <;> rfl

theorem area_placeInPosition (m : MArea) (x y : ℚ) : (m.placeInPosition x y).area = m.area := by
  unfold MArea.placeInPosition
  split
  · rfl
  · exact area_move m _

/-- The bounding box of a moved non-empty piece is the translated bounding
box. -/
theorem bbox_move (m : MArea) (v : Pt) (hne : m.isEmpty = false) :
    (m.move v).getBoundingBox2D =
      ⟨(RectangleUtils.getX m.getBoundingBox2D + v.1, RectangleUtils.getY m.getBoundingBox2D + v.2),
       (RectangleUtils.getMaxX m.getBoundingBox2D + v.1,
        RectangleUtils.getMaxY m.getBoundingBox2D + v.2)⟩ := by
  unfold MArea.move
  rw [if_neg (by rw [hne]; exact Bool.false_ne_true)]
  unfold MArea.getBoundingBox2D
  have hpts : allPoints m.shape ≠ [] := by
    unfold MArea.isEmpty multiIsEmpty at hne
    rw [List.isEmpty_eq_false_iff_exists_mem] at hne
    obtain ⟨p, hp⟩ := hne
    exact List.ne_nil_of_mem hp
  exact envelope_translate v m.shape hpts

/-- `placeInPosition` puts the bounding box's min corner exactly at the
requested coordinates (non-empty piece). -/
theorem bbox_placeInPosition (m : MArea) (x y : ℚ) (hne : m.isEmpty = false) :
    (m.placeInPosition x y).getBoundingBox2D =
      ⟨(x, y),
       (x + RectangleUtils.getWidth m.getBoundingBox2D,
        y + RectangleUtils.getHeight m.getBoundingBox2D)⟩ := by
  unfold MArea.placeInPosition
  rw [if_neg (by rw [hne]; exact Bool.false_ne_true)]
  rw [bbox_move m _ hne]
  unfold RectangleUtils.getX RectangleUtils.getY RectangleUtils.getMaxX RectangleUtils.getMaxY
    RectangleUtils.getWidth RectangleUtils.getHeight
  rw [Rectangle2D.mk.injEq, Prod.mk.injEq, Prod.mk.injEq]
  refine ⟨⟨by ring, by ring⟩, by ring, by ring⟩

theorem isEmpty_placeInPosition (m : MArea) (x y : ℚ) :
    (m.placeInPosition x y).isEmpty = m.isEmpty := by
  unfold MArea.placeInPosition
  split
  · rfl
  · exact isEmpty_move m _

theorem eraseEntry_subset (l : List (Rectangle2D × ℕ)) (v x : Rectangle2D × ℕ)
    (hx : x ∈ eraseEntry l v) : x ∈ l := by
  induction l with
  | nil => cases hx
  | cons e es ih =>
    unfold eraseEntry at hx
    split at hx
    · exact List.mem_cons_of_mem e hx
    · rcases List.mem_cons.1 hx with h | h
      · exact h ▸ List.mem_cons_self _ _
      · exact List.mem_cons_of_mem e (ih h)

theorem mem_eraseEntry_of_ne (l : List (Rectangle2D × ℕ)) (v x : Rectangle2D × ℕ)
    (hx : x ∈ l) (hne : x ≠ v) : x ∈ eraseEntry l v := by
  induction l with
  | nil => cases hx
  | cons e es ih =>
    unfold eraseEntry
    split
    · rename_i hev
      rcases List.mem_cons.1 hx with h | h
      · exact absurd (h.trans hev) hne
      · exact h
    · rcases List.mem_cons.1 hx with h | h
      · exact h ▸ List.mem_cons_self _ _
      · exact List.mem_cons_of_mem e (ih h)

theorem eraseEntry_cons_self (l : List (Rectangle2D × ℕ)) (v : Rectangle2D × ℕ) :
    eraseEntry (v :: l) v = l := by
  unfold eraseEntry
  rw [if_pos rfl]

/-- Closed containment of a box in a box relaxed by the spec's ε. -/
def containsEps (outer inner : Rectangle2D) : Prop :=
  outer.minC.1 - epsTol ≤ inner.minC.1 ∧ inner.maxC.1 ≤ outer.maxC.1 + epsTol ∧
  outer.minC.2 - epsTol ≤ inner.minC.2 ∧ inner.maxC.2 ≤ outer.maxC.2 + epsTol

theorem containsEps_of_contains (outer inner : Rectangle2D)
    (h : RectangleUtils.contains outer inner = true) : containsEps outer inner := by
  unfold RectangleUtils.contains at h
  simp only [Bool.and_eq_true, decide_eq_true_eq] at h
  have he : (0 : ℚ) < epsTol := by norm_num [epsTol]
  obtain ⟨⟨⟨h1, h2⟩, h3⟩, h4⟩ := h
  exact ⟨by linarith, by linarith, by linarith, by linarith⟩

/-- Exact closed containment of one box in another. -/
def rectSub (inner outer : Rectangle2D) : Prop :=
  outer.minC.1 ≤ inner.minC.1 ∧ inner.maxC.1 ≤ outer.maxC.1 ∧
  outer.minC.2 ≤ inner.minC.2 ∧ inner.maxC.2 ≤ outer.maxC.2

theorem containsEps_of_rectSub (dim outer inner : Rectangle2D)
    (hsub : rectSub inner outer) (h : containsEps dim outer) : containsEps dim inner := by
  obtain ⟨a1, a2, a3, a4⟩ := hsub
  obtain ⟨b1, b2, b3, b4⟩ := h
  exact ⟨by linarith, by linarith, by linarith, by linarith⟩

namespace Bin

/-- The containment invariant of the spec in ε-relaxed box form: every
non-empty placed piece's bounding box lies within the bin's dimension up to
ε. -/
def ContainedEps (b : Bin) : Prop :=
  ∀ p ∈ b.placedPieces, p.isEmpty = false → containsEps b.dimension p.getBoundingBox2D

/-- Invariant of the free-rectangle set: every free rectangle lies within
the dimension up to ε. -/
def FreeRectsContained (b : Bin) : Prop :=
  ∀ r ∈ b.freeRectangles, containsEps b.dimension r

theorem tryMove_dims (b : Bin) (i : ℕ) (v : Pt) :
    (tryMove b i v).1.dimension = b.dimension ∧
    (tryMove b i v).1.freeRectangles = b.freeRectangles ∧
    (tryMove b i v).1.placedPieces.length = b.placedPieces.length := by
  unfold tryMove
  rcases h : b.placedPieces[i]? with _ | orig
  · exact ⟨rfl, rfl, rfl⟩
  · dsimp only
    split
    · exact ⟨rfl, rfl, by simp⟩
    · exact ⟨rfl, rfl, rfl⟩

theorem tryMove_some (b : Bin) (i : ℕ) (v : Pt) (orig : MArea)
    (hi : b.placedPieces[i]? = some orig) :
    tryMove b i v =
      (if (orig.move v).isInside b.dimension &&
          !(Bin.isCollision
              { b with placedPieces := b.placedPieces.set i (orig.move v),
                       rtree := eraseEntry b.rtree (orig.getBoundingBox2D, i) }
              (orig.move v) (some i)) then
        ({ b with placedPieces := b.placedPieces.set i (orig.move v),
                  rtree := ((orig.move v).getBoundingBox2D, i)
                    :: eraseEntry b.rtree (orig.getBoundingBox2D, i) }, true)
      else
        ({ b with rtree := (orig.getBoundingBox2D, i)
                    :: eraseEntry b.rtree (orig.getBoundingBox2D, i) }, false)) := by
  unfold tryMove
  rw [hi]

theorem tryMove_none (b : Bin) (i : ℕ) (v : Pt) (hi : b.placedPieces[i]? = none) :
    tryMove b i v = (b, false) := by
  unfold tryMove
  rw [hi]

theorem tryMove_fail_pieces (b : Bin) (i : ℕ) (v : Pt)
    (h : (tryMove b i v).2 = false) :
    (tryMove b i v).1.placedPieces = b.placedPieces := by
  rcases hi : b.placedPieces[i]? with _ | orig
  · rw [tryMove_none b i v hi]
  · rw [tryMove_some b i v orig hi] at h ⊢
    split at h
    · cases h
    · rename_i hcond
      rw [if_neg hcond]

/-- The combined invariant-preservation of one `tryMove` attempt: entry
validity, full index coverage (from coverage away from the moved index), and
the non-overlap invariant all hold afterwards. -/
theorem tryMove_preserves (b : Bin) (i : ℕ) (v : Pt) (hval : EntriesValid b)
    (hcov : IndexCoversExc b i) (hno : NoOverlap b) :
    EntriesValid (tryMove b i v).1 ∧ IndexCovers (tryMove b i v).1 ∧
    NoOverlap (tryMove b i v).1 := by
  rcases hi : b.placedPieces[i]? with _ | orig
  · rw [tryMove_none b i v hi]
    refine ⟨hval, ?_, hno⟩
    intro j p hp
    rcases eq_or_ne j i with hji | hji
    · rw [hji, hi] at hp
      cases hp
    · exact hcov j p hp hji
  · have hilen : i < b.placedPieces.length := by
      by_contra h'
      rw [List.getElem?_eq_none (by omega)] at hi
      cases hi
    rw [tryMove_some b i v orig hi]
    set moved := orig.move v with hmoved
    set t1 := eraseEntry b.rtree (orig.getBoundingBox2D, i) with ht1
    have hvalid_t1 : ∀ e ∈ t1, e.2 < b.placedPieces.length := fun e he =>
      hval e (eraseEntry_subset _ _ _ he)
    have hcov_t1 : ∀ j p, (b.placedPieces.set i moved)[j]? = some p → j ≠ i →
        (p.getBoundingBox2D, j) ∈ t1 := by
      intro j p hp hji
      rw [List.getElem?_set_ne (Ne.symm hji)] at hp
      exact mem_eraseEntry_of_ne _ _ _ (hcov j p hp hji)
        (fun hcontra => hji (congrArg Prod.snd hcontra))
    split
    · rename_i hcond
      rw [Bool.and_eq_true] at hcond
      have hnocol := hcond.2
      rw [Bool.not_eq_eq_eq_not, Bool.not_true] at hnocol
      have hsound := isCollision_false_sound
        { b with placedPieces := b.placedPieces.set i moved, rtree := t1 } moved (some i)
        (by
          intro k q hq hik
          have hki : k ≠ i := fun hk => hik (by rw [hk])
          exact hcov_t1 k q hq hki) hnocol
      refine ⟨?_, ?_, ?_⟩
      · intro e he
        rcases List.mem_cons.1 he with h' | h'
        · subst h'
          simpa using hilen
        · simpa using hvalid_t1 e h'
      · intro j p hp
        rcases eq_or_ne j i with hji | hji
        · subst hji
          simp only at hp
          rw [List.getElem?_set_eq_of_lt _ hilen] at hp
          cases hp
          exact List.mem_cons_self _ _
        · exact List.mem_cons_of_mem _ (hcov_t1 j p hp hji)
      · intro j k pj pk hpj hpk hjk
        simp only at hpj hpk
        rcases eq_or_ne j i with hji | hji
        · subst hji
          rw [List.getElem?_set_eq_of_lt _ hilen] at hpj
          cases hpj
          exact hsound k pk hpk (fun hik => hjk (Option.some.inj hik))
        · rcases eq_or_ne k i with hki | hki
          · subst hki
            rw [List.getElem?_set_eq_of_lt _ hilen] at hpk
            cases hpk
            rw [intersection_comm]
            exact hsound j pj hpj (fun hij => hji (Option.some.inj hij).symm)
          · rw [List.getElem?_set_ne (Ne.symm hji)] at hpj
            rw [List.getElem?_set_ne (Ne.symm hki)] at hpk
            exact hno j k pj pk hpj hpk hjk
    · refine ⟨?_, ?_, hno⟩
      · intro e he
        rcases List.mem_cons.1 he with h' | h'
        · subst h'
          simpa using hilen
        · exact hvalid_t1 e h'
      · intro j p hp
        rcases eq_or_ne j i with hji | hji
        · subst hji
          simp only at hp
          rw [hi] at hp
          cases hp
          exact List.mem_cons_self _ _
        · exact List.mem_cons_of_mem _ (mem_eraseEntry_of_ne _ _ _ (hcov j p hp hji)
            (fun hcontra => hji (congrArg Prod.snd hcontra)))

end Bin

theorem isInside_containsEps (m : MArea) (r : Rectangle2D) (h : m.isInside r = true)
    (hne : m.isEmpty = false) : containsEps r m.getBoundingBox2D := by
  unfold MArea.isInside at h
  rw [if_neg (by rw [hne]; exact Bool.false_ne_true)] at h
  exact containsEps_of_contains r m.getBoundingBox2D h

/-- Ordering of one piece against another: same cached area, bounding-box
min corner not to the upper right. -/
def pieceLe (p' p : MArea) : Prop :=
  p'.area = p.area ∧
  RectangleUtils.getX p'.getBoundingBox2D ≤ RectangleUtils.getX p.getBoundingBox2D ∧
  RectangleUtils.getY p'.getBoundingBox2D ≤ RectangleUtils.getY p.getBoundingBox2D

theorem pieceLe_refl (p : MArea) : pieceLe p p := ⟨rfl, le_refl _, le_refl _⟩

theorem pieceLe_trans (p1 p2 p3 : MArea) (h1 : pieceLe p1 p2) (h2 : pieceLe p2 p3) :
    pieceLe p1 p3 :=
  ⟨h1.1.trans h2.1, h1.2.1.trans h2.2.1, h1.2.2.trans h2.2.2⟩

/-- Indexwise ordering of two piece lists of equal length. -/
def piecesLe (l' l : List MArea) : Prop :=
  l'.length = l.length ∧
  ∀ (j : ℕ) (p p' : MArea), l[j]? = some p → l'[j]? = some p' → pieceLe p' p

theorem piecesLe_refl (l : List MArea) : piecesLe l l := by
  refine ⟨rfl, fun j p p' hp hp' => ?_⟩
  rw [hp] at hp'
  cases hp'
  exact pieceLe_refl p

theorem piecesLe_trans (l1 l2 l3 : List MArea) (h1 : piecesLe l1 l2) (h2 : piecesLe l2 l3) :
    piecesLe l1 l3 := by
  refine ⟨h1.1.trans h2.1, fun j p p' hp hp' => ?_⟩
  rcases hmid : l2[j]? with _ | q
  · rw [List.getElem?_eq_none_iff] at hmid
    rw [List.getElem?_eq_none (by rw [h1.1]; exact hmid)] at hp'
    cases hp'
  · exact pieceLe_trans p' q p (h1.2 j q p' hmid hp') (h2.2 j p q hp hmid)

namespace Bin

theorem tryMove_contained (b : Bin) (i : ℕ) (v : Pt) (hc : ContainedEps b) :
    ContainedEps (tryMove b i v).1 := by
  rcases hi : b.placedPieces[i]? with _ | orig
  · rw [tryMove_none b i v hi]
    exact hc
  · rw [tryMove_some b i v orig hi]
    split
    · rename_i hcond
      rw [Bool.and_eq_true] at hcond
      intro p hp hpe
      rcases List.mem_or_eq_of_mem_set hp with h' | h'
      · exact hc p h' hpe
      · subst h'
        exact isInside_containsEps _ _ hcond.1 hpe
    · exact hc

theorem tryMove_piecesLe (b : Bin) (i : ℕ) (v : Pt) (hvx : v.1 ≤ 0) (hvy : v.2 ≤ 0) :
    piecesLe (tryMove b i v).1.placedPieces b.placedPieces := by
  rcases hi : b.placedPieces[i]? with _ | orig
  · rw [tryMove_none b i v hi]
    exact piecesLe_refl _
  · rw [tryMove_some b i v orig hi]
    split
    · refine ⟨by simp, fun j p p' hp hp' => ?_⟩
      simp only at hp'
      rcases eq_or_ne j i with hji | hji
      · subst hji
        have hilen : j < b.placedPieces.length := by
          by_contra h'
          rw [List.getElem?_eq_none (by omega)] at hi
          cases hi
        rw [List.getElem?_set_eq_of_lt _ hilen] at hp'
        cases hp'
        rw [hi, Option.some.injEq] at hp
        subst hp
        by_cases hemp : orig.isEmpty = true
        · unfold MArea.move
          rw [if_pos hemp]
          exact pieceLe_refl orig
        · rw [Bool.not_eq_true] at hemp
          refine ⟨area_move orig v, ?_, ?_⟩
          · rw [bbox_move orig v hemp]
            unfold RectangleUtils.getX
            simp only
            linarith
          · rw [bbox_move orig v hemp]
            unfold RectangleUtils.getY
            simp only
            linarith
      · rw [List.getElem?_set_ne (Ne.symm hji)] at hp'
        rw [hp] at hp'
        cases hp'
        exact pieceLe_refl p
    · exact piecesLe_refl _

theorem covers_to_exc (b : Bin) (i : ℕ) (h : IndexCovers b) : IndexCoversExc b i :=
  fun j p hp _ => h j p hp

/-- Invariant preservation through the fueled inner loop of
`Bin::compressPiece`. -/
theorem compressPieceLoop_preserves (fuel : ℕ) (b : Bin) (i : ℕ) (v : Pt) (m : Bool)
    (hvx : v.1 ≤ 0) (hvy : v.2 ≤ 0) (hval : EntriesValid b) (hcov : IndexCoversExc b i)
    (hno : NoOverlap b) (hc : ContainedEps b) :
    EntriesValid (compressPieceLoop fuel b i v m).1 ∧
    IndexCoversExc (compressPieceLoop fuel b i v m).1 i ∧
    NoOverlap (compressPieceLoop fuel b i v m).1 ∧
    ContainedEps (compressPieceLoop fuel b i v m).1 ∧
    (IndexCovers (compressPieceLoop fuel b i v m).1 ∨ (compressPieceLoop fuel b i v m).1 = b) ∧
    (compressPieceLoop fuel b i v m).1.dimension = b.dimension ∧
    (compressPieceLoop fuel b i v m).1.freeRectangles = b.freeRectangles ∧
    piecesLe (compressPieceLoop fuel b i v m).1.placedPieces b.placedPieces := by
  induction fuel generalizing b m with
  | zero =>
    exact ⟨hval, hcov, hno, hc, Or.inr rfl, rfl, rfl, piecesLe_refl _⟩
  | succ fuel ih =>
    rw [compressPieceLoop]
    by_cases hv2 : v.2 ≠ 0
    · rw [if_pos hv2]
      obtain ⟨e1, c1, hh⟩ := tryMove_preserves b i (0, v.2) hval hcov hno
      have hcont1 := tryMove_contained b i (0, v.2) hc
      have hle1 := tryMove_piecesLe b i (0, v.2) (le_refl 0) hvy
      obtain ⟨hd1, hf1, hl1⟩ := tryMove_dims b i (0, v.2)
      set s1 := tryMove b i (0, v.2) with hs1
      by_cases hv1 : v.1 ≠ 0
      · rw [if_pos hv1]
        obtain ⟨e2, c2, hh2⟩ := tryMove_preserves s1.1 i (v.1, 0) e1
          (covers_to_exc _ i c1) hh
        have hcont2 := tryMove_contained s1.1 i (v.1, 0) hcont1
        have hle2 := tryMove_piecesLe s1.1 i (v.1, 0) hvx (le_refl 0)
        obtain ⟨hd2, hf2, hl2⟩ := tryMove_dims s1.1 i (v.1, 0)
        set s2 := tryMove s1.1 i (v.1, 0) with hs2
        split
        · obtain ⟨r1, r2, r3, r4, r5, r6, r7, r8⟩ := ih s2.1 true e2
            (covers_to_exc _ i c2) hh2 hcont2
          refine ⟨r1, r2, r3, r4, ?_, by rw [r6, hd2, hd1], by rw [r7, hf2, hf1], ?_⟩
          · rcases r5 with h' | h'
            · exact Or.inl h'
            · rw [h']
              exact Or.inl c2
          · exact piecesLe_trans _ _ _ r8 (piecesLe_trans _ _ _ hle2 hle1)
        · exact ⟨e2, covers_to_exc _ i c2, hh2, hcont2, Or.inl c2,
            by rw [hd2, hd1], by rw [hf2, hf1], piecesLe_trans _ _ _ hle2 hle1⟩
      · rw [if_neg hv1]
        split
        · obtain ⟨r1, r2, r3, r4, r5, r6, r7, r8⟩ := ih s1.1 true e1
            (covers_to_exc _ i c1) hh hcont1
          refine ⟨r1, r2, r3, r4, ?_, by rw [r6, hd1], by rw [r7, hf1], ?_⟩
          · rcases r5 with h' | h'
            · exact Or.inl h'
            · rw [h']
              exact Or.inl c1
          · exact piecesLe_trans _ _ _ r8 hle1
        · exact ⟨e1, covers_to_exc _ i c1, hh, hcont1, Or.inl c1, hd1, hf1, hle1⟩
    · rw [if_neg hv2]
      by_cases hv1 : v.1 ≠ 0
      · rw [if_pos hv1]
        obtain ⟨e2, c2, hh2⟩ := tryMove_preserves b i (v.1, 0) hval hcov hno
        have hcont2 := tryMove_contained b i (v.1, 0) hc
        have hle2 := tryMove_piecesLe b i (v.1, 0) hvx (le_refl 0)
        obtain ⟨hd2, hf2, hl2⟩ := tryMove_dims b i (v.1, 0)
        set s2 := tryMove b i (v.1, 0) with hs2
        split
        · obtain ⟨r1, r2, r3, r4, r5, r6, r7, r8⟩ := ih s2.1 true e2
            (covers_to_exc _ i c2) hh2 hcont2
          refine ⟨r1, r2, r3, r4, ?_, by rw [r6, hd2], by rw [r7, hf2], ?_⟩
          · rcases r5 with h' | h'
            · exact Or.inl h'
            · rw [h']
              exact Or.inl c2
          · exact piecesLe_trans _ _ _ r8 hle2
        · exact ⟨e2, covers_to_exc _ i c2, hh2, hcont2, Or.inl c2, hd2, hf2, hle2⟩
      · rw [if_neg hv1]
        exact ⟨hval, hcov, hno, hc, Or.inr rfl, rfl, rfl, piecesLe_refl _⟩

end Bin

/-- The state relation established by compression: same dimension, same free
rectangles, and every piece keeps its area while its bounding-box min corner
does not move up or right. -/
def compressRel (x b : Bin) : Prop :=
  x.dimension = b.dimension ∧ x.freeRectangles = b.freeRectangles ∧
  piecesLe x.placedPieces b.placedPieces

theorem compressRel_refl (b : Bin) : compressRel b b := ⟨rfl, rfl, piecesLe_refl _⟩

theorem compressRel_trans (x y b : Bin) (h1 : compressRel x y) (h2 : compressRel y b) :
    compressRel x b :=
  ⟨h1.1.trans h2.1, h1.2.1.trans h2.2.1, piecesLe_trans _ _ _ h1.2.2 h2.2.2⟩

namespace Bin

theorem compressPieceLoop_covers (fuel : ℕ) (b : Bin) (i : ℕ) (v : Pt) (m : Bool)
    (hvx : v.1 ≤ 0) (hvy : v.2 ≤ 0) (hval : EntriesValid b) (hcov : IndexCoversExc b i)
    (hno : NoOverlap b) (hc : ContainedEps b) (hfuel : 0 < fuel)
    (hv : ¬(v.1 = 0 ∧ v.2 = 0)) : IndexCovers (compressPieceLoop fuel b i v m).1 := by
  rcases fuel with _ | fuel
  · omega
  · rw [compressPieceLoop]
    by_cases hv2 : v.2 ≠ 0
    · rw [if_pos hv2]
      obtain ⟨e1, c1, hh⟩ := tryMove_preserves b i (0, v.2) hval hcov hno
      have hcont1 := tryMove_contained b i (0, v.2) hc
      by_cases hv1 : v.1 ≠ 0
      · rw [if_pos hv1]
        obtain ⟨e2, c2, hh2⟩ := tryMove_preserves (tryMove b i (0, v.2)).1 i (v.1, 0) e1
          (covers_to_exc _ i c1) hh
        have hcont2 := tryMove_contained (tryMove b i (0, v.2)).1 i (v.1, 0) hcont1
        split
        · rcases (compressPieceLoop_preserves fuel _ i v true hvx hvy e2
            (covers_to_exc _ i c2) hh2 hcont2).2.2.2.2.1 with h' | h'
          · exact h'
          · rw [h']
            exact c2
        · exact c2
      · rw [if_neg hv1]
        split
        · rcases (compressPieceLoop_preserves fuel _ i v true hvx hvy e1
            (covers_to_exc _ i c1) hh hcont1).2.2.2.2.1 with h' | h'
          · exact h'
          · rw [h']
            exact c1
        · exact c1
    · rw [if_neg hv2]
      have hv1 : v.1 ≠ 0 := by
        intro h'
        push_neg at hv2
        exact hv ⟨h', hv2⟩
      rw [if_pos hv1]
      obtain ⟨e2, c2, hh2⟩ := tryMove_preserves b i (v.1, 0) hval hcov hno
      have hcont2 := tryMove_contained b i (v.1, 0) hc
      split
      · rcases (compressPieceLoop_preserves fuel _ i v true hvx hvy e2
          (covers_to_exc _ i c2) hh2 hcont2).2.2.2.2.1 with h' | h'
        · exact h'
        · rw [h']
          exact c2
      · exact c2

/-- Invariant preservation of `Bin::compressPiece` with the downward-left
unit vector: the data-model invariants survive, the compression relation
holds, and the index fully covers the pieces afterwards. -/
theorem compressPiece_main (b : Bin) (i : ℕ) (v : Pt) (hvx : v.1 ≤ 0) (hvy : v.2 ≤ 0)
    (hvne : ¬(v.1 = 0 ∧ v.2 = 0)) (hval : EntriesValid b) (hcov : IndexCoversExc b i)
    (hno : NoOverlap b) (hc : ContainedEps b) :
    EntriesValid (compressPiece b i v).1 ∧ IndexCovers (compressPiece b i v).1 ∧
    NoOverlap (compressPiece b i v).1 ∧ ContainedEps (compressPiece b i v).1 ∧
    compressRel (compressPiece b i v).1 b := by
  unfold compressPiece
  rw [if_neg hvne]
  obtain ⟨r1, r2, r3, r4, r5, r6, r7, r8⟩ := compressPieceLoop_preserves
    (b.compressPieceFuel i) b i v false hvx hvy hval hcov hno hc
  have hfull := compressPieceLoop_covers (b.compressPieceFuel i) b i v false hvx hvy hval
    hcov hno hc (by unfold compressPieceFuel; split <;> omega) hvne
  exact ⟨r1, hfull, r3, r4, r6, r7, r8⟩

/-- Invariant preservation of one pass of `Bin::compress`. -/
theorem compressPassGo_main (is : List ℕ) (st : Bin × Bool) (b0 : Bin)
    (hval : EntriesValid st.1) (hcov : IndexCovers st.1) (hno : NoOverlap st.1)
    (hc : ContainedEps st.1) (hrel : compressRel st.1 b0) :
    EntriesValid (is.foldl (fun acc i =>
      let s := compressPiece acc.1 i (-1, -1)
      (s.1, acc.2 || s.2)) st).1 ∧
    IndexCovers (is.foldl (fun acc i =>
      let s := compressPiece acc.1 i (-1, -1)
      (s.1, acc.2 || s.2)) st).1 ∧
    NoOverlap (is.foldl (fun acc i =>
      let s := compressPiece acc.1 i (-1, -1)
      (s.1, acc.2 || s.2)) st).1 ∧
    ContainedEps (is.foldl (fun acc i =>
      let s := compressPiece acc.1 i (-1, -1)
      (s.1, acc.2 || s.2)) st).1 ∧
    compressRel (is.foldl (fun acc i =>
      let s := compressPiece acc.1 i (-1, -1)
      (s.1, acc.2 || s.2)) st).1 b0 := by
  induction is generalizing st with
  | nil => exact ⟨hval, hcov, hno, hc, hrel⟩
  | cons i is ih =>
    simp only [List.foldl_cons]
    obtain ⟨r1, r2, r3, r4, r5⟩ := compressPiece_main st.1 i (-1, -1) (by norm_num)
      (by norm_num) (by norm_num) hval (covers_to_exc _ i hcov) hno hc
    exact ih _ r1 r2 r3 r4 (compressRel_trans _ _ _ r5 hrel)

theorem compressPass_main (b : Bin) (hval : EntriesValid b) (hcov : IndexCovers b)
    (hno : NoOverlap b) (hc : ContainedEps b) :
    EntriesValid (compressPass b).1 ∧ IndexCovers (compressPass b).1 ∧
    NoOverlap (compressPass b).1 ∧ ContainedEps (compressPass b).1 ∧
    compressRel (compressPass b).1 b :=
  compressPassGo_main (List.range b.placedPieces.length) (b, false) b hval hcov hno hc
    (compressRel_refl b)

theorem compressLoop_main (fuel : ℕ) (b : Bin) (hval : EntriesValid b)
    (hcov : IndexCovers b) (hno : NoOverlap b) (hc : ContainedEps b) :
    EntriesValid (compressLoop fuel b) ∧ IndexCovers (compressLoop fuel b) ∧
    NoOverlap (compressLoop fuel b) ∧ ContainedEps (compressLoop fuel b) ∧
    compressRel (compressLoop fuel b) b := by
  induction fuel generalizing b with
  | zero => exact ⟨hval, hcov, hno, hc, compressRel_refl b⟩
  | succ fuel ih =>
    rw [compressLoop]
    obtain ⟨r1, r2, r3, r4, r5⟩ := compressPass_main b hval hcov hno hc
    split
    · obtain ⟨q1, q2, q3, q4, q5⟩ := ih (compressPass b).1 r1 r2 r3 r4
      exact ⟨q1, q2, q3, q4, compressRel_trans _ _ _ q5 r5⟩
    · exact ⟨r1, r2, r3, r4, r5⟩

/-- Invariant preservation of `Bin::compress`: the data-model invariants,
non-overlap, and ε-containment survive; the dimension and free rectangles
are untouched; every piece keeps its area and its bounding box's min corner
never moves up or right. -/
theorem compress_main (b : Bin) (hval : EntriesValid b) (hcov : IndexCovers b)
    (hno : NoOverlap b) (hc : ContainedEps b) :
    EntriesValid b.compress ∧ IndexCovers b.compress ∧ NoOverlap b.compress ∧
    ContainedEps b.compress ∧ compressRel b.compress b := by
  unfold compress
  split
  · exact ⟨hval, hcov, hno, hc, compressRel_refl b⟩
  · exact compressLoop_main b.compressFuel b hval hcov hno hc

end Bin

/-- Wellformedness of a box: min corner componentwise at most the max
corner. -/
def wfRect (r : Rectangle2D) : Prop := r.minC.1 ≤ r.maxC.1 ∧ r.minC.2 ≤ r.maxC.2

theorem wfRect_envelope (mp : MultiPolygon) : wfRect (envelope mp) := by
  unfold envelope
  rcases hl : allPoints mp with _ | ⟨p, ps⟩
  · exact ⟨le_refl 0, le_refl 0⟩
  · exact ⟨le_trans (foldl_min_le_init Prod.fst ps p.1) (init_le_foldl_max Prod.fst ps p.1),
      le_trans (foldl_min_le_init Prod.snd ps p.2) (init_le_foldl_max Prod.snd ps p.2)⟩

theorem mem_insertBy {α : Type} (c : α → α → Bool) (y x : α) (l : List α)
    (h : x ∈ insertBy c y l) : x = y ∨ x ∈ l := by
  induction l with
  | nil =>
    rcases List.mem_singleton.1 h with h'
    exact Or.inl h'
  | cons z zs ih =>
    unfold insertBy at h
    split at h
    · rcases List.mem_cons.1 h with h' | h'
      · exact Or.inl h'
      · exact Or.inr h'
    · rcases List.mem_cons.1 h with h' | h'
      · exact Or.inr (h' ▸ List.mem_cons_self _ _)
      · rcases ih h' with h'' | h''
        · exact Or.inl h''
        · exact Or.inr (List.mem_cons_of_mem _ h'')

theorem mem_sortBy {α : Type} (c : α → α → Bool) (x : α) (l : List α)
    (h : x ∈ sortBy c l) : x ∈ l := by
  induction l with
  | nil => cases h
  | cons z zs ih =>
    unfold sortBy at h
    rcases mem_insertBy c z x (sortBy c zs) h with h' | h'
    · exact h' ▸ List.mem_cons_self _ _
    · exact List.mem_cons_of_mem _ (ih h')

theorem mem_eliminateNonMaximalL (rects : List Rectangle2D) (r : Rectangle2D)
    (h : r ∈ Bin.eliminateNonMaximalL rects) : r ∈ rects := by
  unfold Bin.eliminateNonMaximalL at h
  simp only at h
  split at h
  · exact mem_sortBy _ r rects h
  · obtain ⟨ke, hke, hkr⟩ := List.mem_map.1 h
    have hmem : ke ∈ (sortBy rectAreaDescending rects).enum := (List.mem_filter.1 hke).1
    have hget := List.mem_enum_iff_getElem?.1 hmem
    have : ke.2 ∈ sortBy rectAreaDescending rects := by
      have hlt : ke.1 < (sortBy rectAreaDescending rects).length := by
        by_contra h'
        rw [List.getElem?_eq_none (by omega)] at hget
        cases hget
      exact List.getElem?_mem hget
    exact hkr ▸ mem_sortBy _ _ rects this

theorem rectSub_refl (r : Rectangle2D) : rectSub r r :=
  ⟨le_refl _, le_refl _, le_refl _, le_refl _⟩

theorem rectSub_trans (a b c : Rectangle2D) (h1 : rectSub a b) (h2 : rectSub b c) :
    rectSub a c := by
  obtain ⟨x1, x2, x3, x4⟩ := h1
  obtain ⟨y1, y2, y3, y4⟩ := h2
  exact ⟨le_trans y1 x1, le_trans x2 y2, le_trans y3 x3, le_trans x4 y4⟩

/-- Every slab emitted by `splitFreeRect` is a sub-rectangle of the free
rectangle being split, and is itself well-formed. -/
theorem splitFreeRect_sub (freeR bb s : Rectangle2D) (hwf : wfRect freeR)
    (hs : s ∈ Bin.splitFreeRect freeR bb) : rectSub s freeR ∧ wfRect s := by
  obtain ⟨w1, w2⟩ := hwf
  unfold Bin.splitFreeRect at hs
  split at hs
  · rcases List.mem_singleton.1 hs with h
    subst h
    exact ⟨rectSub_refl s, w1, w2⟩
  · rename_i hcond
    have hint : RectangleUtils.intersects freeR bb = true := by
      revert hcond
      cases RectangleUtils.intersects freeR bb <;> simp
    simp only [RectangleUtils.intersects, Bool.and_eq_true, decide_eq_true_eq] at hint
    obtain ⟨⟨⟨i1, i2⟩, i3⟩, i4⟩ := hint
    simp only [RectangleUtils.getX, RectangleUtils.getY, RectangleUtils.getMaxX,
      RectangleUtils.getMaxY, RectangleUtils.createIntersection, List.mem_append,
      or_assoc] at hs
    rcases hs with h | h | h | h
    · split at h
      · rcases List.mem_singleton.1 h with h'
        subst h'
        exact ⟨⟨le_refl _, le_refl _, le_min w2 i3, le_refl _⟩, w1, min_le_left _ _⟩
      · cases h
    · split at h
      · rcases List.mem_singleton.1 h with h'
        subst h'
        exact ⟨⟨le_refl _, le_refl _, le_refl _, max_le w2 i4⟩, w1, le_max_left _ _⟩
      · cases h
    · split at h
      · rcases List.mem_singleton.1 h with h'
        subst h'
        exact ⟨⟨le_refl _, max_le w1 i2, le_refl _, le_refl _⟩, le_max_left _ _, w2⟩
      · cases h
    · split at h
      · rcases List.mem_singleton.1 h with h'
        subst h'
        exact ⟨⟨le_min w1 i1, le_refl _, le_refl _, le_refl _⟩, min_le_left _ _, w2⟩
      · cases h

/-- Every rectangle produced by one `computeFreeRectangles` pass is a
well-formed sub-rectangle of some input free rectangle. -/
theorem computeFreeRectanglesL_sub (frs : List Rectangle2D) (bb : Rectangle2D)
    (hwf : ∀ r ∈ frs, wfRect r) (s : Rectangle2D)
    (hs : s ∈ Bin.computeFreeRectanglesL frs bb) :
    wfRect s ∧ ∃ r ∈ frs, rectSub s r := by
  unfold Bin.computeFreeRectanglesL at hs
  obtain ⟨r, hr, hsr⟩ := List.mem_flatMap.1 hs
  obtain ⟨hsub, hswf⟩ := splitFreeRect_sub r bb s (hwf r hr) hsr
  exact ⟨hswf, r, hr, hsub⟩

/-- The free-rectangle recomputation of a placement step keeps every free
rectangle ε-contained in the dimension and well-formed. -/
theorem freeRects_step_good (frs : List Rectangle2D) (bb dim : Rectangle2D)
    (hgood : ∀ r ∈ frs, containsEps dim r ∧ wfRect r) (s : Rectangle2D)
    (hs : s ∈ Bin.eliminateNonMaximalL (Bin.computeFreeRectanglesL frs bb)) :
    containsEps dim s ∧ wfRect s := by
  have hs' := mem_eliminateNonMaximalL _ s hs
  obtain ⟨hswf, r, hr, hsub⟩ := computeFreeRectanglesL_sub frs bb
    (fun r hr => (hgood r hr).2) s hs'
  exact ⟨containsEps_of_rectSub dim r s hsub (hgood r hr).1, hswf⟩

/-- Preservation of a predicate along a left fold. -/
theorem foldl_preserves {α β : Type} (P : β → Prop) (f : β → α → β) (l : List α) (b : β)
    (hstep : ∀ c a, a ∈ l → P c → P (f c a)) (hb : P b) : P (l.foldl f b) := by
  induction l generalizing b with
  | nil => exact hb
  | cons x xs ih =>
    exact ih (f b x) (fun c a ha hP => hstep c a (List.mem_cons_of_mem _ ha) hP)
      (hstep b x (List.mem_cons_self _ _) hb)

namespace Bin

/-- Postcondition of `Bin::findWhereToPlace`: the returned (free-rectangle
index, angle) pair addresses an existing free rectangle that the piece,
rotated by that angle, fits into. -/
def fwtpGood (b : Bin) (piece : MArea) (trig : ℤ → ℚ × ℚ) (pl : ℕ × ℤ) : Prop :=
  ∃ fr, b.freeRectangles[pl.1]? = some fr ∧
    RectangleUtils.fits
      (if 0 < pl.2 then piece.rotate (pl.2 : ℚ) (trig pl.2) else piece).getBoundingBox2D
      fr = true

theorem fwtpStep_good (b : Bin) (piece : MArea) (trig : ℤ → ℚ × ℚ)
    (acc : Option (ℕ × ℤ) × Option ℚ) (i : ℕ)
    (hacc : ∀ pl, acc.1 = some pl → fwtpGood b piece trig pl) :
    ∀ pl, (fwtpStep b piece trig acc i).1 = some pl → fwtpGood b piece trig pl := by
  unfold fwtpStep
  refine foldl_preserves
    (fun a : Option (ℕ × ℤ) × Option ℚ => ∀ pl, a.1 = some pl → fwtpGood b piece trig pl)
    _ _ acc ?_ hacc
  intro a angle _ hP pl hpl
  rcases hfr : b.freeRectangles[i]? with _ | freeRect
  · rw [hfr] at hpl
    exact hP pl hpl
  · rw [hfr] at hpl
    simp only at hpl
    generalize hrp : (if 0 < angle then piece.rotate ((angle : ℚ)) (trig angle) else piece)
      = rp at hpl
    split at hpl
    · rename_i hfits
      rcases ha2 : a.2 with _ | minWastage
      · rw [ha2] at hpl
        simp only [Option.some.injEq] at hpl
        subst hpl
        exact ⟨freeRect, hfr, by rw [hrp]; exact hfits⟩
      · rw [ha2] at hpl
        simp only at hpl
        split at hpl
        · simp only [Option.some.injEq] at hpl
          subst hpl
          exact ⟨freeRect, hfr, by rw [hrp]; exact hfits⟩
        · exact hP pl hpl
    · exact hP pl hpl

theorem findWhereToPlace_good (b : Bin) (piece : MArea) (trig : ℤ → ℚ × ℚ) (pl : ℕ × ℤ)
    (h : b.findWhereToPlace piece trig = some pl) : fwtpGood b piece trig pl := by
  unfold findWhereToPlace at h
  have hall := foldl_preserves
    (fun a : Option (ℕ × ℤ) × Option ℚ => ∀ pl, a.1 = some pl → fwtpGood b piece trig pl)
    (b.fwtpStep piece trig) (List.range b.freeRectangles.length).reverse (none, none)
    (fun c j _ hP => fwtpStep_good b piece trig c j hP)
    (fun _ hpl => by cases hpl)
  exact hall pl h

end Bin

theorem getElem?_concat_cases {α : Type} (l : List α) (p x : α) (k : ℕ)
    (h : (l ++ [p])[k]? = some x) :
    (k < l.length ∧ l[k]? = some x) ∨ (k = l.length ∧ x = p) := by
  rcases Nat.lt_trichotomy k l.length with hk | hk | hk
  · rw [List.getElem?_append_left hk] at h
    exact Or.inl ⟨hk, h⟩
  · subst hk
    rw [List.getElem?_concat_length] at h
    simp only [Option.some.injEq] at h
    exact Or.inr ⟨rfl, h.symm⟩
  · rw [List.getElem?_eq_none (by simp only [List.length_append, List.length_singleton]; omega)]
      at h
    cases h

theorem firstSome_some {α β : Type} (f : α → Option β) (l : List α) (r : β)
    (h : firstSome f l = some r) : ∃ a ∈ l, f a = some r := by
  induction l with
  | nil => cases h
  | cons x xs ih =>
    unfold firstSome at h
    rcases hfx : f x with _ | y
    · rw [hfx] at h
      obtain ⟨a, ha, hfa⟩ := ih h
      exact ⟨a, List.mem_cons_of_mem _ ha, hfa⟩
    · rw [hfx] at h
      exact ⟨x, List.mem_cons_self _ _, hfx.trans h⟩

namespace Bin

/-- Invariant of the free-rectangle set: every free rectangle is ε-contained
in the dimension and well-formed. -/
def FreeGood (b : Bin) : Prop :=
  ∀ r ∈ b.freeRectangles, containsEps b.dimension r ∧ wfRect r

/-- The bundle of state invariants every placement stage maintains. -/
def GoodBin (b : Bin) : Prop :=
  EntriesValid b ∧ IndexCovers b ∧ NoOverlap b ∧ ContainedEps b ∧ FreeGood b

/-- The shared commit shape of every placement: append the piece, store its
bounding box in the index under the fresh index, and install the given free
rectangles. -/
def pushState (b : Bin) (p : MArea) (frs : List Rectangle2D) : Bin :=
  { b with placedPieces := b.placedPieces ++ [p], freeRectangles := frs,
           rtree := (p.getBoundingBox2D, b.placedPieces.length) :: b.rtree }

theorem pushState_preserves (b : Bin) (p : MArea) (frs : List Rectangle2D)
    (hval : EntriesValid b) (hcov : IndexCovers b) (hno : NoOverlap b)
    (hdisj : ∀ (j : ℕ) (q : MArea), b.placedPieces[j]? = some q → p.intersection q = false) :
    EntriesValid (pushState b p frs) ∧ IndexCovers (pushState b p frs) ∧
    NoOverlap (pushState b p frs) := by
  refine ⟨?_, ?_, ?_⟩
  · intro e he
    rcases List.mem_cons.1 he with h | h
    · subst h
      simp [pushState]
    · have := hval e h
      simp only [pushState, List.length_append, List.length_singleton]
      omega
  · intro i q hq
    rcases getElem?_concat_cases b.placedPieces p q i hq with ⟨_, hq'⟩ | ⟨hi, hq'⟩
    · exact List.mem_cons_of_mem _ (hcov i q hq')
    · subst hi
      subst hq'
      exact List.mem_cons_self _ _
  · intro i j qi qj hqi hqj hij
    rcases getElem?_concat_cases b.placedPieces p qi i hqi with ⟨hi, hqi'⟩ | ⟨hi, hqi'⟩ <;>
      rcases getElem?_concat_cases b.placedPieces p qj j hqj with ⟨hj, hqj'⟩ | ⟨hj, hqj'⟩
    · exact hno i j qi qj hqi' hqj' hij
    · subst hqj'
      rw [intersection_comm]
      exact hdisj i qi hqi'
    · subst hqi'
      exact hdisj j qj hqj'
    · exact absurd (hi.trans hj.symm) hij

theorem pushState_contained (b : Bin) (p : MArea) (frs : List Rectangle2D)
    (hc : ContainedEps b)
    (hbb : p.isEmpty = false → containsEps b.dimension p.getBoundingBox2D) :
    ContainedEps (pushState b p frs) := by
  intro q hq hqe
  rcases List.mem_append.1 hq with h | h
  · exact hc q h hqe
  · rcases List.mem_singleton.1 h with h'
    subst h'
    exact hbb hqe

/-- The oracle silence needed by `pushState_preserves`, extracted from a
silent `isCollision` call with no ignored index under index coverage. -/
theorem isCollision_none_disjoint (b : Bin) (p : MArea) (hcov : IndexCovers b)
    (h : b.isCollision p none = false) :
    ∀ (j : ℕ) (q : MArea), b.placedPieces[j]? = some q → p.intersection q = false := by
  intro j q hq
  exact isCollision_false_sound b p none (fun i r hr _ => hcov i r hr) h j q hq
    (by intro h'; cases h')

/-- The bounding box of a rotated piece placed at a free rectangle's min
corner is a sub-rectangle of that free rectangle whenever the fit test
passed. -/
theorem placed_bbox_sub (rp : MArea) (freeRect : Rectangle2D)
    (hfits : RectangleUtils.fits rp.getBoundingBox2D freeRect = true)
    (hne : (rp.placeInPosition (RectangleUtils.getX freeRect)
      (RectangleUtils.getY freeRect)).isEmpty = false) :
    rectSub (rp.placeInPosition (RectangleUtils.getX freeRect)
      (RectangleUtils.getY freeRect)).getBoundingBox2D freeRect := by
  have hner : rp.isEmpty = false := by
    rw [← isEmpty_placeInPosition rp (RectangleUtils.getX freeRect)
      (RectangleUtils.getY freeRect)]
    exact hne
  rw [bbox_placeInPosition rp _ _ hner]
  unfold RectangleUtils.fits at hfits
  rw [Bool.and_eq_true, decide_eq_true_eq, decide_eq_true_eq] at hfits
  obtain ⟨hh, hw⟩ := hfits
  simp only [RectangleUtils.getWidth, RectangleUtils.getHeight] at hh hw
  unfold rectSub RectangleUtils.getX RectangleUtils.getY
  refine ⟨le_refl _, ?_, le_refl _, ?_⟩
  · simp only [RectangleUtils.getWidth]
    linarith
  · simp only [RectangleUtils.getHeight]
    linarith

/-- Invariant preservation of `Bin::boundingBoxPacking`: the data-model
invariants, non-overlap, piece containment and free-rectangle containment
all survive stage-1 packing, and the dimension is untouched. -/
theorem boundingBoxPacking_main (b : Bin) (ps : List MArea) (trig : ℤ → ℚ × ℚ)
    (hg : GoodBin b) :
    GoodBin (boundingBoxPacking b ps trig).1 ∧
    (boundingBoxPacking b ps trig).1.dimension = b.dimension := by
  unfold boundingBoxPacking
  refine foldl_preserves
    (fun acc : Bin × List MArea => GoodBin acc.1 ∧ acc.1.dimension = b.dimension)
    _ _ (b, []) ?_ ⟨hg, rfl⟩
  intro acc piece _ hP
  obtain ⟨⟨hval, hcov, hno, hc, hfg⟩, hPd⟩ := hP
  dsimp only
  rcases hplc : acc.1.findWhereToPlace piece trig with _ | placement
  · exact ⟨⟨hval, hcov, hno, hc, hfg⟩, hPd⟩
  · dsimp only
    obtain ⟨freeRect, hfr, hfits⟩ := findWhereToPlace_good acc.1 piece trig placement hplc
    rw [hfr]
    dsimp only
    generalize hrp : (if 0 < placement.2 then piece.rotate ((placement.2 : ℚ)) (trig placement.2)
      else piece) = rp at hfits ⊢
    split
    · rename_i hcolb
      rw [Bool.not_eq_true'] at hcolb
      have hdisj := isCollision_none_disjoint acc.1 _ hcov hcolb
      obtain ⟨e1, c1, n1⟩ := pushState_preserves acc.1
        (rp.placeInPosition (RectangleUtils.getX freeRect) (RectangleUtils.getY freeRect))
        (eliminateNonMaximalL (computeFreeRectanglesL acc.1.freeRectangles
          (rp.placeInPosition (RectangleUtils.getX freeRect)
            (RectangleUtils.getY freeRect)).getBoundingBox2D))
        hval hcov hno hdisj
      have ct1 := pushState_contained acc.1
        (rp.placeInPosition (RectangleUtils.getX freeRect) (RectangleUtils.getY freeRect))
        (eliminateNonMaximalL (computeFreeRectanglesL acc.1.freeRectangles
          (rp.placeInPosition (RectangleUtils.getX freeRect)
            (RectangleUtils.getY freeRect)).getBoundingBox2D))
        hc (fun hne => containsEps_of_rectSub _ freeRect _
          (placed_bbox_sub rp freeRect hfits hne)
          (hfg freeRect (List.getElem?_mem hfr)).1)
      refine ⟨⟨e1, c1, n1, ct1, ?_⟩, hPd⟩
      intro r hr
      exact freeRects_step_good acc.1.freeRectangles _ acc.1.dimension hfg r hr
    · exact ⟨⟨hval, hcov, hno, hc, hfg⟩, hPd⟩

end Bin

namespace Bin

/-- Invariant preservation of `Bin::placeInFreeZones`: the data-model
invariants, non-overlap, piece containment and free-rectangle containment
all survive, and the dimension is untouched. -/
theorem placeInFreeZones_main (b : Bin) (ps : List MArea) (trig : ℤ → ℚ × ℚ)
    (hg : GoodBin b) :
    GoodBin (placeInFreeZones b ps trig).1 ∧
    (placeInFreeZones b ps trig).1.dimension = b.dimension := by
  have hfg0 := hg.2.2.2.2
  unfold placeInFreeZones
  refine foldl_preserves
    (fun acc : Bin × List MArea => GoodBin acc.1 ∧ acc.1.dimension = b.dimension)
    _ _ (b, []) ?_ ⟨hg, rfl⟩
  intro acc piece _ hP
  obtain ⟨⟨hval, hcov, hno, hc, hfg⟩, hPd⟩ := hP
  split
  · rename_i placed hfs
    obtain ⟨freeRect, hfrm, hinner⟩ := firstSome_some _ _ _ hfs
    obtain ⟨angle, _, hang⟩ := firstSome_some _ _ _ hinner
    dsimp only at hang
    generalize hcand : (if 0 < angle then piece.rotate ((angle : ℚ)) (trig angle) else piece)
      = cand at hang
    split at hang
    · rename_i hfits
      split at hang
      · rename_i hcolb
        rw [Bool.not_eq_true'] at hcolb
        simp only [Option.some.injEq] at hang
        rw [← hang] at *
        obtain ⟨e1, c1, n1⟩ := pushState_preserves acc.1
          (cand.placeInPosition (RectangleUtils.getX freeRect) (RectangleUtils.getY freeRect))
          (eliminateNonMaximalL (computeFreeRectanglesL acc.1.freeRectangles
            (cand.placeInPosition (RectangleUtils.getX freeRect)
              (RectangleUtils.getY freeRect)).getBoundingBox2D))
          hval hcov hno (isCollision_none_disjoint acc.1 _ hcov hcolb)
        have ct1 := pushState_contained acc.1
          (cand.placeInPosition (RectangleUtils.getX freeRect) (RectangleUtils.getY freeRect))
          (eliminateNonMaximalL (computeFreeRectanglesL acc.1.freeRectangles
            (cand.placeInPosition (RectangleUtils.getX freeRect)
              (RectangleUtils.getY freeRect)).getBoundingBox2D))
          hc (fun hne => containsEps_of_rectSub _ freeRect _
            (placed_bbox_sub cand freeRect hfits hne)
            (by rw [hPd]
                exact (hfg0 freeRect (mem_sortBy _ _ _ hfrm)).1))
        refine ⟨⟨e1, c1, n1, ct1, ?_⟩, hPd⟩
        intro r hr
        exact freeRects_step_good acc.1.freeRectangles _ acc.1.dimension hfg r hr
      · cases hang
    · cases hang
  · exact ⟨⟨hval, hcov, hno, hc, hfg⟩, hPd⟩

end Bin

namespace Bin

/-- Invariant preservation through the compression loop without assuming
containment: exactly the hypotheses available inside `Bin::moveAndReplace`
and `Bin::dive`, where a swept or dropped piece may lie anywhere. -/
theorem compressPieceLoop_noc (fuel : ℕ) (b : Bin) (i : ℕ) (v : Pt) (m : Bool)
    (hval : EntriesValid b) (hcov : IndexCoversExc b i) (hno : NoOverlap b) :
    EntriesValid (compressPieceLoop fuel b i v m).1 ∧
    IndexCoversExc (compressPieceLoop fuel b i v m).1 i ∧
    NoOverlap (compressPieceLoop fuel b i v m).1 ∧
    (IndexCovers (compressPieceLoop fuel b i v m).1 ∨ (compressPieceLoop fuel b i v m).1 = b) ∧
    (compressPieceLoop fuel b i v m).1.dimension = b.dimension ∧
    (compressPieceLoop fuel b i v m).1.placedPieces.length = b.placedPieces.length := by
  induction fuel generalizing b m with
  | zero => exact ⟨hval, hcov, hno, Or.inr rfl, rfl, rfl⟩
  | succ fuel ih =>
    rw [compressPieceLoop]
    by_cases hv2 : v.2 ≠ 0
    · rw [if_pos hv2]
      obtain ⟨e1, c1, hh⟩ := tryMove_preserves b i (0, v.2) hval hcov hno
      obtain ⟨hd1, hf1, hl1⟩ := tryMove_dims b i (0, v.2)
      set s1 := tryMove b i (0, v.2) with hs1
      by_cases hv1 : v.1 ≠ 0
      · rw [if_pos hv1]
        obtain ⟨e2, c2, hh2⟩ := tryMove_preserves s1.1 i (v.1, 0) e1 (covers_to_exc _ i c1) hh
        obtain ⟨hd2, hf2, hl2⟩ := tryMove_dims s1.1 i (v.1, 0)
        set s2 := tryMove s1.1 i (v.1, 0) with hs2
        split
        · obtain ⟨r1, r2, r3, r4, r5, r6⟩ := ih s2.1 true e2 (covers_to_exc _ i c2) hh2
          refine ⟨r1, r2, r3, ?_, by rw [r5, hd2, hd1], by rw [r6, hl2, hl1]⟩
          rcases r4 with h' | h'
          · exact Or.inl h'
          · rw [h']
            exact Or.inl c2
        · exact ⟨e2, covers_to_exc _ i c2, hh2, Or.inl c2, by rw [hd2, hd1], by rw [hl2, hl1]⟩
      · rw [if_neg hv1]
        split
        · obtain ⟨r1, r2, r3, r4, r5, r6⟩ := ih s1.1 true e1 (covers_to_exc _ i c1) hh
          refine ⟨r1, r2, r3, ?_, by rw [r5, hd1], by rw [r6, hl1]⟩
          rcases r4 with h' | h'
          · exact Or.inl h'
          · rw [h']
            exact Or.inl c1
        · exact ⟨e1, covers_to_exc _ i c1, hh, Or.inl c1, hd1, hl1⟩
    · rw [if_neg hv2]
      by_cases hv1 : v.1 ≠ 0
      · rw [if_pos hv1]
        obtain ⟨e2, c2, hh2⟩ := tryMove_preserves b i (v.1, 0) hval hcov hno
        obtain ⟨hd2, hf2, hl2⟩ := tryMove_dims b i (v.1, 0)
        set s2 := tryMove b i (v.1, 0) with hs2
        split
        · obtain ⟨r1, r2, r3, r4, r5, r6⟩ := ih s2.1 true e2 (covers_to_exc _ i c2) hh2
          refine ⟨r1, r2, r3, ?_, by rw [r5, hd2], by rw [r6, hl2]⟩
          rcases r4 with h' | h'
          · exact Or.inl h'
          · rw [h']
            exact Or.inl c2
        · exact ⟨e2, covers_to_exc _ i c2, hh2, Or.inl c2, hd2, hl2⟩
      · rw [if_neg hv1]
        exact ⟨hval, hcov, hno, Or.inr rfl, rfl, rfl⟩

theorem compressPieceLoop_covers_noc (fuel : ℕ) (b : Bin) (i : ℕ) (v : Pt) (m : Bool)
    (hval : EntriesValid b) (hcov : IndexCoversExc b i) (hno : NoOverlap b)
    (hfuel : 0 < fuel) (hv : ¬(v.1 = 0 ∧ v.2 = 0)) :
    IndexCovers (compressPieceLoop fuel b i v m).1 := by
  rcases fuel with _ | fuel
  · omega
  · rw [compressPieceLoop]
    by_cases hv2 : v.2 ≠ 0
    · rw [if_pos hv2]
      obtain ⟨e1, c1, hh⟩ := tryMove_preserves b i (0, v.2) hval hcov hno
      by_cases hv1 : v.1 ≠ 0
      · rw [if_pos hv1]
        obtain ⟨e2, c2, hh2⟩ := tryMove_preserves (tryMove b i (0, v.2)).1 i (v.1, 0) e1
          (covers_to_exc _ i c1) hh
        split
        · rcases (compressPieceLoop_noc fuel _ i v true e2
            (covers_to_exc _ i c2) hh2).2.2.2.1 with h' | h'
          · exact h'
          · rw [h']
            exact c2
        · exact c2
      · rw [if_neg hv1]
        split
        · rcases (compressPieceLoop_noc fuel _ i v true e1
            (covers_to_exc _ i c1) hh).2.2.2.1 with h' | h'
          · exact h'
          · rw [h']
            exact c1
        · exact c1
    · rw [if_neg hv2]
      have hv1 : v.1 ≠ 0 := by
        intro h'
        push_neg at hv2
        exact hv ⟨h', hv2⟩
      rw [if_pos hv1]
      obtain ⟨e2, c2, hh2⟩ := tryMove_preserves b i (v.1, 0) hval hcov hno
      split
      · rcases (compressPieceLoop_noc fuel _ i v true e2
          (covers_to_exc _ i c2) hh2).2.2.2.1 with h' | h'
        · exact h'
        · rw [h']
          exact c2
      · exact c2

/-- Invariant preservation of `Bin::compressPiece` without assuming
containment, restoring full index coverage. -/
theorem compressPiece_noc (b : Bin) (i : ℕ) (v : Pt)
    (hvne : ¬(v.1 = 0 ∧ v.2 = 0)) (hval : EntriesValid b) (hcov : IndexCoversExc b i)
    (hno : NoOverlap b) :
    EntriesValid (compressPiece b i v).1 ∧ IndexCovers (compressPiece b i v).1 ∧
    NoOverlap (compressPiece b i v).1 ∧ (compressPiece b i v).1.dimension = b.dimension ∧
    (compressPiece b i v).1.placedPieces.length = b.placedPieces.length := by
  unfold compressPiece
  rw [if_neg hvne]
  obtain ⟨r1, r2, r3, r4, r5, r6⟩ := compressPieceLoop_noc (b.compressPieceFuel i) b i v
    false hval hcov hno
  have hfull := compressPieceLoop_covers_noc (b.compressPieceFuel i) b i v false hval hcov
    hno (by unfold compressPieceFuel; split <;> omega) hvne
  exact ⟨r1, hfull, r3, r5, r6⟩

theorem sweepXLoop_sound {fuel : ℕ} {b : Bin} {container inside : MArea} {ign : ℕ}
    {x dx w y endX : ℚ} {r : MArea}
    (h : sweepXLoop fuel b container inside ign x dx w y endX = some r) :
    b.isCollision r (some ign) = false := by
  induction fuel generalizing x with
  | zero => cases h
  | succ fuel ih =>
    rw [sweepXLoop] at h
    split at h
    · dsimp only at h
      split at h
      · rename_i hcond
        simp only [Option.some.injEq] at h
        subst h
        rw [Bool.and_eq_true, Bool.and_eq_true] at hcond
        have hc := hcond.2
        rwa [Bool.not_eq_true'] at hc
      · exact ih h
    · cases h

theorem sweepYGo_sound {fuel : ℕ} {b : Bin} {container inside : MArea} {ign : ℕ}
    {y dy hh endY startX dx w endX : ℚ} {r : MArea}
    (h : sweepYGo fuel b container inside ign y dy hh endY startX dx w endX = some r) :
    b.isCollision r (some ign) = false := by
  induction fuel generalizing y with
  | zero => cases h
  | succ fuel ih =>
    rw [sweepYGo] at h
    split at h
    · split at h
      · rename_i r' hx
        simp only [Option.some.injEq] at h
        subst h
        exact sweepXLoop_sound hx
      · exact ih h
    · cases h

/-- Soundness of `Bin::sweep`: a returned position passed the collision
oracle (with the swept piece's own index ignored). -/
theorem sweep_sound {b : Bin} {container inside : MArea} {ign : ℕ} {r : MArea}
    (h : sweep b container inside ign = some r) :
    b.isCollision r (some ign) = false := by
  unfold sweep at h
  split at h
  · rename_i hcond
    simp only [Option.some.injEq] at h
    subst h
    rw [Bool.and_eq_true] at hcond
    have hc := hcond.2
    rwa [Bool.not_eq_true'] at hc
  · exact sweepYGo_sound h

/-- Invariant preservation of one successful `moveAndReplace` piece
re-homing. -/
theorem marTryPiece_noc {b : Bin} {i : ℕ} {trig : ℤ → ℚ × ℚ} {b' : Bin}
    (h : marTryPiece b i trig = some b')
    (hval : EntriesValid b) (hcov : IndexCovers b) (hno : NoOverlap b) :
    EntriesValid b' ∧ IndexCovers b' ∧ NoOverlap b' ∧ b'.dimension = b.dimension := by
  unfold marTryPiece at h
  rcases hcur : b.placedPieces[i]? with _ | currentArea
  · rw [hcur] at h
    cases h
  · rw [hcur] at h
    obtain ⟨j, _, hj⟩ := firstSome_some _ _ _ h
    rcases hcont : b.placedPieces[j]? with _ | container
    · rw [hcont] at hj
      cases hj
    · rw [hcont] at hj
      dsimp only at hj
      split at hj
      · obtain ⟨angle, _, hang⟩ := firstSome_some _ _ _ hj
        generalize hcand : ((if 0 < angle then currentArea.rotate ((angle : ℚ)) (trig angle)
          else currentArea).placeInPosition
            (RectangleUtils.getX container.getBoundingBox2D)
            (RectangleUtils.getY container.getBoundingBox2D)) = cand at hang
        rcases hsw : b.sweep container cand i with _ | swept
        · rw [hsw] at hang
          cases hang
        · rw [hsw] at hang
          dsimp only at hang
          simp only [Option.some.injEq] at hang
          have hilen : i < b.placedPieces.length := by
            by_contra h'
            rw [List.getElem?_eq_none (by omega)] at hcur
            cases hcur
          have hdisj := isCollision_false_sound b swept (some i)
            (fun k p hp hkp => hcov k p hp) (sweep_sound hsw)
          have e1 : EntriesValid { b with
              freeRectangles := b.freeRectangles ++ [currentArea.getBoundingBox2D],
              placedPieces := b.placedPieces.set i swept } := by
            intro e he
            rw [List.length_set]
            exact hval e he
          have c1 : IndexCoversExc { b with
              freeRectangles := b.freeRectangles ++ [currentArea.getBoundingBox2D],
              placedPieces := b.placedPieces.set i swept } i := by
            intro k p hp hki
            rw [List.getElem?_set_ne (Ne.symm hki)] at hp
            exact hcov k p hp
          have n1 : NoOverlap { b with
              freeRectangles := b.freeRectangles ++ [currentArea.getBoundingBox2D],
              placedPieces := b.placedPieces.set i swept } := by
            intro a c pa pc hpa hpc hac
            rcases eq_or_ne a i with ha | ha
            · subst ha
              rw [List.getElem?_set_eq_of_lt _ hilen, Option.some.injEq] at hpa
              subst hpa
              rw [List.getElem?_set_ne hac] at hpc
              exact hdisj c pc hpc (by simpa using hac)
            · rw [List.getElem?_set_ne (Ne.symm ha)] at hpa
              rcases eq_or_ne c i with hcin | hcin
              · subst hcin
                rw [List.getElem?_set_eq_of_lt _ hilen, Option.some.injEq] at hpc
                subst hpc
                rw [intersection_comm]
                exact hdisj a pa hpa (by simpa using Ne.symm ha)
              · rw [List.getElem?_set_ne (Ne.symm hcin)] at hpc
                exact hno a c pa pc hpa hpc hac
          obtain ⟨q1, q2, q3, q4, q5⟩ := compressPiece_noc _ i (-1, -1)
            (by norm_num) e1 c1 n1
          subst hang
          exact ⟨q1, q2, q3, q4⟩
      · cases hj

/-- Invariant preservation of `Bin::moveAndReplace`: entry validity, index
coverage and non-overlap survive; the dimension is untouched. -/
theorem moveAndReplace_noc (b : Bin) (k : ℕ) (trig : ℤ → ℚ × ℚ)
    (hval : EntriesValid b) (hcov : IndexCovers b) (hno : NoOverlap b) :
    EntriesValid (moveAndReplace b k trig).1 ∧ IndexCovers (moveAndReplace b k trig).1 ∧
    NoOverlap (moveAndReplace b k trig).1 ∧
    (moveAndReplace b k trig).1.dimension = b.dimension := by
  unfold moveAndReplace
  refine foldl_preserves
    (fun acc : Bin × Bool => EntriesValid acc.1 ∧ IndexCovers acc.1 ∧ NoOverlap acc.1 ∧
      acc.1.dimension = b.dimension)
    _ _ (b, false) ?_ ⟨hval, hcov, hno, rfl⟩
  intro acc i _ hP
  rcases hm : marTryPiece acc.1 i trig with _ | b'
  · exact hP
  · obtain ⟨e, c, n, d⟩ := marTryPiece_noc hm hP.1 hP.2.1 hP.2.2.1
    exact ⟨e, c, n, d.trans hP.2.2.2⟩

end Bin

theorem set_concat_length {α : Type} (l : List α) (c m : α) :
    (l ++ [c]).set l.length m = l ++ [m] := by
  induction l with
  | nil => rfl
  | cons x xs ih => simp [List.set, ih]

namespace Bin

/-- One `tryMove` on the freshly pushed last piece keeps the state in pushed
shape: only the last piece changes, and the index entry tracks it. -/
theorem tryMove_push (b : Bin) (cur : MArea) (v : Pt) :
    ∃ cur', (tryMove (pushState b cur b.freeRectangles) b.placedPieces.length v).1
      = pushState b cur' b.freeRectangles := by
  have hi : (pushState b cur b.freeRectangles).placedPieces[b.placedPieces.length]?
      = some cur := List.getElem?_concat_length _ _
  rw [tryMove_some _ _ _ cur hi]
  split
  · refine ⟨cur.move v, ?_⟩
    unfold pushState
    simp [set_concat_length, eraseEntry_cons_self]
  · refine ⟨cur, ?_⟩
    unfold pushState
    simp [eraseEntry_cons_self]

/-- The compression loop on the freshly pushed last piece keeps the state in
pushed shape. -/
theorem compressPieceLoop_push (fuel : ℕ) (b : Bin) (v : Pt) :
    ∀ (cur : MArea) (m : Bool), ∃ cur',
      (compressPieceLoop fuel (pushState b cur b.freeRectangles)
        b.placedPieces.length v m).1 = pushState b cur' b.freeRectangles := by
  induction fuel with
  | zero => exact fun cur _ => ⟨cur, rfl⟩
  | succ fuel ih =>
    intro cur m
    rw [compressPieceLoop]
    by_cases hv2 : v.2 ≠ 0
    · rw [if_pos hv2]
      obtain ⟨c1, h1⟩ := tryMove_push b cur (0, v.2)
      rw [h1]
      by_cases hv1 : v.1 ≠ 0
      · rw [if_pos hv1]
        obtain ⟨c2, h2⟩ := tryMove_push b c1 (v.1, 0)
        rw [h2]
        split
        · exact ih c2 true
        · exact ⟨c2, rfl⟩
      · rw [if_neg hv1]
        split
        · exact ih c1 true
        · exact ⟨c1, rfl⟩
    · rw [if_neg hv2]
      by_cases hv1 : v.1 ≠ 0
      · rw [if_pos hv1]
        obtain ⟨c2, h2⟩ := tryMove_push b cur (v.1, 0)
        rw [h2]
        split
        · exact ih c2 true
        · exact ⟨c2, rfl⟩
      · rw [if_neg hv1]
        split
        · exact ih cur true
        · exact ⟨cur, rfl⟩

/-- The inner state algebra of `Bin::diveCommit`: the compressed trial state
stays in pushed shape, the returned piece is the compressed trial piece, and
the returned bin is exactly the input bin. -/
theorem diveCommit_spec (b : Bin) (t : MArea) :
    ∃ cur', (compressPiece (pushState b t b.freeRectangles) b.placedPieces.length (0, -1)).1
        = pushState b cur' b.freeRectangles ∧
      (b.diveCommit t).1 = cur' ∧ (b.diveCommit t).2 = b := by
  have hpp : ∃ cur', (compressPiece (pushState b t b.freeRectangles)
      b.placedPieces.length (0, -1)).1 = pushState b cur' b.freeRectangles := by
    unfold compressPiece
    rw [if_neg (by norm_num)]
    exact compressPieceLoop_push _ b (0, -1) t false
  obtain ⟨cur', hcur'⟩ := hpp
  refine ⟨cur', hcur', ?_, ?_⟩
  · show ((compressPiece (pushState b t b.freeRectangles) b.placedPieces.length
        (0, -1)).1.placedPieces.getLast?).getD t = cur'
    rw [hcur']
    simp [pushState, List.getLast?_concat]
  · show ({ (compressPiece (pushState b t b.freeRectangles) b.placedPieces.length (0, -1)).1 with rtree := eraseEntry (compressPiece (pushState b t b.freeRectangles) b.placedPieces.length (0, -1)).1.rtree ((((compressPiece (pushState b t b.freeRectangles) b.placedPieces.length (0, -1)).1.placedPieces.getLast?).getD t).getBoundingBox2D, b.placedPieces.length), placedPieces := (compressPiece (pushState b t b.freeRectangles) b.placedPieces.length (0, -1)).1.placedPieces.dropLast } : Bin) = b
    rw [hcur']
    simp [pushState, List.getLast?_concat, eraseEntry_cons_self, List.dropLast_concat]

theorem diveCommit_frame (b : Bin) (t : MArea) : (b.diveCommit t).2 = b := by
  obtain ⟨c, _, _, h⟩ := diveCommit_spec b t
  exact h

theorem diveLoop_frame {fuel : ℕ} {b : Bin} {toDive : MArea} {x dx pw ph W H : ℚ}
    {rb : MArea × Bin} (h : diveLoop fuel b toDive x dx pw ph W H = some rb) :
    rb.2 = b := by
  induction fuel generalizing x with
  | zero => cases h
  | succ fuel ih =>
    rw [diveLoop] at h
    split at h
    · dsimp only at h
      split at h
      · simp only [Option.some.injEq] at h
        subst h
        exact diveCommit_frame b _
      · exact ih h
    · cases h

/-- `Bin::dive` restores the bin exactly: pieces, index, free rectangles and
dimension are all as before the call. -/
theorem dive_frame (b : Bin) (toDive : MArea) : (b.dive toDive).2 = b := by
  simp only [dive]
  split
  · rfl
  · split
    · rename_i rb hrb
      exact diveLoop_frame hrb
    · split
      · exact diveCommit_frame b _
      · rfl

/-- A committed scan position of `Bin::dive` lies at some admissible `x`,
passed the oracle, and the result is the corresponding `diveCommit`. -/
theorem diveLoop_commit {fuel : ℕ} {b : Bin} {toDive : MArea} {x dx pw ph W H : ℚ}
    {rb : MArea × Bin} (hdx : 0 ≤ dx)
    (h : diveLoop fuel b toDive x dx pw ph W H = some rb) :
    ∃ x', x ≤ x' ∧ x' + pw ≤ W + epsTol ∧
      b.isCollision (toDive.placeInPosition x' (H - ph)) none = false ∧
      rb = b.diveCommit (toDive.placeInPosition x' (H - ph)) := by
  induction fuel generalizing x with
  | zero => cases h
  | succ fuel ih =>
    rw [diveLoop] at h
    split at h
    · rename_i hguard
      dsimp only at h
      split at h
      · rename_i hcol
        rw [Bool.not_eq_true'] at hcol
        simp only [Option.some.injEq] at h
        exact ⟨x, le_refl x, hguard, hcol, h.symm⟩
      · obtain ⟨x', h1, h2, h3, h4⟩ := ih h
        exact ⟨x', by linarith, h2, h3, h4⟩
    · cases h

/-- The piece returned by `diveCommit` is disjoint from every placed piece
when the trial position passed the oracle. -/
theorem diveCommit_good {b : Bin} {t : MArea}
    (hval : EntriesValid b) (hcov : IndexCovers b) (hno : NoOverlap b)
    (hcol : b.isCollision t none = false) :
    ∀ (j : ℕ) (q : MArea), b.placedPieces[j]? = some q →
      ((b.diveCommit t).1).intersection q = false := by
  obtain ⟨cur', hpush, hpc, _⟩ := diveCommit_spec b t
  obtain ⟨e1, c1, n1⟩ := pushState_preserves b t b.freeRectangles hval hcov hno
    (isCollision_none_disjoint b t hcov hcol)
  obtain ⟨q1, q2, q3, q4, q5⟩ := compressPiece_noc (pushState b t b.freeRectangles)
    b.placedPieces.length (0, -1) (by norm_num) e1 (covers_to_exc _ _ c1) n1
  rw [hpush] at q3
  intro j q hq
  rw [hpc]
  have hlen : j < b.placedPieces.length := by
    by_contra h'
    rw [List.getElem?_eq_none (by omega)] at hq
    cases hq
  have hj' : (pushState b cur' b.freeRectangles).placedPieces[j]? = some q := by
    show (b.placedPieces ++ [cur'])[j]? = some q
    rw [List.getElem?_append_left hlen]
    exact hq
  have hi' : (pushState b cur' b.freeRectangles).placedPieces[b.placedPieces.length]?
      = some cur' := List.getElem?_concat_length _ _
  exact q3 b.placedPieces.length j cur' q hi' hj' (by omega)

/-- The piece returned by `diveCommit` stays ε-contained when the trial
piece was. -/
theorem diveCommit_contained {b : Bin} {t : MArea}
    (hval : EntriesValid b) (hcov : IndexCovers b) (hno : NoOverlap b) (hc : ContainedEps b)
    (hcol : b.isCollision t none = false)
    (hbb : t.isEmpty = false → containsEps b.dimension t.getBoundingBox2D) :
    ((b.diveCommit t).1).isEmpty = false →
      containsEps b.dimension ((b.diveCommit t).1).getBoundingBox2D := by
  obtain ⟨cur', hpush, hpc, _⟩ := diveCommit_spec b t
  obtain ⟨e1, c1, n1⟩ := pushState_preserves b t b.freeRectangles hval hcov hno
    (isCollision_none_disjoint b t hcov hcol)
  have ct1 : ContainedEps (pushState b t b.freeRectangles) :=
    pushState_contained b t _ hc hbb
  obtain ⟨_, _, _, q4, _⟩ := compressPiece_main (pushState b t b.freeRectangles)
    b.placedPieces.length (0, -1) (by norm_num) (by norm_num) (by norm_num)
    e1 (covers_to_exc _ _ c1) n1 ct1
  rw [hpush] at q4
  rw [hpc]
  intro hne
  refine q4 cur' ?_ hne
  show cur' ∈ b.placedPieces ++ [cur']
  exact List.mem_append.2 (Or.inr (List.mem_singleton.2 rfl))

end Bin

/-- A piece placed at `(x, y)` with both offsets admissible for the bin's
width and height is ε-contained in a bin whose min corner is the origin. -/
theorem divePos_contained (dim : Rectangle2D) (p : MArea) (x y : ℚ)
    (h0 : dim.minC = (0, 0)) (hx : 0 ≤ x)
    (hxw : x + RectangleUtils.getWidth p.getBoundingBox2D
      ≤ RectangleUtils.getWidth dim + epsTol)
    (hy : 0 ≤ y)
    (hyh : y + RectangleUtils.getHeight p.getBoundingBox2D
      ≤ RectangleUtils.getHeight dim + epsTol) :
    (p.placeInPosition x y).isEmpty = false →
      containsEps dim (p.placeInPosition x y).getBoundingBox2D := by
  intro hne
  have hner : p.isEmpty = false := by
    rw [← isEmpty_placeInPosition p x y]
    exact hne
  rw [bbox_placeInPosition p x y hner]
  have he : (0 : ℚ) < epsTol := by norm_num [epsTol]
  have h01 : dim.minC.1 = 0 := by rw [h0]
  have h02 : dim.minC.2 = 0 := by rw [h0]
  simp only [RectangleUtils.getWidth, RectangleUtils.getHeight] at hxw hyh
  unfold containsEps
  dsimp only
  simp only [RectangleUtils.getWidth, RectangleUtils.getHeight]
  exact ⟨by linarith, by linarith, by linarith, by linarith⟩

namespace Bin

/-- A piece returned by `Bin::dive` is disjoint from every piece placed in
the bin. -/
theorem dive_sound {b : Bin} {toDive m : MArea}
    (hval : EntriesValid b) (hcov : IndexCovers b) (hno : NoOverlap b)
    (h : (b.dive toDive).1 = some m) :
    ∀ (j : ℕ) (q : MArea), b.placedPieces[j]? = some q → m.intersection q = false := by
  simp only [dive] at h
  split at h
  · cases h
  · split at h
    · rename_i rb hrb
      simp only [Option.some.injEq] at h
      subst h
      have hdx : (0 : ℚ) ≤ if RectangleUtils.getWidth toDive.getBoundingBox2D /
          Constants.DIVE_HORIZONTAL_DISPLACEMENT_FACTOR < epsTol then 1
          else RectangleUtils.getWidth toDive.getBoundingBox2D /
            Constants.DIVE_HORIZONTAL_DISPLACEMENT_FACTOR := by
        split
        · norm_num
        · rename_i hnl
          push_neg at hnl
          have he : (0 : ℚ) < epsTol := by norm_num [epsTol]
          linarith
      obtain ⟨x', _, _, hcol, hcommit⟩ := diveLoop_commit hdx hrb
      rw [hcommit]
      exact diveCommit_good hval hcov hno hcol
    · split at h
      · rename_i hcolb
        rw [Bool.not_eq_true'] at hcolb
        simp only [Option.some.injEq] at h
        subst h
        exact diveCommit_good hval hcov hno hcolb
      · cases h

/-- A piece returned by `Bin::dive` is ε-contained in an origin-cornered
bin. -/
theorem dive_contained {b : Bin} {toDive m : MArea}
    (hval : EntriesValid b) (hcov : IndexCovers b) (hno : NoOverlap b)
    (hc : ContainedEps b) (h0 : b.dimension.minC = (0, 0))
    (h : (b.dive toDive).1 = some m) :
    m.isEmpty = false → containsEps b.dimension m.getBoundingBox2D := by
  have he : (0 : ℚ) < epsTol := by norm_num [epsTol]
  simp only [dive] at h
  split at h
  · cases h
  · rename_i hguard
    push_neg at hguard
    split at h
    · rename_i rb hrb
      simp only [Option.some.injEq] at h
      subst h
      have hdx : (0 : ℚ) ≤ if RectangleUtils.getWidth toDive.getBoundingBox2D /
          Constants.DIVE_HORIZONTAL_DISPLACEMENT_FACTOR < epsTol then 1
          else RectangleUtils.getWidth toDive.getBoundingBox2D /
            Constants.DIVE_HORIZONTAL_DISPLACEMENT_FACTOR := by
        split
        · norm_num
        · rename_i hnl
          push_neg at hnl
          linarith
      obtain ⟨x', hx0, hxw, hcol, hcommit⟩ := diveLoop_commit hdx hrb
      rw [hcommit]
      exact diveCommit_contained hval hcov hno hc hcol
        (divePos_contained b.dimension toDive x' _ h0 hx0 hxw
          (by linarith [hguard.2]) (by linarith [hguard.2]))
    · split at h
      · rename_i hcolb
        rw [Bool.not_eq_true'] at hcolb
        simp only [Option.some.injEq] at h
        subst h
        exact diveCommit_contained hval hcov hno hc hcolb
          (divePos_contained b.dimension toDive _ _ h0 (by linarith [hguard.1])
            (by linarith) (by linarith [hguard.2]) (by linarith))
      · cases h

/-- Invariant preservation of `Bin::dropPieces` for an origin-cornered bin:
the data-model invariants, non-overlap, containment and the free-rectangle
invariant survive, and the dimension is untouched. -/
theorem dropPieces_main (b : Bin) (ps : List MArea) (trig : ℤ → ℚ × ℚ)
    (hg : GoodBin b) (h0 : b.dimension.minC = (0, 0)) :
    GoodBin (dropPieces b ps trig).1 ∧ (dropPieces b ps trig).1.dimension = b.dimension := by
  unfold dropPieces
  refine foldl_preserves
    (fun acc : Bin × List MArea => GoodBin acc.1 ∧ acc.1.dimension = b.dimension)
    _ _ (b, []) ?_ ⟨hg, rfl⟩
  intro acc piece _ hP
  obtain ⟨⟨hval, hcov, hno, hc, hfg⟩, hPd⟩ := hP
  split
  · rename_i rb hfs
    obtain ⟨angle, _, hang⟩ := firstSome_some _ _ _ hfs
    generalize hcand : (if 0 < angle then piece.rotate ((angle : ℚ)) (trig angle) else piece)
      = cand at hang
    have hang' : (match acc.1.dive cand with
      | (some placedPiece, bin') => some (placedPiece, bin')
      | (none, _) => none) = some rb := hang
    rcases hd : acc.1.dive cand with ⟨op, b2⟩
    rw [hd] at hang'
    rcases op with _ | p
    · cases hang'
    · simp only [Option.some.injEq] at hang'
      subst hang'
      have hfr : b2 = acc.1 := by
        have := dive_frame acc.1 cand
        rw [hd] at this
        exact this
      have hp : (acc.1.dive cand).1 = some p := by rw [hd]
      subst hfr
      have h0' : acc.1.dimension.minC = (0, 0) := by
        rw [hPd]
        exact h0
      obtain ⟨e1, c1, n1⟩ := pushState_preserves acc.1 p acc.1.freeRectangles hval hcov hno
        (dive_sound hval hcov hno hp)
      have ct1 := pushState_contained acc.1 p acc.1.freeRectangles hc
        (dive_contained hval hcov hno hc h0' hp)
      exact ⟨⟨e1, c1, n1, ct1, hfg⟩, hPd⟩
  · exact ⟨⟨hval, hcov, hno, hc, hfg⟩, hPd⟩

/-- Invariant preservation of `Bin::compress` in bundled form. -/
theorem compress_goodbin (b : Bin) (hg : GoodBin b) :
    GoodBin b.compress ∧ b.compress.dimension = b.dimension := by
  obtain ⟨hval, hcov, hno, hc, hfg⟩ := hg
  obtain ⟨r1, r2, r3, r4, r5⟩ := compress_main b hval hcov hno hc
  obtain ⟨hdim, hfrs, _⟩ := r5
  refine ⟨⟨r1, r2, r3, r4, ?_⟩, hdim⟩
  intro r hr
  rw [hfrs] at hr
  rw [hdim]
  exact hfg r hr

/-- The repository's own checker `Bin::verifyNoCollisions` passes on every
state satisfying the non-overlap invariant. -/
theorem verifyNoCollisions_of_noOverlap (b : Bin) (hno : NoOverlap b) :
    b.verifyNoCollisions = true := by
  unfold verifyNoCollisions
  rw [List.all_eq_true]
  intro i hi
  rw [List.all_eq_true]
  intro j hj
  split
  · rename_i hij
    rcases hpi : b.placedPieces[i]? with _ | p
    · rfl
    · rcases hpj : b.placedPieces[j]? with _ | q
      · rfl
      · rw [Bool.not_eq_true']
        exact hno i j p q hpi hpj (Nat.ne_of_lt hij)
  · rfl

end Bin

theorem allPoints_rotate (c : Pt) (t : ℚ × ℚ) (mp : MultiPolygon) :
    allPoints (multiRotate c t mp) = (allPoints mp).map (rotPt c t) := by
  unfold allPoints multiRotate polyRings
  induction mp with
  | nil => rfl
  | cons poly polys ih =>
    simp only [List.map_cons, List.flatMap_cons, List.flatten_append, List.map_append, ih]
    congr 1
    simp [List.map_flatten]

theorem isEmpty_rotate (m : MArea) (d : ℚ) (t : ℚ × ℚ) :
    (m.rotate d t).isEmpty = m.isEmpty := by
  unfold MArea.rotate
  split
  · rfl
  · unfold MArea.isEmpty multiIsEmpty
    rw [allPoints_rotate]
    rcases allPoints m.shape with _ | ⟨p, ps⟩ <;> rfl

theorem min_sub_pair (a x y : ℚ) : min (a - x) (a - y) = a - max x y := by
  rcases le_total x y with h | h
  · rw [max_eq_right h, min_eq_right (by linarith)]
  · rw [max_eq_left h, min_eq_left (by linarith)]

theorem max_sub_pair (a x y : ℚ) : max (a - x) (a - y) = a - min x y := by
  rcases le_total x y with h | h
  · rw [min_eq_left h, max_eq_left (by linarith)]
  · rw [min_eq_right h, max_eq_right (by linarith)]

theorem foldl_min_map_rev (f e : Pt → ℚ) (a : ℚ) (ps : List Pt) (x : ℚ)
    (g : Pt → Pt) (hg : ∀ p, f (g p) = a - e p) :
    (ps.map g).foldl (fun m q => min m (f q)) (a - x)
      = a - ps.foldl (fun m q => max m (e q)) x := by
  induction ps generalizing x with
  | nil => simp
  | cons p ps ih =>
    simp only [List.map_cons, List.foldl_cons, hg]
    rw [min_sub_pair, ih]

theorem foldl_max_map_rev (f e : Pt → ℚ) (a : ℚ) (ps : List Pt) (x : ℚ)
    (g : Pt → Pt) (hg : ∀ p, f (g p) = a - e p) :
    (ps.map g).foldl (fun m q => max m (f q)) (a - x)
      = a - ps.foldl (fun m q => min m (e q)) x := by
  induction ps generalizing x with
  | nil => simp
  | cons p ps ih =>
    simp only [List.map_cons, List.foldl_cons, hg]
    rw [max_sub_pair, ih]

theorem foldl_min_map_aff (f e : Pt → ℚ) (c : ℚ) (ps : List Pt) (x : ℚ)
    (g : Pt → Pt) (hg : ∀ p, f (g p) = e p + c) :
    (ps.map g).foldl (fun m q => min m (f q)) (x + c)
      = ps.foldl (fun m q => min m (e q)) x + c := by
  induction ps generalizing x with
  | nil => simp
  | cons p ps ih =>
    simp only [List.map_cons, List.foldl_cons, hg]
    rw [min_add_add_right, ih]

theorem foldl_max_map_aff (f e : Pt → ℚ) (c : ℚ) (ps : List Pt) (x : ℚ)
    (g : Pt → Pt) (hg : ∀ p, f (g p) = e p + c) :
    (ps.map g).foldl (fun m q => max m (f q)) (x + c)
      = ps.foldl (fun m q => max m (e q)) x + c := by
  induction ps generalizing x with
  | nil => simp
  | cons p ps ih =>
    simp only [List.map_cons, List.foldl_cons, hg]
    rw [max_add_add_right, ih]

/-- The envelope of a shape rotated a quarter turn counter-clockwise about
`c`: the x-range comes from the reflected y-range and the y-range from the
shifted x-range. -/
theorem envelope_rotate90 (c : Pt) (mp : MultiPolygon) (hne : allPoints mp ≠ []) :
    envelope (multiRotate c (0, 1) mp) =
      ⟨(c.1 + c.2 - (envelope mp).maxC.2, (envelope mp).minC.1 + (c.2 - c.1)),
       (c.1 + c.2 - (envelope mp).minC.2, (envelope mp).maxC.1 + (c.2 - c.1))⟩ := by
  unfold envelope
  rw [allPoints_rotate]
  rcases hl : allPoints mp with _ | ⟨p, ps⟩
  · exact absurd hl hne
  · simp only [List.map_cons]
    have hgx : ∀ q : Pt, (rotPt c (0, 1) q).1 = (c.1 + c.2) - q.2 := by
      intro q
      unfold rotPt
      simp only
      ring
    have hgy : ∀ q : Pt, (rotPt c (0, 1) q).2 = q.1 + (c.2 - c.1) := by
      intro q
      unfold rotPt
      simp only
      ring
    have hx := foldl_min_map_rev Prod.fst Prod.snd (c.1 + c.2) ps p.2 (rotPt c (0, 1)) hgx
    have hx' := foldl_max_map_rev Prod.fst Prod.snd (c.1 + c.2) ps p.2 (rotPt c (0, 1)) hgx
    have hy := foldl_min_map_aff Prod.snd Prod.fst (c.2 - c.1) ps p.1 (rotPt c (0, 1)) hgy
    have hy' := foldl_max_map_aff Prod.snd Prod.fst (c.2 - c.1) ps p.1 (rotPt c (0, 1)) hgy
    rw [Rectangle2D.mk.injEq, Prod.mk.injEq, Prod.mk.injEq]
    refine ⟨⟨?_, ?_⟩, ?_, ?_⟩
    · rw [← hx]
      congr 1
      exact hgx p
    · rw [← hy]
      congr 1
      exact hgy p
    · rw [← hx']
      congr 1
      exact hgx p
    · rw [← hy']
      congr 1
      exact hgy p

/-- One `rotate(90)` with the exact quarter-turn values swaps the bounding
box's width and height. -/
theorem rotate90_bbox (m : MArea) (hne : m.isEmpty = false) :
    RectangleUtils.getWidth (m.rotate 90 (0, 1)).getBoundingBox2D
      = RectangleUtils.getHeight m.getBoundingBox2D ∧
    RectangleUtils.getHeight (m.rotate 90 (0, 1)).getBoundingBox2D
      = RectangleUtils.getWidth m.getBoundingBox2D := by
  have hpts : allPoints m.shape ≠ [] := by
    unfold MArea.isEmpty multiIsEmpty at hne
    rw [List.isEmpty_eq_false_iff_exists_mem] at hne
    obtain ⟨p, hp⟩ := hne
    exact List.ne_nil_of_mem hp
  unfold MArea.rotate
  rw [if_neg (by rw [hne]; exact Bool.false_ne_true)]
  unfold MArea.getBoundingBox2D
  dsimp only
  rw [envelope_rotate90 _ m.shape hpts]
  unfold RectangleUtils.getWidth RectangleUtils.getHeight
  constructor
  · simp only
    ring
  · simp only
    ring

/-- The executable pairwise checker implies the non-overlap invariant. -/
theorem noOverlap_of_verify (b : Bin) (h : b.verifyNoCollisions = true) : Bin.NoOverlap b := by
  intro i j pi pj hpi hpj hij
  have hilen : i < b.placedPieces.length := by
    by_contra h'
    rw [List.getElem?_eq_none (by omega)] at hpi
    cases hpi
  have hjlen : j < b.placedPieces.length := by
    by_contra h'
    rw [List.getElem?_eq_none (by omega)] at hpj
    cases hpj
  unfold Bin.verifyNoCollisions at h
  rcases Nat.lt_or_ge i j with hlt | hge
  · have h1 := List.all_eq_true.1 h i (List.mem_range.2 hilen)
    have h2 := List.all_eq_true.1 h1 j (List.mem_range.2 hjlen)
    rw [if_pos hlt] at h2
    rw [hpi, hpj] at h2
    have h3 : (!(pi.intersection pj)) = true := h2
    rwa [Bool.not_eq_true'] at h3
  · have hlt : j < i := by omega
    have h1 := List.all_eq_true.1 h j (List.mem_range.2 hjlen)
    have h2 := List.all_eq_true.1 h1 i (List.mem_range.2 hilen)
    rw [if_pos hlt] at h2
    rw [hpj, hpi] at h2
    have h3 : (!(pj.intersection pi)) = true := h2
    rw [Bool.not_eq_true'] at h3
    rw [intersection_comm]
    exact h3

/-- Pointwise area agreement of the compression relation lifts to the summed
occupied area. -/
theorem piecesLe_area_sum (l' l : List MArea) (h : piecesLe l' l) :
    (l'.map MArea.getArea).sum = (l.map MArea.getArea).sum := by
  obtain ⟨hlen, hpt⟩ := h
  have hmap : l'.map MArea.getArea = l.map MArea.getArea := by
    rw [List.ext_getElem?_iff]
    intro i
    rw [List.getElem?_map, List.getElem?_map]
    rcases hp : l[i]? with _ | p
    · rw [List.getElem?_eq_none_iff] at hp
      rw [List.getElem?_eq_none (by rw [hlen]; exact hp)]
    · rcases hp' : l'[i]? with _ | p'
      · rw [List.getElem?_eq_none_iff, hlen, ← List.getElem?_eq_none_iff] at hp'
        rw [hp'] at hp
        cases hp
      · have harea := (hpt i p p' hp hp').1
        show some p'.getArea = some p.getArea
        unfold MArea.getArea
        rw [harea]
  rw [hmap]

/-- Characterisation of `NFPManager::computeIFP`: the result is empty exactly
when the piece's bounding box is at least as wide or as tall as the
container. -/
theorem computeIFP_empty_iff (piece : MArea) (container : Rectangle2D) :
    NFPManager.computeIFP piece container = [] ↔
      RectangleUtils.getWidth container ≤ RectangleUtils.getWidth piece.getBoundingBox2D ∨
      RectangleUtils.getHeight container ≤ RectangleUtils.getHeight piece.getBoundingBox2D := by
  simp only [NFPManager.computeIFP]
  split
  · rename_i hcond
    simp only [RectangleUtils.getWidth, RectangleUtils.getHeight, RectangleUtils.getX,
      RectangleUtils.getY, RectangleUtils.getMaxX, RectangleUtils.getMaxY] at hcond ⊢
    constructor
    · intro _
      rcases hcond with h | h
      · exact Or.inl (by linarith)
      · exact Or.inr (by linarith)
    · intro _
      trivial
  · rename_i hcond
    push_neg at hcond
    obtain ⟨h1, h2⟩ := hcond
    simp only [RectangleUtils.getWidth, RectangleUtils.getHeight, RectangleUtils.getX,
      RectangleUtils.getY, RectangleUtils.getMaxX, RectangleUtils.getMaxY] at h1 h2 ⊢
    constructor
    · intro h
      simp [NFPManager.rectangleToPath] at h
    · intro h
      exfalso
      rcases h with h | h <;> linarith

namespace Utils

/-- The hole-line normalisation of the loader puts the piece's bounding-box
min corner exactly at the origin. -/
theorem holePiece_origin (outer inner : MArea)
    (hne : ((MArea.ofOuterInner outer inner).placeInPosition 0 0).isEmpty = false) :
    ((MArea.ofOuterInner outer inner).placeInPosition 0 0).getBoundingBox2D.minC = (0, 0) := by
  have hner : (MArea.ofOuterInner outer inner).isEmpty = false := by
    rw [← isEmpty_placeInPosition (MArea.ofOuterInner outer inner) 0 0]
    exact hne
  rw [bbox_placeInPosition _ 0 0 hner]

end Utils

/-- Discriminator of the loader's line kinds. -/
def LoadLine.isPiece : LoadLine → Bool
  | LoadLine.pieceLine _ => true
  | LoadLine.holeLine _ => false

theorem ofPoints_getID (pts : List Pt) (i : ℤ) : (MArea.ofPoints pts i).getID = i := by
  unfold MArea.ofPoints MArea.getID
  split <;> rfl

theorem loadLoop_noHole (num : ℕ) (full : List LoadLine) :
    ∀ (contents : List LoadLine) (c : ℕ) (acc out : List MArea),
      (∀ l ∈ contents, l ∈ full) →
      contents.all LoadLine.isPiece = true →
      Utils.loadLoop num contents c acc = some out →
      (∀ p ∈ acc, ∃ raw, LoadLine.pieceLine raw ∈ full ∧
        p = MArea.ofPoints (Utils.dedupPoints raw) p.getID) →
      ∀ p ∈ out, ∃ raw, LoadLine.pieceLine raw ∈ full ∧
        p = MArea.ofPoints (Utils.dedupPoints raw) p.getID := by
  intro contents
  induction contents with
  | nil =>
    intro c acc out _ _ h hacc
    have h' : some acc = some out := h
    simp only [Option.some.injEq] at h'
    subst h'
    exact hacc
  | cons line rest ih =>
    intro c acc out hsub hnh h hacc
    rw [List.all_cons, Bool.and_eq_true] at hnh
    rcases line with pts | pts
    · have h' : (if num ≤ c then some acc
          else if (Utils.dedupPoints pts).isEmpty then Utils.loadLoop num rest c acc
          else Utils.loadLoop num rest (c + 1)
            (acc ++ [MArea.ofPoints (Utils.dedupPoints pts) ((c : ℤ) + 1)])) = some out := h
      split at h'
      · simp only [Option.some.injEq] at h'
        subst h'
        exact hacc
      · split at h'
        · exact ih c acc out (fun l hl => hsub l (List.mem_cons_of_mem _ hl)) hnh.2 h' hacc
        · refine ih (c + 1) _ out (fun l hl => hsub l (List.mem_cons_of_mem _ hl)) hnh.2 h' ?_
          intro p hp
          rcases List.mem_append.1 hp with h2 | h2
          · exact hacc p h2
          · rcases List.mem_singleton.1 h2 with h3
            subst h3
            refine ⟨pts, hsub _ (List.mem_cons_self _ _), ?_⟩
            rw [ofPoints_getID]
    · cases hnh.1

theorem loadPieces_noHole {binW binH : ℚ} {num : ℕ} {contents : List LoadLine}
    {res : LoadResult}
    (hnh : contents.all LoadLine.isPiece = true)
    (h : Utils.loadPieces binW binH num contents = some res) :
    ∀ p ∈ res.pieces, ∃ raw, LoadLine.pieceLine raw ∈ contents ∧
      p = MArea.ofPoints (Utils.dedupPoints raw) p.getID := by
  unfold Utils.loadPieces at h
  rcases hl : Utils.loadLoop num contents 0 [] with _ | pieces
  · rw [hl] at h
    cases h
  · rw [hl] at h
    simp only [Option.some.injEq] at h
    subst h
    exact loadLoop_noHole num contents contents 0 [] pieces (fun l hl' => hl') hnh hl
      (by intro p hp; cases hp)

theorem insertBy_length {α : Type} (c : α → α → Bool) (x : α) (l : List α) :
    (insertBy c x l).length = l.length + 1 := by
  induction l with
  | nil => rfl
  | cons y ys ih =>
    unfold insertBy
    split
    · rfl
    · simp only [List.length_cons, ih]

theorem sortBy_length {α : Type} (c : α → α → Bool) (l : List α) :
    (sortBy c l).length = l.length := by
  induction l with
  | nil => rfl
  | cons x xs ih =>
    unfold sortBy
    rw [insertBy_length, ih]
    rfl

namespace Bin

theorem eraseByArea_length (l : List MArea) (a : ℚ) :
    (eraseByArea l a).length ≤ l.length := by
  induction l with
  | nil => exact le_refl _
  | cons p ps ih =>
    unfold eraseByArea
    split
    · simp
    · simp only [List.length_cons]
      omega

theorem foldl_eraseByArea_length (ps : List MArea) :
    ∀ rem : List MArea,
      (ps.foldl (fun rem placed => eraseByArea rem placed.getArea) rem).length
        ≤ rem.length := by
  induction ps with
  | nil =>
    intro rem
    exact le_refl _
  | cons p ps ih =>
    intro rem
    rw [List.foldl_cons]
    exact le_trans (ih _) (eraseByArea_length rem p.getArea)

theorem bbpLookAheadLoop_len (fuel : ℕ) :
    ∀ (b : Bin) (tp np : List MArea) (d : ℕ) (trig : ℤ → ℚ × ℚ),
      (bbpLookAheadLoop fuel b tp np d trig).2.length ≤ np.length + tp.length := by
  induction fuel with
  | zero =>
    intro b tp np d trig
    rw [bbpLookAheadLoop.eq_def]
    simp [List.length_append]
  | succ fuel ih =>
    intro b tp np d trig
    rw [bbpLookAheadLoop.eq_def]
    rcases tp with _ | ⟨front, rest⟩
    · simp
    · dsimp only
      split
      · rename_i st hst
        have h1 := ih st.2 (st.1.foldl (fun rem placed => eraseByArea rem placed.getArea)
          (front :: rest)) np d trig
        have h2 := foldl_eraseByArea_length st.1 (front :: rest)
        simp only [List.length_cons] at h1 h2 ⊢
        omega
      · split
        · have h1 := ih (tryPlacePiece b front trig).2.2 rest np d trig
          simp only [List.length_cons]
          omega
        · have h1 := ih b rest (np ++ [front]) d trig
          simp only [List.length_append, List.length_cons, List.length_nil] at h1 ⊢
          omega

theorem boundingBoxPackingWithLookAhead_len (b : Bin) (ps : List MArea) (d : ℕ)
    (trig : ℤ → ℚ × ℚ) :
    (boundingBoxPackingWithLookAhead b ps d trig).2.length ≤ ps.length := by
  unfold boundingBoxPackingWithLookAhead
  have h1 := bbpLookAheadLoop_len (ps.length + 1) b (sortBy areaDescending ps) [] d trig
  rw [sortBy_length] at h1
  simpa using h1

theorem pfzLookAheadLoop_len (fuel : ℕ) :
    ∀ (b : Bin) (tp np : List MArea) (d : ℕ) (trig : ℤ → ℚ × ℚ),
      (pfzLookAheadLoop fuel b tp np d trig).2.length ≤ np.length + tp.length := by
  induction fuel with
  | zero =>
    intro b tp np d trig
    rw [pfzLookAheadLoop.eq_def]
    simp [List.length_append]
  | succ fuel ih =>
    intro b tp np d trig
    rw [pfzLookAheadLoop.eq_def]
    rcases tp with _ | ⟨front, rest⟩
    · simp
    · dsimp only
      split
      · rename_i st hst
        have h1 := ih st.2 (st.1.foldl (fun rem placed => eraseByArea rem placed.getArea)
          (front :: rest)) np d trig
        have h2 := foldl_eraseByArea_length st.1 (front :: rest)
        simp only [List.length_cons] at h1 h2 ⊢
        omega
      · split
        · have h1 := ih (placeInFreeZones b [front] trig).1 rest np d trig
          simp only [List.length_cons]
          omega
        · have h1 := ih b rest (np ++ [front]) d trig
          simp only [List.length_append, List.length_cons, List.length_nil] at h1 ⊢
          omega

theorem placeInFreeZonesWithLookAhead_len (b : Bin) (ps : List MArea) (d : ℕ)
    (trig : ℤ → ℚ × ℚ) :
    (placeInFreeZonesWithLookAhead b ps d trig).2.length ≤ ps.length := by
  unfold placeInFreeZonesWithLookAhead
  have h1 := pfzLookAheadLoop_len (ps.length + 1) b (sortBy areaDescending ps) [] d trig
  rw [sortBy_length] at h1
  simpa using h1

end Bin

theorem foldl_snd_length {α β γ : Type} (f : (β × List γ) → α → (β × List γ)) (l : List α)
    (hf : ∀ acc a, ((f acc a).2).length ≤ acc.2.length + 1) :
    ∀ acc, ((l.foldl f acc).2).length ≤ acc.2.length + l.length := by
  induction l with
  | nil =>
    intro acc
    simp
  | cons x xs ih =>
    intro acc
    rw [List.foldl_cons, List.length_cons]
    have h1 := ih (f acc x)
    have h2 := hf acc x
    omega

theorem dropPieces_len (b : Bin) (ps : List MArea) (trig : ℤ → ℚ × ℚ) :
    (Bin.dropPieces b ps trig).2.length ≤ ps.length := by
  unfold Bin.dropPieces
  refine le_trans (foldl_snd_length _ ps ?_ (b, [])) (by simp)
  intro acc a
  split
  · exact Nat.le_succ _
  · simp

theorem placeInFreeZones_len (b : Bin) (ps : List MArea) (trig : ℤ → ℚ × ℚ) :
    (Bin.placeInFreeZones b ps trig).2.length ≤ ps.length := by
  unfold Bin.placeInFreeZones
  refine le_trans (foldl_snd_length _ (sortBy areaDescending ps) ?_ (b, []))
    (by simp [sortBy_length])
  intro acc a
  split
  · exact Nat.le_succ _
  · simp

theorem stage2Loop_len (fuel : ℕ) :
    ∀ (bin : Bin) (snp : List MArea) (n : ℕ) (trig : ℤ → ℚ × ℚ),
      (BinPacking.stage2Loop fuel bin snp n trig).2.length ≤ snp.length := by
  induction fuel with
  | zero =>
    intro bin snp n trig
    exact le_refl _
  | succ fuel ih =>
    intro bin snp n trig
    rw [BinPacking.stage2Loop]
    by_cases hemp : (!snp.isEmpty) = true
    · rw [if_pos hemp]
      split
      · exact Bin.placeInFreeZonesWithLookAhead_len _ _ _ _
      · exact le_trans (ih _ _ _ _) (Bin.placeInFreeZonesWithLookAhead_len _ _ _ _)
    · rw [if_neg hemp]
      split
      · exact le_refl _
      · exact ih _ _ _ _

theorem globalOptimize_len (rec : Bool) (bins : List Bin) (tp : List MArea)
    (trig : ℤ → ℚ × ℚ) :
    (BinPacking.globalOptimize rec bins tp trig).2.length ≤ tp.length := by
  unfold BinPacking.globalOptimize
  refine le_trans (foldl_snd_length _ (sortBy areaDescending tp) ?_ (bins, []))
    (by simp [sortBy_length])
  intro acc a
  dsimp only
  split
  · exact Nat.le_succ _
  · simp

theorem packStep_len {bins : List Bin} {tp : List MArea} {dim : Rectangle2D}
    {trig : ℤ → ℚ × ℚ} {s4 : List Bin × List MArea}
    (h : BinPacking.packStep bins tp dim trig = some s4) :
    s4.2.length ≤ tp.length := by
  unfold BinPacking.packStep at h
  dsimp only at h
  generalize hS1 : (Bin.mk0 dim).boundingBoxPackingWithLookAhead tp 5 trig = s1 at h
  generalize hS2 : (if (Bin.mk0 dim).getNPlaced < s1.1.getNPlaced then
    BinPacking.stage2Loop (s1.2.length + 2) s1.1 s1.2 (Bin.mk0 dim).getNPlaced trig
    else s1) = s2 at h
  generalize hS3 : (if (!s2.2.isEmpty) = true then s2.1.compress.dropPieces s2.2 trig
    else (s2.1.compress, s2.2)) = s3 at h
  have hb1 : s1.2.length ≤ tp.length := by
    rw [← hS1]
    exact Bin.boundingBoxPackingWithLookAhead_len _ _ _ _
  have hb2 : s2.2.length ≤ tp.length := by
    rw [← hS2]
    split
    · exact le_trans (stage2Loop_len _ _ _ _ _) hb1
    · exact hb1
  have hb3 : s3.2.length ≤ tp.length := by
    rw [← hS3]
    split
    · exact le_trans (dropPieces_len _ _ _) hb2
    · exact hb2
  split at h
  · cases h
  · split at h
    · simp only [Option.some.injEq] at h
      subst h
      exact le_trans (globalOptimize_len _ _ _ _) hb3
    · simp only [Option.some.injEq] at h
      subst h
      exact hb3

theorem packLoop_stable (n : ℕ) :
    ∀ (tp : List MArea) (bins : List Bin) (last : ℕ) (dim : Rectangle2D)
      (trig : ℤ → ℚ × ℚ) (f1 f2 : ℕ),
      tp.length ≤ n → tp.length + 2 ≤ f1 → tp.length + 2 ≤ f2 →
      BinPacking.packLoop f1 bins tp last dim trig
        = BinPacking.packLoop f2 bins tp last dim trig := by
  induction n with
  | zero =>
    intro tp bins last dim trig f1 f2 hn h1 h2
    rcases tp with _ | ⟨x, xs⟩
    · rcases f1 with _ | f1
      · omega
      rcases f2 with _ | f2
      · omega
      rfl
    · simp at hn
  | succ n ih =>
    intro tp bins last dim trig f1 f2 hn h1 h2
    rcases f1 with _ | f1
    · omega
    rcases f2 with _ | f2
    · omega
    rw [BinPacking.packLoop, BinPacking.packLoop]
    by_cases hemp : tp.isEmpty = true
    · rw [if_pos hemp, if_pos hemp]
    · rw [if_neg hemp, if_neg hemp]
      by_cases hguard : 0 < last ∧ tp.length = last
      · rw [if_pos hguard, if_pos hguard]
      · rw [if_neg hguard, if_neg hguard]
        rcases hps : BinPacking.packStep bins tp dim trig with _ | s4
        · rfl
        · dsimp only
          have hlen := packStep_len hps
          rcases Nat.lt_or_ge s4.2.length tp.length with hlt | hge
          · exact ih s4.2 s4.1 tp.length dim trig f1 f2 (by omega) (by omega) (by omega)
          · have heq : s4.2.length = tp.length := by omega
            have hpos : 0 < tp.length := by
              rw [List.isEmpty_iff] at hemp
              exact List.length_pos.2 hemp
            rcases f1 with _ | g1
            · omega
            rcases f2 with _ | g2
            · omega
            rw [BinPacking.packLoop, BinPacking.packLoop]
            have hne : ¬(s4.2.isEmpty = true) := by
              intro habs
              rw [List.isEmpty_iff] at habs
              rw [habs] at heq
              simp at heq
              omega
            rw [if_neg hne, if_neg hne, if_pos ⟨by omega, heq⟩, if_pos ⟨by omega, heq⟩]

set_option maxRecDepth 3000

instance (outer inner : Rectangle2D) : Decidable (containsEps outer inner) :=
  inferInstanceAs (Decidable (outer.minC.1 - epsTol ≤ inner.minC.1 ∧
    inner.maxC.1 ≤ outer.maxC.1 + epsTol ∧ outer.minC.2 - epsTol ≤ inner.minC.2 ∧
    inner.maxC.2 ≤ outer.maxC.2 + epsTol))

instance (r : Rectangle2D) : Decidable (wfRect r) :=
  inferInstanceAs (Decidable (r.minC.1 ≤ r.maxC.1 ∧ r.minC.2 ≤ r.maxC.2))

instance (b : Bin) : Decidable (Bin.ContainedEps b) :=
  inferInstanceAs (Decidable (∀ p ∈ b.placedPieces, p.isEmpty = false →
    containsEps b.dimension p.getBoundingBox2D))

instance (b : Bin) : Decidable (Bin.FreeGood b) :=
  inferInstanceAs (Decidable (∀ r ∈ b.freeRectangles, containsEps b.dimension r ∧ wfRect r))

/-- The first 50×50 square of scenario S2, at the origin. -/
def sqPiece1 : MArea := MArea.ofPoints [(0, 0), (50, 0), (50, 50), (0, 50)] 1

/-- A 50×50 square whose file coordinates already sit at x = 50. -/
def sqPiece2 : MArea := MArea.ofPoints [(50, 0), (100, 0), (100, 50), (50, 50)] 2

/-- The 100×100 bin of scenario S2 with the first square placed and
indexed. -/
def binS2 : Bin := ⟨⟨(0, 0), (100, 100)⟩, [sqPiece1], [], [(sqPiece1.getBoundingBox2D, 0)]⟩

/-- The second 50×50 square of scenario S2, before placement. -/
def sqS2b : MArea := MArea.ofPoints [(0, 0), (50, 0), (50, 50), (0, 50)] 2

/-- A U-channel piece along the bottom-right of the bin: a thin strip with
raised ends, area 2.3 within a 40×0.2 bounding box (free bbox area 5.7). -/
def pieceK : MArea := MArea.ofPoints
  [(60, 0), (100, 0), (100, 1/5), (99, 1/5), (99, 1/20), (61, 1/20), (61, 1/5), (60, 1/5)] 1

/-- A 45-long, 0.3-tall angled piece of area 2.5, placed high in the bin. -/
def pieceC : MArea :=
  (MArea.ofPoints [(44, 0), (45, 0), (45, 3/10), (0, 3/10), (0, 1/4), (44, 1/4)] 2).placeInPosition 0 50

/-- A well-formed two-piece bin state on which `moveAndReplace` breaks the
containment invariant. -/
def binC2 : Bin := ⟨⟨(0, 0), (100, 100)⟩, [pieceK, pieceC], [],
  [(pieceK.getBoundingBox2D, 0), (pieceC.getBoundingBox2D, 1)]⟩

/-- A region pair whose every common point lies on the vertical line
`x = c`; such an overlap is one-dimensional and has zero area. -/
def SegmentOnlyOverlap (a b : MultiPolygon) (c : ℚ) : Prop :=
  ∀ p : Pt, inMulti p a = true → inMulti p b = true → p.1 = c

/-- A 20×10 rectangle piece. -/
def mC6 : MArea := MArea.ofPoints [(0, 0), (20, 0), (20, 10), (0, 10)] 1

/-- A 50×50 square piece for the exact-fit inner-fit-polygon case. -/
def pieceC5 : MArea := MArea.ofPoints [(0, 0), (50, 0), (50, 50), (0, 50)] 3

/-- A 50×50 container rectangle. -/
def contC5 : Rectangle2D := ⟨(0, 0), (50, 50)⟩

/-- An empty 100×100 bin. -/
def binW : Bin := Bin.mk0 ⟨(0, 0), (100, 100)⟩

/-- A 10×10 square piece. -/
def pieceW : MArea := MArea.ofPoints [(0, 0), (10, 0), (10, 10), (0, 10)] 7

/-- A one-piece, hole-free loader input. -/
def contentsW : List LoadLine := [LoadLine.pieceLine [(0, 0), (10, 0), (10, 10), (0, 10)]]

/-- The loader result for `contentsW` in a 100×100 bin. -/
def resW : LoadResult :=
  ⟨⟨(0, 0), (100, 100)⟩,
   [MArea.ofPoints (Utils.dedupPoints [(0, 0), (10, 0), (10, 10), (0, 10)]) 1]⟩

/-- C1: non-overlap invariant.  From any well-formed bin state (valid index,
checker-passing pieces, ε-contained pieces and free rectangles, bin anchored
at the origin), every public core operation — stage-1 bounding-box packing,
move-and-replace, compression, the gravity drop, and free-zone packing —
yields a state that again passes the repository's own pairwise intersection
checker `Bin::verifyNoCollisions`: no two distinct placed pieces intersect
at all, hence no pair has intersection area above ε. -/
theorem claimC1 (b : Bin) (ps : List MArea) (k : ℕ) (trig : ℤ → ℚ × ℚ)
    (hwf : b.wfB = true) (hver : b.verifyNoCollisions = true)
    (hc : Bin.ContainedEps b) (hfg : Bin.FreeGood b) (h0 : b.dimension.minC = (0, 0)) :
    (Bin.boundingBoxPacking b ps trig).1.verifyNoCollisions = true ∧
    (Bin.moveAndReplace b k trig).1.verifyNoCollisions = true ∧
    b.compress.verifyNoCollisions = true ∧
    (Bin.dropPieces b ps trig).1.verifyNoCollisions = true ∧
    (Bin.placeInFreeZones b ps trig).1.verifyNoCollisions = true := by
  obtain ⟨hval, hcov⟩ := Bin.wf_of_wfB b hwf
  have hno := noOverlap_of_verify b hver
  have hg : Bin.GoodBin b := ⟨hval, hcov, hno, hc, hfg⟩
  refine ⟨?_, ?_, ?_, ?_, ?_⟩
  · exact Bin.verifyNoCollisions_of_noOverlap _
      ((Bin.boundingBoxPacking_main b ps trig hg).1).2.2.1
  · exact Bin.verifyNoCollisions_of_noOverlap _
      (Bin.moveAndReplace_noc b k trig hval hcov hno).2.2.1
  · exact Bin.verifyNoCollisions_of_noOverlap _ ((Bin.compress_goodbin b hg).1).2.2.1
  · exact Bin.verifyNoCollisions_of_noOverlap _
      ((Bin.dropPieces_main b ps trig hg h0).1).2.2.1
  · exact Bin.verifyNoCollisions_of_noOverlap _
      ((Bin.placeInFreeZones_main b ps trig hg).1).2.2.1

theorem claimC1_witness :
    binW.wfB = true ∧ binW.verifyNoCollisions = true ∧ Bin.ContainedEps binW ∧
    Bin.FreeGood binW ∧ binW.dimension.minC = (0, 0) ∧
    ((Bin.boundingBoxPacking binW [pieceW] trigQ).1.verifyNoCollisions = true ∧
     (Bin.moveAndReplace binW 0 trigQ).1.verifyNoCollisions = true ∧
     binW.compress.verifyNoCollisions = true ∧
     (Bin.dropPieces binW [pieceW] trigQ).1.verifyNoCollisions = true ∧
     (Bin.placeInFreeZones binW [pieceW] trigQ).1.verifyNoCollisions = true) :=
  ⟨by with_unfolding_all decide, by with_unfolding_all decide, by with_unfolding_all decide,
   by with_unfolding_all decide, by with_unfolding_all decide,
   claimC1 binW [pieceW] 0 trigQ (by with_unfolding_all decide) (by with_unfolding_all decide)
     (by with_unfolding_all decide) (by with_unfolding_all decide) (by with_unfolding_all decide)⟩

/-- C2 (amended): the containment invariant is preserved by stage-1
bounding-box packing, compression, the gravity drop (for an origin-anchored
bin) and free-zone packing — but NOT by `Bin::moveAndReplace`, whose sweep
fast path omits the bin-boundary test; the counterexample exhibits a
well-formed, fully contained state that `moveAndReplace` turns into one with
a piece protruding 5 units beyond the bin. -/
theorem claimC2 (b : Bin) (ps : List MArea) (trig : ℤ → ℚ × ℚ)
    (hwf : b.wfB = true) (hver : b.verifyNoCollisions = true)
    (hc : Bin.ContainedEps b) (hfg : Bin.FreeGood b) (h0 : b.dimension.minC = (0, 0)) :
    Bin.ContainedEps (Bin.boundingBoxPacking b ps trig).1 ∧
    Bin.ContainedEps b.compress ∧
    Bin.ContainedEps (Bin.dropPieces b ps trig).1 ∧
    Bin.ContainedEps (Bin.placeInFreeZones b ps trig).1 := by
  obtain ⟨hval, hcov⟩ := Bin.wf_of_wfB b hwf
  have hno := noOverlap_of_verify b hver
  have hg : Bin.GoodBin b := ⟨hval, hcov, hno, hc, hfg⟩
  exact ⟨((Bin.boundingBoxPacking_main b ps trig hg).1).2.2.2.1,
    ((Bin.compress_goodbin b hg).1).2.2.2.1,
    ((Bin.dropPieces_main b ps trig hg h0).1).2.2.2.1,
    ((Bin.placeInFreeZones_main b ps trig hg).1).2.2.2.1⟩

theorem claimC2_witness :
    binW.wfB = true ∧ binW.verifyNoCollisions = true ∧ Bin.ContainedEps binW ∧
    Bin.FreeGood binW ∧ binW.dimension.minC = (0, 0) ∧
    (Bin.ContainedEps (Bin.boundingBoxPacking binW [pieceW] trigQ).1 ∧
     Bin.ContainedEps binW.compress ∧
     Bin.ContainedEps (Bin.dropPieces binW [pieceW] trigQ).1 ∧
     Bin.ContainedEps (Bin.placeInFreeZones binW [pieceW] trigQ).1) :=
  ⟨by with_unfolding_all decide, by with_unfolding_all decide, by with_unfolding_all decide,
   by with_unfolding_all decide, by with_unfolding_all decide,
   claimC2 binW [pieceW] trigQ (by with_unfolding_all decide) (by with_unfolding_all decide)
     (by with_unfolding_all decide) (by with_unfolding_all decide) (by with_unfolding_all decide)⟩

theorem claimC2_cex :
    Bin.wfB binC2 = true ∧ binC2.verifyNoCollisions = true ∧ Bin.ContainedEps binC2 ∧
    binC2.dimension.minC = (0, 0) ∧
    ¬ Bin.ContainedEps (Bin.moveAndReplace binC2 0 trigQ).1 := by
  with_unfolding_all decide

/-- C3 (amended): the collision oracle `Bin::isCollision` returns true if and
only if some placed piece other than the ignored index geometrically
intersects the candidate in the closed sense of `bg::intersects` — touching
counts, so a shared zero-area boundary segment is reported as a collision,
not ignored as the specification asserts.  The hypothesis is the index
coverage invariant away from the ignored index. -/
theorem claimC3 (b : Bin) (piece : MArea) (ign : Option ℕ)
    (hcov : ∀ (i : ℕ) (p : MArea), b.placedPieces[i]? = some p → ign ≠ some i →
      (p.getBoundingBox2D, i) ∈ b.rtree) :
    b.isCollision piece ign = true ↔
      ∃ (i : ℕ) (p : MArea), b.placedPieces[i]? = some p ∧ ign ≠ some i ∧
        piece.intersection p = true := by
  constructor
  · exact Bin.isCollision_true_sound b piece ign
  · rintro ⟨i, p, hp, hig, hint⟩
    by_contra h
    rw [Bool.not_eq_true] at h
    have hfalse := Bin.isCollision_false_sound b piece ign hcov h i p hp hig
    rw [hfalse] at hint
    exact Bool.noConfusion hint

theorem claimC3_witness :
    (∀ (i : ℕ) (p : MArea), binS2.placedPieces[i]? = some p → (none : Option ℕ) ≠ some i →
      (p.getBoundingBox2D, i) ∈ binS2.rtree) ∧
    (binS2.isCollision sqPiece2 none = true ↔
      ∃ (i : ℕ) (p : MArea), binS2.placedPieces[i]? = some p ∧ (none : Option ℕ) ≠ some i ∧
        sqPiece2.intersection p = true) := by
  have hcov : ∀ (i : ℕ) (p : MArea), binS2.placedPieces[i]? = some p →
      (none : Option ℕ) ≠ some i → (p.getBoundingBox2D, i) ∈ binS2.rtree := by
    intro i p hp _
    rcases i with _ | n
    · have hp' : some sqPiece1 = some p := hp
      cases hp'
      exact List.mem_singleton.2 rfl
    · have hp' : (none : Option MArea) = some p := hp
      cases hp'
  exact ⟨hcov, claimC3 binS2 sqPiece2 none hcov⟩

theorem claimC3_cex :
    binS2.isCollision sqPiece2 none = true ∧
    SegmentOnlyOverlap sqPiece1.shape sqPiece2.shape 50 := by
  refine ⟨by with_unfolding_all decide, ?_⟩
  intro p h1 h2
  have e1 := inMulti_envelope p _ h1
  have e2 := inMulti_envelope p _ h2
  have hv1 : envelope sqPiece1.shape = ⟨(0, 0), (50, 50)⟩ := by with_unfolding_all decide
  have hv2 : envelope sqPiece2.shape = ⟨(50, 0), (100, 50)⟩ := by with_unfolding_all decide
  rw [hv1] at e1
  rw [hv2] at e2
  have e1' : (0 : ℚ) ≤ p.1 ∧ p.1 ≤ 50 ∧ (0 : ℚ) ≤ p.2 ∧ p.2 ≤ 50 := e1
  have e2' : (50 : ℚ) ≤ p.1 ∧ p.1 ≤ 100 ∧ (0 : ℚ) ≤ p.2 ∧ p.2 ≤ 50 := e2
  exact le_antisymm e1'.2.1 e2'.1

/-- C4: the oracle evidence behind the S2 divergence.  With the first 50×50
square placed at the origin of the 100×100 bin and indexed, the collision
oracle rejects the second square at each of the three remaining expected
min-corners (50,0), (0,50) and (50,50), although the candidate at (50,0)
meets the placed square only in the zero-area boundary segment x = 50; the
packer therefore cannot reproduce the expected single-bin S2 layout. -/
theorem claimC4 :
    binS2.isCollision (sqS2b.placeInPosition 50 0) none = true ∧
    binS2.isCollision (sqS2b.placeInPosition 0 50) none = true ∧
    binS2.isCollision (sqS2b.placeInPosition 50 50) none = true ∧
    SegmentOnlyOverlap sqPiece1.shape (sqS2b.placeInPosition 50 0).shape 50 := by
  refine ⟨by with_unfolding_all decide, by with_unfolding_all decide,
    by with_unfolding_all decide, ?_⟩
  intro p h1 h2
  have e1 := inMulti_envelope p _ h1
  have e2 := inMulti_envelope p _ h2
  have hv1 : envelope sqPiece1.shape = ⟨(0, 0), (50, 50)⟩ := by with_unfolding_all decide
  have hv2 : envelope (sqS2b.placeInPosition 50 0).shape = ⟨(50, 0), (100, 50)⟩ := by
    with_unfolding_all decide
  rw [hv1] at e1
  rw [hv2] at e2
  have e1' : (0 : ℚ) ≤ p.1 ∧ p.1 ≤ 50 ∧ (0 : ℚ) ≤ p.2 ∧ p.2 ≤ 50 := e1
  have e2' : (50 : ℚ) ≤ p.1 ∧ p.1 ≤ 100 ∧ (0 : ℚ) ≤ p.2 ∧ p.2 ≤ 50 := e2
  exact le_antisymm e1'.2.1 e2'.1

/-- C5 (amended): `NFPManager::computeIFP` returns the container shrunk on
the max-corner side by the piece's bounding-box width and height, and the
result is empty exactly when the piece is at least as wide or at least as
tall as the container — the degeneracy test compares with `<= 0`, so an
exact-fit piece yields an empty inner-fit polygon, not a non-empty one as
the specification asserts. -/
theorem claimC5 (piece : MArea) (container : Rectangle2D) :
    (NFPManager.computeIFP piece container = [] ↔
      RectangleUtils.getWidth container ≤ RectangleUtils.getWidth piece.getBoundingBox2D ∨
      RectangleUtils.getHeight container ≤ RectangleUtils.getHeight piece.getBoundingBox2D) ∧
    (NFPManager.computeIFP piece container ≠ [] →
      NFPManager.computeIFP piece container = NFPManager.rectangleToPath
        ⟨(RectangleUtils.getX container, RectangleUtils.getY container),
         (RectangleUtils.getMaxX container - RectangleUtils.getWidth piece.getBoundingBox2D,
          RectangleUtils.getMaxY container
            - RectangleUtils.getHeight piece.getBoundingBox2D)⟩) := by
  refine ⟨computeIFP_empty_iff piece container, ?_⟩
  intro hne
  simp only [NFPManager.computeIFP] at hne ⊢
  split at hne
  · exact absurd rfl hne
  · rename_i hcond
    rw [if_neg hcond]

theorem claimC5_witness : NFPManager.computeIFP pieceC5 contC5 = [] :=
  (claimC5 pieceC5 contC5).1.mpr (Or.inl (by with_unfolding_all decide))

theorem claimC5_cex :
    RectangleUtils.getWidth pieceC5.getBoundingBox2D = RectangleUtils.getWidth contC5 ∧
    RectangleUtils.getHeight pieceC5.getBoundingBox2D = RectangleUtils.getHeight contC5 ∧
    NFPManager.computeIFP pieceC5 contC5 = [] := by
  with_unfolding_all decide

/-- C6 (amended): for every non-empty piece, ONE `rotate(90)` — with the
exact quarter-turn values (cos, sin) = (0, 1) — swaps the bounding box's
width and height, and TWO consecutive `rotate(90)` restore the original
bounding-box width and height, rather than swapping them as the
specification asserts. -/
theorem claimC6 (m : MArea) (hne : m.isEmpty = false) :
    RectangleUtils.getWidth (m.rotate 90 (0, 1)).getBoundingBox2D
      = RectangleUtils.getHeight m.getBoundingBox2D ∧
    RectangleUtils.getHeight (m.rotate 90 (0, 1)).getBoundingBox2D
      = RectangleUtils.getWidth m.getBoundingBox2D ∧
    RectangleUtils.getWidth ((m.rotate 90 (0, 1)).rotate 90 (0, 1)).getBoundingBox2D
      = RectangleUtils.getWidth m.getBoundingBox2D ∧
    RectangleUtils.getHeight ((m.rotate 90 (0, 1)).rotate 90 (0, 1)).getBoundingBox2D
      = RectangleUtils.getHeight m.getBoundingBox2D := by
  obtain ⟨h1, h2⟩ := rotate90_bbox m hne
  have hne2 : (m.rotate 90 (0, 1)).isEmpty = false := by
    rw [isEmpty_rotate]
    exact hne
  obtain ⟨h3, h4⟩ := rotate90_bbox (m.rotate 90 (0, 1)) hne2
  exact ⟨h1, h2, by rw [h3, h2], by rw [h4, h1]⟩

theorem claimC6_witness :
    mC6.isEmpty = false ∧
    (RectangleUtils.getWidth (mC6.rotate 90 (0, 1)).getBoundingBox2D
       = RectangleUtils.getHeight mC6.getBoundingBox2D ∧
     RectangleUtils.getHeight (mC6.rotate 90 (0, 1)).getBoundingBox2D
       = RectangleUtils.getWidth mC6.getBoundingBox2D ∧
     RectangleUtils.getWidth ((mC6.rotate 90 (0, 1)).rotate 90 (0, 1)).getBoundingBox2D
       = RectangleUtils.getWidth mC6.getBoundingBox2D ∧
     RectangleUtils.getHeight ((mC6.rotate 90 (0, 1)).rotate 90 (0, 1)).getBoundingBox2D
       = RectangleUtils.getHeight mC6.getBoundingBox2D) :=
  ⟨by with_unfolding_all decide, claimC6 mC6 (by with_unfolding_all decide)⟩

theorem claimC6_cex :
    mC6.isEmpty = false ∧
    RectangleUtils.getWidth mC6.getBoundingBox2D = 20 ∧
    RectangleUtils.getHeight mC6.getBoundingBox2D = 10 ∧
    RectangleUtils.getWidth ((mC6.rotate 90 (0, 1)).rotate 90 (0, 1)).getBoundingBox2D
      ≠ RectangleUtils.getHeight mC6.getBoundingBox2D := by
  with_unfolding_all decide

/-- C7: the compress postcondition.  From a state passing the well-formedness
checker, the pairwise checker and the containment invariant, `Bin::compress`
(unit vector (−1,−1)) moves no piece's bounding-box min corner up or right,
preserves containment and the pairwise checker, and keeps the summed
occupied area exactly; moreover every failed unit step of the underlying
`tryMove` leaves the placed-piece list exactly as it was. -/
theorem claimC7 (b : Bin) (hwf : b.wfB = true) (hver : b.verifyNoCollisions = true)
    (hc : Bin.ContainedEps b) :
    (∀ (j : ℕ) (p p' : MArea), b.placedPieces[j]? = some p →
        b.compress.placedPieces[j]? = some p' →
        RectangleUtils.getX p'.getBoundingBox2D ≤ RectangleUtils.getX p.getBoundingBox2D ∧
        RectangleUtils.getY p'.getBoundingBox2D ≤ RectangleUtils.getY p.getBoundingBox2D) ∧
    Bin.ContainedEps b.compress ∧
    b.compress.verifyNoCollisions = true ∧
    b.compress.getOccupiedArea = b.getOccupiedArea ∧
    (∀ (x : Bin) (i : ℕ) (v : Pt), (Bin.tryMove x i v).2 = false →
      (Bin.tryMove x i v).1.placedPieces = x.placedPieces) := by
  obtain ⟨hval, hcov⟩ := Bin.wf_of_wfB b hwf
  have hno := noOverlap_of_verify b hver
  obtain ⟨r1, r2, r3, r4, r5⟩ := Bin.compress_main b hval hcov hno hc
  obtain ⟨hdim, hfrs, hple⟩ := r5
  obtain ⟨hlen, hpt⟩ := hple
  refine ⟨?_, r4, Bin.verifyNoCollisions_of_noOverlap _ r3, ?_, ?_⟩
  · intro j p p' hp hp'
    obtain ⟨-, hx, hy⟩ := hpt j p p' hp hp'
    exact ⟨hx, hy⟩
  · show (b.compress.placedPieces.map MArea.getArea).sum
      = (b.placedPieces.map MArea.getArea).sum
    exact piecesLe_area_sum _ _ ⟨hlen, hpt⟩
  · intro x i v h
    exact Bin.tryMove_fail_pieces x i v h

theorem claimC7_witness :
    binS2.wfB = true ∧ binS2.verifyNoCollisions = true ∧ Bin.ContainedEps binS2 ∧
    binS2.compress.getOccupiedArea = binS2.getOccupiedArea :=
  ⟨by with_unfolding_all decide, by with_unfolding_all decide, by with_unfolding_all decide,
   (claimC7 binS2 (by with_unfolding_all decide) (by with_unfolding_all decide)
       (by with_unfolding_all decide)).2.2.2.1⟩

/-- C8: orchestrator termination.  The guarded outer loop of
`BinPacking::pack` reaches a fixed point within `|sorted| + 2` iterations —
its result is the same for every fuel at least that bound, because each
continuing iteration either strictly shrinks the unplaced list or trips the
guard or the no-progress abort — and packing the empty input returns zero
bins. -/
theorem claimC8 (pieces : List MArea) (dim : Rectangle2D) (trig : ℤ → ℚ × ℚ) (f1 f2 : ℕ)
    (h1 : (sortBy areaDescending pieces).length + 2 ≤ f1)
    (h2 : (sortBy areaDescending pieces).length + 2 ≤ f2) :
    BinPacking.packLoop f1 [] (sortBy areaDescending pieces) 0 dim trig
      = BinPacking.packLoop f2 [] (sortBy areaDescending pieces) 0 dim trig ∧
    BinPacking.pack [] dim trig = [] :=
  ⟨packLoop_stable (sortBy areaDescending pieces).length (sortBy areaDescending pieces)
      [] 0 dim trig f1 f2 le_rfl h1 h2, rfl⟩

theorem claimC8_witness :
    (sortBy areaDescending [pieceW]).length + 2 ≤ 3 ∧
    (sortBy areaDescending [pieceW]).length + 2 ≤ 10 ∧
    (BinPacking.packLoop 3 [] (sortBy areaDescending [pieceW]) 0 ⟨(0, 0), (100, 100)⟩ trigQ
       = BinPacking.packLoop 10 [] (sortBy areaDescending [pieceW]) 0 ⟨(0, 0), (100, 100)⟩ trigQ ∧
     BinPacking.pack [] ⟨(0, 0), (100, 100)⟩ trigQ = []) :=
  ⟨by with_unfolding_all decide, by with_unfolding_all decide,
   claimC8 [pieceW] ⟨(0, 0), (100, 100)⟩ trigQ 3 10 (by with_unfolding_all decide)
     (by with_unfolding_all decide)⟩

/-- C9: loader normalisation.  A piece built from a hole line is the
outer-minus-hole difference re-homed so that its bounding-box min corner is
exactly the origin (whenever the difference is non-empty, so the box is
defined); and for a parse of hole-free contents, every resulting piece keeps
the deduplicated coordinates of its file line unchanged. -/
theorem claimC9 (outer inner : MArea) (bw bh : ℚ) (num : ℕ) (contents : List LoadLine)
    (res : LoadResult)
    (hne : ((MArea.ofOuterInner outer inner).placeInPosition 0 0).isEmpty = false)
    (hnh : contents.all LoadLine.isPiece = true)
    (h : Utils.loadPieces bw bh num contents = some res) :
    ((MArea.ofOuterInner outer inner).placeInPosition 0 0).getBoundingBox2D.minC = (0, 0) ∧
    ∀ p ∈ res.pieces, ∃ raw, LoadLine.pieceLine raw ∈ contents ∧
      p = MArea.ofPoints (Utils.dedupPoints raw) p.getID :=
  ⟨Utils.holePiece_origin outer inner hne, loadPieces_noHole hnh h⟩

theorem claimC9_witness :
    ((MArea.ofOuterInner sqPiece1 pieceW).placeInPosition 0 0).isEmpty = false ∧
    contentsW.all LoadLine.isPiece = true ∧
    Utils.loadPieces 100 100 1 contentsW = some resW ∧
    (((MArea.ofOuterInner sqPiece1 pieceW).placeInPosition 0 0).getBoundingBox2D.minC
        = (0, 0) ∧
     ∀ p ∈ resW.pieces, ∃ raw, LoadLine.pieceLine raw ∈ contentsW ∧
       p = MArea.ofPoints (Utils.dedupPoints raw) p.getID) :=
  ⟨by with_unfolding_all decide, by with_unfolding_all decide, by with_unfolding_all decide,
   claimC9 sqPiece1 pieceW 100 100 1 contentsW resW (by with_unfolding_all decide)
     (by with_unfolding_all decide) (by with_unfolding_all decide)⟩

/-- C10: dive atomicity.  For every bin state and candidate piece, the bin
returned by `Bin::dive` is exactly the input bin — in particular the
placed-piece sequence and the spatial-index entries are untouched, whether
or not a placement was found; only the caller commits the returned piece. -/
theorem claimC10 (b : Bin) (toDive : MArea) :
    (b.dive toDive).2.placedPieces = b.placedPieces ∧
    (b.dive toDive).2.rtree = b.rtree ∧
    (b.dive toDive).2 = b := by
  have h := Bin.dive_frame b toDive
  exact ⟨by rw [h], by rw [h], h⟩
